import Mathlib

/-!
# tea-util (golang/service/service.go): dynamic value coercion and JSON normalisation

A shallow embedding of the helper functions of `service.go` and the properties
their specification states about them.

Conventions of the embedding

* A Go `string` and a Go `[]byte` are sequences of bytes; a byte is a natural
  number below 256 (`GoString`).
* A Go `interface{}` value is a value of `Any`: the dynamic type is the
  constructor, the held value its argument.  A pointer to a primitive (`*int`,
  `*string`, ...) is an `Option`, `none` being the nil pointer.
* A Go map is the list of its entries with pairwise distinct keys, in the order in
  which `range` (or `reflect.Value.MapKeys`) visits them; `none` is the nil map.
* A function returning `(result, error)` returns `Except`: `.error msg` is the
  pair `(nil, errors.New(msg))`, `.ok r` the pair `(r, nil)`.
* `fmt.Sprintf("%v", a)` prints addresses for pointers, so the rendering of a
  value is a parameter `fmtV` of every function that formats one.
* `strconv.ParseFloat` (floating point) is the parameter `parseFloat` of
  `ParseJSON`, and the comparison of two `reflect.Value` headers (memory layout) is
  the parameter `headerEq` of `IsUnset`.
* The functions of Go's standard library that decide a property (`reflect`,
  `encoding/json`, `strconv.Atoi`, `strconv.ParseBool`, `bytes.TrimSpace`,
  `net/url`, `atomic.AddInt64`) are embedded from their documented behaviour; `int`
  is taken to be 64 bits wide.
* The JSON text that the encoder writes for a `float64` (floating point), for a map
  whose keys are not strings and for a stream is the parameter `encodeOther` of
  `ToJSONString`; what it writes for a byte of a string that is not well-formed
  UTF-8 differs between the releases of Go and is the parameter `inv`.  The MD5 sum
  of `GetNonce` is the parameter `md5Hex`, and what a call reads from the clock, the
  scheduler and the random source is its argument.
* A pointer to a `RuntimeOptions` is an address of a store of records.
-/

namespace TeaUtil

/-! ## Data model -/

/-- A Go string (or byte slice content): a sequence of bytes. -/
abbrev GoString := List Nat

/-- UTF-8 encoding of a code point, as `utf8.EncodeRune` writes it; a surrogate or
a value above U+10FFFF is written as U+FFFD. -/
def utf8EncodeRune (r : Nat) : List Nat :=
  if r < 0x80 then [r]
  else if r < 0x800 then [0xC0 + r / 64, 0x80 + r % 64]
  else if (0xD800 ≤ r ∧ r < 0xE000) ∨ 0x10FFFF < r then [0xEF, 0xBF, 0xBD]
  else if r < 0x10000 then [0xE0 + r / 4096, 0x80 + r / 64 % 64, 0x80 + r % 64]
  else [0xF0 + r / 262144, 0x80 + r / 4096 % 64, 0x80 + r / 64 % 64, 0x80 + r % 64]

/-- The bytes of a text literal of the source. -/
def goStr (s : String) : GoString :=
  (s.toList.map (fun c => utf8EncodeRune c.toNat)).flatten

/-- The kinds of `reflect.Kind` that the values of the model have. -/
inductive Kind where
  | Invalid | Bool | Int | Uint8 | Float64 | String | Ptr | Slice | Array | Map
deriving DecidableEq, Repr

/-- The text of a kind, `reflect.Kind.String`. -/
def kindString : Kind → String
  | .Invalid => "invalid"
  | .Bool => "bool"
  | .Int => "int"
  | .Uint8 => "uint8"
  | .Float64 => "float64"
  | .String => "string"
  | .Ptr => "ptr"
  | .Slice => "slice"
  | .Array => "array"
  | .Map => "map"

/-- A key handed out by `reflect.Value.MapKeys`: a key of kind string, or a key
of another kind, of which only the name of its type and an identity are kept. -/
inductive MapKey where
  | str (s : GoString)
  | other (typeName : String) (id : Nat)
deriving DecidableEq, Repr

/-- A dynamic value, Go's `interface{}`. -/
inductive Any where
  /-- The nil interface value. -/
  | nil
  /-- An `int`. -/
  | int (n : Int)
  /-- A `*int`; `none` is the nil pointer. -/
  | intPtr (p : Option Int)
  /-- A `bool`. -/
  | bool (b : Bool)
  /-- A `*bool`. -/
  | boolPtr (p : Option Bool)
  /-- A `string`. -/
  | str (s : GoString)
  /-- A `*string`. -/
  | strPtr (p : Option GoString)
  /-- A `[]byte`; `none` is the nil slice. -/
  | bytes (b : Option (List Nat))
  /-- A `*[]byte`. -/
  | bytesPtr (p : Option (Option (List Nat)))
  /-- A `uint8`, the element of a `[]byte`. -/
  | uint8 (b : Nat)
  /-- A `float64`, given by its IEEE 754 bits. -/
  | float64 (bits : Nat)
  /-- A `json.Number`: the text of a number literal. -/
  | number (lit : GoString)
  /-- A map whose keys are of kind string, such as `map[string]interface{}`. -/
  | strMap (m : Option (List (GoString × Any)))
  /-- A map whose key type `keyType` is not of kind string; a key is known by
  its identity only. -/
  | keyedMap (keyType : String) (m : Option (List (Nat × Any)))
  /-- A slice other than `[]byte`, its elements seen as dynamic values. -/
  | slice (xs : Option (List Any))
  /-- An array. -/
  | array (xs : List Any)
  /-- A non-nil pointer to a stream that implements `io.Reader`, with the bytes
  that are left to read and whether reading fails. -/
  | reader (data : GoString) (failing : Bool)

/-- The kind of a value, `reflect.ValueOf(a).Kind()`; `json.Number` is a string type. -/
def kind : Any → Kind
  | .nil => .Invalid
  | .int _ => .Int
  | .intPtr _ => .Ptr
  | .bool _ => .Bool
  | .boolPtr _ => .Ptr
  | .str _ => .String
  | .strPtr _ => .Ptr
  | .bytes _ => .Slice
  | .bytesPtr _ => .Ptr
  | .uint8 _ => .Uint8
  | .float64 _ => .Float64
  | .number _ => .String
  | .strMap _ => .Map
  | .keyedMap _ _ => .Map
  | .slice _ => .Slice
  | .array _ => .Array
  | .reader _ _ => .Ptr

/-- Whether the pointer, slice or map is nil, `reflect.Value.IsNil`. -/
def IsNil : Any → Bool
  | .intPtr none => true
  | .boolPtr none => true
  | .strPtr none => true
  | .bytes none => true
  | .bytesPtr none => true
  | .strMap none => true
  | .keyedMap _ none => true
  | .slice none => true
  | _ => false

/-- The keys of a map value, `reflect.Value.MapKeys`. -/
def MapKeys : Any → List MapKey
  | .strMap (some m) => m.map (fun e => MapKey.str e.1)
  | .keyedMap t (some m) => m.map (fun e => MapKey.other t e.1)
  | _ => []

/-- The value stored under a key of `MapKeys`, `r.MapIndex(key).Interface()`. -/
def MapIndex : Any → MapKey → Any
  | .strMap (some m), .str k => (m.lookup k).getD .nil
  | .keyedMap _ (some m), .other _ i => (m.lookup i).getD .nil
  | _, _ => .nil

/-- The text of a key, `reflect.Value.String`: the string itself for a key of kind
string, and the type between angle brackets for any other kind. -/
def keyString : MapKey → GoString
  | .str s => s
  | .other t _ => goStr ("<" ++ t ++ " Value>")

/-- The length of a slice or array, `reflect.Value.Len`. -/
def Len : Any → Nat
  | .bytes (some b) => b.length
  | .slice (some xs) => xs.length
  | .array xs => xs.length
  | _ => 0

/-- The element at an index below `Len`, `r.Index(i).Interface()`. -/
def Index : Any → Nat → Any
  | .bytes (some b), i => .uint8 (b.getD i 0)
  | .slice (some xs), i => xs.getD i .nil
  | .array xs, i => xs.getD i .nil
  | _, _ => .nil

/-- The value behind a `*int`, 0 for nil: `tea.IntValue`. -/
def IntValue : Option Int → Int
  | some n => n
  | none => 0

/-- The value behind a `*bool`, false for nil: `tea.BoolValue`. -/
def BoolValue : Option Bool → Bool
  | some b => b
  | none => false

/-- The value behind a `*string`, the empty string for nil: `tea.StringValue`. -/
def StringValue : Option GoString → GoString
  | some s => s
  | none => []

/-- The assignment `m[k] = v` on a map. -/
def mapSet (m : List (GoString × Any)) (k : GoString) (v : Any) : List (GoString × Any) :=
  match m with
  | [] => [(k, v)]
  | e :: rest => if e.1 = k then (k, v) :: rest else e :: mapSet rest k v

/-! ## Strict coercion (service.go, lines 289-418) -/

/-- `IsUnset`.  The last comparison, `valZero == v`, compares two `reflect.Value`
headers (type, data pointer, flag), not the values they stand for; its outcome
depends on where the runtime placed the two values and is the parameter
`headerEq`. -/
def IsUnset (headerEq : Any → Bool) (val : Any) : Bool :=
  match val with
  | .nil => true
  | v =>
    if kind v = Kind.Ptr ∨ kind v = Kind.Slice ∨ kind v = Kind.Map then IsNil v
    else headerEq v

/-- `AssertAsMap`. -/
def AssertAsMap (fmtV : Any → GoString) (a : Any) : Except GoString (List (GoString × Any)) :=
  if kindString (kind a) ≠ "map" then
    .error (fmtV a ++ goStr " is not a map[string]interface\x7b\x7d")
  else
    .ok ((MapKeys a).foldl (fun res key => mapSet res (keyString key) (MapIndex a key)) [])

/-- `AssertAsNumber`. -/
def AssertAsNumber (fmtV : Any → GoString) (a : Any) : Except GoString Int :=
  match a with
  | .int tmp => .ok tmp
  | .intPtr tmp => .ok (IntValue tmp)
  | _ => .error (fmtV a ++ goStr " is not a int")

/-- `AssertAsInteger`. -/
def AssertAsInteger (fmtV : Any → GoString) (value : Any) : Except GoString Int :=
  match value with
  | .int tmp => .ok tmp
  | .intPtr tmp => .ok (IntValue tmp)
  | _ => .error (fmtV value ++ goStr " is not a int")

/-- `AssertAsBoolean`. -/
def AssertAsBoolean (fmtV : Any → GoString) (a : Any) : Except GoString Bool :=
  match a with
  | .bool tmp => .ok tmp
  | .boolPtr tmp => .ok (BoolValue tmp)
  | _ => .error (fmtV a ++ goStr " is not a bool")

/-- `AssertAsString`. -/
def AssertAsString (fmtV : Any → GoString) (a : Any) : Except GoString GoString :=
  match a with
  | .str tmp => .ok tmp
  | .strPtr tmp => .ok (StringValue tmp)
  | _ => .error (fmtV a ++ goStr " is not a string")

/-- `AssertAsBytes`: the type assertion `a.([]byte)`. -/
def AssertAsBytes (fmtV : Any → GoString) (a : Any) : Except GoString (Option (List Nat)) :=
  match a with
  | .bytes res => .ok res
  | _ => .error (fmtV a ++ goStr " is not a []byte")

/-- The loop of `AssertAsArray`: `for i := 0; i < aLen; i++ { res = append(res, ...) }`,
with the number of iterations still allowed as first argument. -/
def AssertAsArray.loop (a : Any) (aLen : Nat) : Nat → Nat → List Any → List Any
  | 0, _, res => res
  | fuel + 1, i, res =>
    if i < aLen then AssertAsArray.loop a aLen fuel (i + 1) (res ++ [Index a i]) else res

/-- `AssertAsArray`. -/
def AssertAsArray (fmtV : Any → GoString) (a : Any) : Except GoString (List Any) :=
  if kindString (kind a) ≠ "array" ∧ kindString (kind a) ≠ "slice" then
    .error (fmtV a ++ goStr " is not a []interface\x7b\x7d")
  else
    let aLen := Len a
    .ok (AssertAsArray.loop a aLen aLen 0 [])

/-! ## encoding/json: the scanner and the decoder (Go standard library)

`ParseJSON` calls `json.NewDecoder(...)`, `UseNumber()` and `Decode`.  The decoder
reads the first JSON value of the text and ignores what follows it.  The
definitions below follow the state functions of `encoding/json/scanner.go` and
the conversions of `encoding/json/decode.go`. -/

/-- The white space of JSON, `isSpace` of the scanner. -/
def isSpace (c : Nat) : Bool :=
  decide (c = 32 ∨ c = 9 ∨ c = 13 ∨ c = 10)

/-- The text after its leading white space. -/
def skipSpace : List Nat → List Nat
  | [] => []
  | c :: rest => if isSpace c then skipSpace rest else c :: rest

/-- An ASCII decimal digit. -/
def isDigit (c : Nat) : Bool :=
  decide (48 ≤ c ∧ c ≤ 57)

/-- The states of the scanner inside a number literal: `stateNeg`, `state0`,
`state1`, `stateDot`, `stateDot0`, `stateE`, `stateESign`, `stateE0`. -/
inductive NumState where
  | neg | zero | int | dot | frac | exp | expSign | expDigits
deriving DecidableEq, Repr

/-- The number of bytes of the text that still belong to the number literal when
the scanner is in the given state, or `none` when the literal is malformed
or ends too early. -/
def numberLen : NumState → List Nat → Option Nat
  | st, [] =>
    match st with
    | .zero => some 0
    | .int => some 0
    | .frac => some 0
    | .expDigits => some 0
    | _ => none
  | st, c :: rest =>
    match st with
    | .neg =>
      if c = 48 then (numberLen .zero rest).map (· + 1)
      else if 49 ≤ c ∧ c ≤ 57 then (numberLen .int rest).map (· + 1)
      else none
    | .zero =>
      if c = 46 then (numberLen .dot rest).map (· + 1)
      else if c = 101 ∨ c = 69 then (numberLen .exp rest).map (· + 1)
      else some 0
    | .int =>
      if isDigit c then (numberLen .int rest).map (· + 1)
      else if c = 46 then (numberLen .dot rest).map (· + 1)
      else if c = 101 ∨ c = 69 then (numberLen .exp rest).map (· + 1)
      else some 0
    | .dot =>
      if isDigit c then (numberLen .frac rest).map (· + 1) else none
    | .frac =>
      if isDigit c then (numberLen .frac rest).map (· + 1)
      else if c = 101 ∨ c = 69 then (numberLen .exp rest).map (· + 1)
      else some 0
    | .exp =>
      if c = 43 ∨ c = 45 then (numberLen .expSign rest).map (· + 1)
      else if isDigit c then (numberLen .expDigits rest).map (· + 1)
      else none
    | .expSign =>
      if isDigit c then (numberLen .expDigits rest).map (· + 1) else none
    | .expDigits =>
      if isDigit c then (numberLen .expDigits rest).map (· + 1) else some 0

/-- The states of the scanner inside a string literal: `stateInString`,
`stateInStringEsc`, and `stateInStringEscU` with the number of hexadecimal
digits still to come. -/
inductive StrState where
  | plain
  | esc
  | hex (k : Nat)
deriving DecidableEq, Repr

/-- A hexadecimal digit and its value. -/
def hexVal (c : Nat) : Option Nat :=
  if 48 ≤ c ∧ c ≤ 57 then some (c - 48)
  else if 97 ≤ c ∧ c ≤ 102 then some (c - 87)
  else if 65 ≤ c ∧ c ≤ 70 then some (c - 55)
  else none

/-- The number of bytes of the text before the quote that closes the string
literal, or `none` when the literal is malformed or not closed. -/
def stringLen : StrState → List Nat → Option Nat
  | _, [] => none
  | st, c :: rest =>
    match st with
    | .plain =>
      if c = 34 then some 0
      else if c = 92 then (stringLen .esc rest).map (· + 1)
      else if c < 32 then none
      else (stringLen .plain rest).map (· + 1)
    | .esc =>
      if c = 98 ∨ c = 102 ∨ c = 110 ∨ c = 114 ∨ c = 116 ∨ c = 92 ∨ c = 47 ∨ c = 34 then
        (stringLen .plain rest).map (· + 1)
      else if c = 117 then (stringLen (.hex 4) rest).map (· + 1)
      else none
    | .hex k =>
      if (hexVal c).isSome then
        (stringLen (if k ≤ 1 then .plain else .hex (k - 1)) rest).map (· + 1)
      else none

/-- The code unit of an escape `\uXXXX` at the head of the text, `getu4`. -/
def getu4 : List Nat → Option Nat
  | b :: u :: h1 :: h2 :: h3 :: h4 :: _ =>
    if b = 92 ∧ u = 117 then
      match hexVal h1, hexVal h2, hexVal h3, hexVal h4 with
      | some a, some b, some c, some d => some (4096 * a + 256 * b + 16 * c + d)
      | _, _, _, _ => none
    else none
  | _ => none

/-- The length of the well-formed UTF-8 sequence at the head of the text, 0 when
there is none (`utf8.DecodeRune` then yields the replacement rune at width 1). -/
def utf8ValidLen : List Nat → Nat
  | [] => 0
  | c0 :: rest =>
    let isCont := fun (c : Nat) => decide (0x80 ≤ c ∧ c ≤ 0xBF)
    let lo := if c0 = 0xE0 then 0xA0 else if c0 = 0xF0 then 0x90 else 0x80
    let hi := if c0 = 0xED then 0x9F else if c0 = 0xF4 then 0x8F else 0xBF
    if c0 < 0x80 then 1
    else if 0xC2 ≤ c0 ∧ c0 ≤ 0xDF then
      match rest with
      | c1 :: _ => if isCont c1 then 2 else 0
      | _ => 0
    else if 0xE0 ≤ c0 ∧ c0 ≤ 0xEF then
      match rest with
      | c1 :: c2 :: _ => if lo ≤ c1 ∧ c1 ≤ hi ∧ isCont c2 then 3 else 0
      | _ => 0
    else if 0xF0 ≤ c0 ∧ c0 ≤ 0xF4 then
      match rest with
      | c1 :: c2 :: c3 :: _ => if lo ≤ c1 ∧ c1 ≤ hi ∧ isCont c2 ∧ isCont c3 then 4 else 0
      | _ => 0
    else 0

/-- The string that the content of a string literal stands for, `unquote`: escapes
are replaced, a surrogate pair becomes one rune, a lone surrogate and every byte
that is not well-formed UTF-8 become U+FFFD.  The first argument counts the
continuation bytes of a well-formed sequence that are still to be copied. -/
def unquote : Nat → List Nat → GoString
  | _, [] => []
  | copy + 1, c :: rest => c :: unquote copy rest
  | 0, c :: rest =>
    if c = 92 then
      match rest with
      | [] => []
      | e :: rest2 =>
        if e = 117 then
          match rest2 with
          | _ :: _ :: _ :: _ :: rest3 =>
            let tail3 := unquote 0 rest3
            match getu4 (c :: rest) with
            | none => []
            | some rr =>
              if 0xD800 ≤ rr ∧ rr < 0xE000 then
                match rest3 with
                | _ :: _ :: _ :: _ :: _ :: _ :: rest4 =>
                  match getu4 rest3 with
                  | some rr1 =>
                    if rr < 0xDC00 ∧ 0xDC00 ≤ rr1 ∧ rr1 < 0xE000 then
                      utf8EncodeRune ((rr - 0xD800) * 1024 + (rr1 - 0xDC00) + 0x10000)
                        ++ unquote 0 rest4
                    else [0xEF, 0xBF, 0xBD] ++ tail3
                  | none => [0xEF, 0xBF, 0xBD] ++ tail3
                | _ => [0xEF, 0xBF, 0xBD] ++ tail3
              else utf8EncodeRune rr ++ tail3
          | _ => []
        else if e = 98 then 8 :: unquote 0 rest2
        else if e = 102 then 12 :: unquote 0 rest2
        else if e = 110 then 10 :: unquote 0 rest2
        else if e = 114 then 13 :: unquote 0 rest2
        else if e = 116 then 9 :: unquote 0 rest2
        else e :: unquote 0 rest2
    else if c < 0x80 then c :: unquote 0 rest
    else
      match utf8ValidLen (c :: rest) with
      | 0 => [0xEF, 0xBF, 0xBD] ++ unquote 0 rest
      | n + 1 => c :: unquote n rest

/-- The string literal at the head of the text (after its opening quote): the
string it stands for and the text after its closing quote. -/
def scanString (s : List Nat) : Option (GoString × List Nat) :=
  match stringLen .plain s with
  | some n => some (unquote 0 (s.take n), s.drop (n + 1))
  | none => none

/-- The number literal at the head of the text, whose first byte is a minus sign or
a digit: the literal and the text after it. -/
def scanNumber (s : List Nat) : Option (GoString × List Nat) :=
  match s with
  | [] => none
  | c :: rest =>
    let st := if c = 45 then NumState.neg else if c = 48 then NumState.zero else NumState.int
    match numberLen st rest with
    | some n => some (c :: rest.take n, rest.drop n)
    | none => none

/-- The text after the given word, when the text starts with it (the rest of
`true`, `false` or `null`). -/
def scanWord (word : List Nat) (s : List Nat) : Option (List Nat) :=
  if s.take word.length = word then some (s.drop word.length) else none

/-- The nesting limit of the scanner, `maxNestingDepth` (Go 1.15 and later): a text
with more arrays and objects open at one place is refused with the error
`exceeded max depth`. -/
def maxNestingDepth : Nat := 10000

/-- The outcome of decoding a value at the head of a text. -/
inductive Decoded (α : Type) where
  /-- The value and the text after it. -/
  | ok (v : α) (rest : List Nat)
  /-- The text is malformed or ends inside the value (a `SyntaxError` or
  `io.ErrUnexpectedEOF`), or it is nested too deeply. -/
  | bad
  /-- The recursion budget of the model ran out (never the case with the budget
  that `decodeFirst` hands out). -/
  | outOfFuel

mutual
/-- The value at the head of the text, decoded into an `interface{}` with
`UseNumber` (`valueInterface`): an object becomes a `map[string]interface{}`, an
array a `[]interface{}`, a number a `json.Number` holding the literal. -/
def decodeValue : Nat → Nat → List Nat → Decoded Any
  | 0, _, _ => .outOfFuel
  | fuel + 1, depth, s =>
    match skipSpace s with
    | [] => .bad
    | c :: rest =>
      if c = 123 then
        if depth + 1 ≤ maxNestingDepth then
          match skipSpace rest with
          | [] => .bad
          | c2 :: rest2 =>
            if c2 = 125 then .ok (.strMap (some [])) rest2
            else
              match decodeMembers fuel (depth + 1) (c2 :: rest2) [] with
              | .ok m r => .ok (.strMap (some m)) r
              | .bad => .bad
              | .outOfFuel => .outOfFuel
        else .bad
      else if c = 91 then
        if depth + 1 ≤ maxNestingDepth then
          match skipSpace rest with
          | [] => .bad
          | c2 :: rest2 =>
            if c2 = 93 then .ok (.slice (some [])) rest2
            else
              match decodeElems fuel (depth + 1) (c2 :: rest2) [] with
              | .ok xs r => .ok (.slice (some xs)) r
              | .bad => .bad
              | .outOfFuel => .outOfFuel
        else .bad
      else if c = 34 then
        match scanString rest with
        | some (str, r) => .ok (.str str) r
        | none => .bad
      else if c = 45 ∨ isDigit c then
        match scanNumber (c :: rest) with
        | some (lit, r) => .ok (.number lit) r
        | none => .bad
      else if c = 116 then
        match scanWord [114, 117, 101] rest with
        | some r => .ok (.bool true) r
        | none => .bad
      else if c = 102 then
        match scanWord [97, 108, 115, 101] rest with
        | some r => .ok (.bool false) r
        | none => .bad
      else if c = 110 then
        match scanWord [117, 108, 108] rest with
        | some r => .ok .nil r
        | none => .bad
      else .bad
/-- The elements of an array from the head of one element on, appended to the
elements already decoded, up to and including the closing bracket. -/
def decodeElems : Nat → Nat → List Nat → List Any → Decoded (List Any)
  | 0, _, _, _ => .outOfFuel
  | fuel + 1, depth, s, acc =>
    match decodeValue fuel depth s with
    | .ok v r =>
      match skipSpace r with
      | [] => .bad
      | c :: r2 =>
        if c = 44 then decodeElems fuel depth r2 (acc ++ [v])
        else if c = 93 then .ok (acc ++ [v]) r2
        else .bad
    | .bad => .bad
    | .outOfFuel => .outOfFuel
/-- The members of an object from the opening quote of a key on, stored into the
map built so far (a later member replaces an earlier one with the same key), up to
and including the closing brace. -/
def decodeMembers : Nat → Nat → List Nat → List (GoString × Any) → Decoded (List (GoString × Any))
  | 0, _, _, _ => .outOfFuel
  | fuel + 1, depth, s, acc =>
    match s with
    | [] => .bad
    | q :: s1 =>
      if q = 34 then
        match scanString s1 with
        | none => .bad
        | some (key, r) =>
          match skipSpace r with
          | [] => .bad
          | c :: r2 =>
            if c = 58 then
              match decodeValue fuel depth r2 with
              | .ok v r3 =>
                match skipSpace r3 with
                | [] => .bad
                | c2 :: r4 =>
                  if c2 = 44 then decodeMembers fuel depth (skipSpace r4) (mapSet acc key v)
                  else if c2 = 125 then .ok (mapSet acc key v) r4
                  else .bad
              | .bad => .bad
              | .outOfFuel => .outOfFuel
            else .bad
      else .bad
end

/-- The first JSON value of a text as `Decode` reads it into an `interface{}`, or
`none` when the decoder reports an error.  Every call of the decoder uses up at
least one byte of the text or follows one that did, so twice the length of the
text and one is budget enough. -/
def decodeFirst (s : GoString) : Option Any :=
  match decodeValue (2 * s.length + 1) 0 s with
  | .ok v _ => some v
  | _ => none

/-- The call `d.Decode(&mapTmp)` for a `map[string]interface{}`: `none` when it
returns an error, else the map that `mapTmp` then holds.  An object fills the map,
`null` sets it to the nil map, any other value is an `UnmarshalTypeError`. -/
def decodeIntoMap (s : GoString) : Option (Option (List (GoString × Any))) :=
  match decodeFirst s with
  | some (.strMap m) => some m
  | some .nil => some none
  | _ => none

/-- The call `d.Decode(&sliceTmp)` for a `[]interface{}`: `none` when it returns
an error, else the slice that `sliceTmp` then holds. -/
def decodeIntoSlice (s : GoString) : Option (Option (List Any)) :=
  match decodeFirst s with
  | some (.slice xs) => some xs
  | some .nil => some none
  | _ => none

mutual
/-- Whether a value holds every number as a `json.Number`: it is built from the
nil interface, bools, strings, `json.Number`s, and non-nil `map[string]interface{}`
and `[]interface{}` of such values; no `float64` and no `int` occurs in it. -/
def keepsNumbers : Any → Bool
  | .nil => true
  | .bool _ => true
  | .str _ => true
  | .number _ => true
  | .strMap (some m) => keepsNumbersMembers m
  | .slice (some xs) => keepsNumbersElems xs
  | _ => false
/-- Whether every element holds every number as a `json.Number`. -/
def keepsNumbersElems : List Any → Bool
  | [] => true
  | x :: xs => keepsNumbers x && keepsNumbersElems xs
/-- Whether every member holds every number as a `json.Number`. -/
def keepsNumbersMembers : List (GoString × Any) → Bool
  | [] => true
  | e :: m => keepsNumbers e.2 && keepsNumbersMembers m
end

/-- A text that is a JSON object for the decoder: its first byte after white space
is an opening brace and the decoder reads its first value without an error. -/
def isObjectText (s : GoString) : Bool :=
  decide ((skipSpace s).head? = some 123) && (decodeFirst s).isSome

/-- A text that is one whole JSON number literal. -/
def isNumberLiteral (lit : GoString) : Bool :=
  match lit with
  | [] => false
  | c :: rest =>
    decide (c = 45 ∨ isDigit c = true) &&
      decide (numberLen (if c = 45 then NumState.neg else if c = 48 then NumState.zero
        else NumState.int) rest = some rest.length)

/-! ## JSON texts as syntax trees (RFC 8259)

A JSON text is written as a tree: the tree records the literal of every number,
the body of every string and every run of white space, so that `JValue.text`
gives back the text byte for byte.  `JValue.value` is the Go value that the tree
stands for under `UseNumber`. -/

mutual
/-- A JSON value as it is written. -/
inductive JValue where
  | litNull
  | litTrue
  | litFalse
  /-- A number, with its literal. -/
  | number (lit : GoString)
  /-- A string, with the text between its quotes. -/
  | string (raw : GoString)
  /-- An array without elements, with the white space between its brackets. -/
  | emptyArray (ws : List Nat)
  | array (elems : JElems)
  /-- An object without members, with the white space between its braces. -/
  | emptyObject (ws : List Nat)
  | object (members : JMembers)
/-- One or more elements of an array, each with the white space around it. -/
inductive JElems where
  | one (ws1 : List Nat) (v : JValue) (ws2 : List Nat)
  | cons (ws1 : List Nat) (v : JValue) (ws2 : List Nat) (rest : JElems)
/-- One or more members of an object: white space, the key between quotes, white
space, a colon, white space, the value, white space. -/
inductive JMembers where
  | one (ws1 : List Nat) (key : GoString) (ws2 ws3 : List Nat) (v : JValue) (ws4 : List Nat)
  | cons (ws1 : List Nat) (key : GoString) (ws2 ws3 : List Nat) (v : JValue) (ws4 : List Nat)
      (rest : JMembers)
end

mutual
/-- The text of a value. -/
def JValue.text : JValue → List Nat
  | .litNull => [110, 117, 108, 108]
  | .litTrue => [116, 114, 117, 101]
  | .litFalse => [102, 97, 108, 115, 101]
  | .number lit => lit
  | .string raw => 34 :: (raw ++ [34])
  | .emptyArray ws => 91 :: (ws ++ [93])
  | .array elems => 91 :: (elems.text ++ [93])
  | .emptyObject ws => 123 :: (ws ++ [125])
  | .object members => 123 :: (members.text ++ [125])
/-- The text of the elements, separated by commas. -/
def JElems.text : JElems → List Nat
  | .one ws1 v ws2 => ws1 ++ (v.text ++ ws2)
  | .cons ws1 v ws2 rest => ws1 ++ (v.text ++ (ws2 ++ 44 :: rest.text))
/-- The text of the members, separated by commas. -/
def JMembers.text : JMembers → List Nat
  | .one ws1 key ws2 ws3 v ws4 =>
    ws1 ++ 34 :: (key ++ 34 :: (ws2 ++ 58 :: (ws3 ++ (v.text ++ ws4))))
  | .cons ws1 key ws2 ws3 v ws4 rest =>
    ws1 ++ 34 :: (key ++ 34 :: (ws2 ++ 58 :: (ws3 ++ (v.text ++ (ws4 ++ 44 :: rest.text)))))
end

/-- Whether a number literal that stands right before the text ends there: the
text is empty, or its first byte is not one that a number literal is made of. -/
def endsNumber : List Nat → Bool
  | [] => true
  | c :: _ => !(isDigit c || decide (c = 46 ∨ c = 101 ∨ c = 69 ∨ c = 43 ∨ c = 45))

/-- A run of JSON white space. -/
def isSpaces (ws : List Nat) : Bool :=
  ws.all isSpace

/-- The text between the quotes of a string literal: the scanner, started inside
a string, reaches the closing quote exactly at the end of the text. -/
def isStringBody (raw : GoString) : Bool :=
  decide (stringLen .plain (raw ++ [34]) = some raw.length)

mutual
/-- Whether the tree is a JSON text: every number is a number literal, every
string and key a string body, every white space a run of white space. -/
def JValue.wellFormed : JValue → Bool
  | .litNull => true
  | .litTrue => true
  | .litFalse => true
  | .number lit => isNumberLiteral lit
  | .string raw => isStringBody raw
  | .emptyArray ws => isSpaces ws
  | .array elems => elems.wellFormed
  | .emptyObject ws => isSpaces ws
  | .object members => members.wellFormed
/-- Whether the elements are JSON texts. -/
def JElems.wellFormed : JElems → Bool
  | .one ws1 v ws2 => isSpaces ws1 && v.wellFormed && isSpaces ws2
  | .cons ws1 v ws2 rest => isSpaces ws1 && v.wellFormed && isSpaces ws2 && rest.wellFormed
/-- Whether the members are JSON texts. -/
def JMembers.wellFormed : JMembers → Bool
  | .one ws1 key ws2 ws3 v ws4 =>
    isSpaces ws1 && isStringBody key && isSpaces ws2 && isSpaces ws3 && v.wellFormed
      && isSpaces ws4
  | .cons ws1 key ws2 ws3 v ws4 rest =>
    isSpaces ws1 && isStringBody key && isSpaces ws2 && isSpaces ws3 && v.wellFormed
      && isSpaces ws4 && rest.wellFormed
end

mutual
/-- The nesting depth of a value: the largest number of arrays and objects that
are open at one place of its text. -/
def JValue.depth : JValue → Nat
  | .emptyArray _ => 1
  | .array elems => 1 + elems.depth
  | .emptyObject _ => 1
  | .object members => 1 + members.depth
  | _ => 0
/-- The largest nesting depth of the elements. -/
def JElems.depth : JElems → Nat
  | .one _ v _ => v.depth
  | .cons _ v _ rest => max v.depth rest.depth
/-- The largest nesting depth of the values of the members. -/
def JMembers.depth : JMembers → Nat
  | .one _ _ _ _ v _ => v.depth
  | .cons _ _ _ _ v _ rest => max v.depth rest.depth
end

mutual
/-- The number of values, elements and members of a tree. -/
def JValue.size : JValue → Nat
  | .array elems => 1 + elems.size
  | .object members => 1 + members.size
  | _ => 1
/-- The number of values, elements and members of the elements. -/
def JElems.size : JElems → Nat
  | .one _ v _ => 1 + v.size
  | .cons _ v _ rest => 1 + v.size + rest.size
/-- The number of values, elements and members of the members. -/
def JMembers.size : JMembers → Nat
  | .one _ _ _ _ v _ => 1 + v.size
  | .cons _ _ _ _ v _ rest => 1 + v.size + rest.size
end

mutual
/-- The Go value that a JSON value stands for when it is decoded into an
`interface{}` with `UseNumber`: a number is the `json.Number` of its literal. -/
def JValue.value : JValue → Any
  | .litNull => .nil
  | .litTrue => .bool true
  | .litFalse => .bool false
  | .number lit => .number lit
  | .string raw => .str (unquote 0 raw)
  | .emptyArray _ => .slice (some [])
  | .array elems => .slice (some elems.values)
  | .emptyObject _ => .strMap (some [])
  | .object members => .strMap (some (members.store []))
/-- The Go values of the elements, in order. -/
def JElems.values : JElems → List Any
  | .one _ v _ => [v.value]
  | .cons _ v _ rest => v.value :: rest.values
/-- The map after the members have been stored into it in order, a later member
replacing an earlier one with the same key. -/
def JMembers.store : JMembers → List (GoString × Any) → List (GoString × Any)
  | .one _ key _ _ v _, acc => mapSet acc (unquote 0 key) v.value
  | .cons _ key _ _ v _ rest, acc => rest.store (mapSet acc (unquote 0 key) v.value)
end

/-- A text that is a JSON object: white space, the text of a well-formed tree
whose root is an object, white space. -/
def isJSONObject (s : GoString) (ws1 : List Nat) (o : JValue) (ws2 : List Nat) : Prop :=
  s = ws1 ++ (o.text ++ ws2) ∧ isSpaces ws1 = true ∧ isSpaces ws2 = true ∧
    o.wellFormed = true ∧ ((∃ ws, o = .emptyObject ws) ∨ (∃ ms, o = .object ms))

/-- Arrays nested in one another, `n + 1` of them: the text is `n + 1` opening
brackets followed by `n + 1` closing brackets. -/
def nestedArrays : Nat → JValue
  | 0 => .emptyArray []
  | n + 1 => .array (.one [] (nestedArrays n) [])

/-- The object with the one member "a" whose value is `n + 1` arrays nested in one
another; it is nested `n + 2` levels deep. -/
def objectOfNestedArrays (n : Nat) : JValue :=
  .object (.one [] (goStr "a") [] [] (nestedArrays n) [])

/-- The object with the one member "a" whose value is 10000 arrays nested in one
another; it is nested 10001 levels deep. -/
def deepObject : JValue :=
  objectOfNestedArrays 9999

/-! ## strconv (Go standard library) -/

/-- The bit size of `int`, `strconv.IntSize`, on a 64-bit platform. -/
def intSize : Nat := 64

/-- The number that a sequence of decimal digits stands for. -/
def digitsValue (ds : List Nat) : Nat :=
  ds.foldl (fun acc c => acc * 10 + (c - 48)) 0

/-- `strconv.Atoi`: an optional sign and one or more decimal digits, whose value
fits an `int`; `none` stands for a returned error. -/
def Atoi (s : GoString) : Option Int :=
  let neg := decide (s.head? = some 45)
  let body := match s with
    | [] => []
    | c :: rest => if c = 43 ∨ c = 45 then rest else c :: rest
  if body = [] then none
  else if body.all isDigit then
    if neg then
      if digitsValue body ≤ 2 ^ (intSize - 1) then some (-(digitsValue body : Int)) else none
    else
      if digitsValue body < 2 ^ (intSize - 1) then some (digitsValue body : Int) else none
  else none

/-- `strconv.ParseBool`. -/
def ParseBool (s : GoString) : Option Bool :=
  if s = goStr "1" ∨ s = goStr "t" ∨ s = goStr "T" ∨ s = goStr "TRUE" ∨ s = goStr "true"
      ∨ s = goStr "True" then some true
  else if s = goStr "0" ∨ s = goStr "f" ∨ s = goStr "F" ∨ s = goStr "FALSE" ∨ s = goStr "false"
      ∨ s = goStr "False" then some false
  else none

/-- The decimal text of an integer: a minus sign for a negative number, then the
decimal digits without leading zeros (what `strconv.Itoa` writes). -/
def decimalText (n : Int) : GoString :=
  (toString n).toList.map Char.toNat

/-! ## Text and JSON normalisation (service.go, lines 420-449) -/

/-- `ParseJSON`.  `strconv.ParseFloat(s, 64)` is the parameter `parseFloat`: it
yields the bits of the float, or `none` for a returned error. -/
def ParseJSON (parseFloat : GoString → Option Nat) (a : Option GoString) : Any :=
  match decodeIntoMap (StringValue a) with
  | some mapTmp => .strMap mapTmp
  | none =>
    match decodeIntoSlice (StringValue a) with
    | some sliceTmp => .slice sliceTmp
    | none =>
      match Atoi (StringValue a) with
      | some num => .int num
      | none =>
        match ParseBool (StringValue a) with
        | some ok => .bool ok
        | none =>
          match parseFloat (StringValue a) with
          | some floa64tVal => .float64 floa64tVal
          | none => .nil

/-! ## RuntimeOptions (service.go, lines 27-157) -/

/-- The record `RuntimeOptions`; every field is a pointer, `none` the nil pointer. -/
structure RuntimeOptions where
  Autoretry : Option Bool
  IgnoreSSL : Option Bool
  Key : Option GoString
  Cert : Option GoString
  Ca : Option GoString
  MaxAttempts : Option Int
  BackoffPolicy : Option GoString
  BackoffPeriod : Option Int
  ReadTimeout : Option Int
  ConnectTimeout : Option Int
  LocalAddr : Option GoString
  HttpProxy : Option GoString
  HttpsProxy : Option GoString
  NoProxy : Option GoString
  MaxIdleConns : Option Int
  Socks5Proxy : Option GoString
  Socks5NetWork : Option GoString
  KeepAlive : Option Bool

/-- The records that pointers of type `*RuntimeOptions` refer to: the record stored
at every address.  A setter has a pointer receiver: it takes the store and the
address `s` of its receiver and returns the store after the call together with the
pointer it returns. -/
abbrev Store := Nat → RuntimeOptions

/-- `SetAutoretry`. -/
def SetAutoretry (h : Store) (s : Nat) (v : Bool) : Store × Nat :=
  (Function.update h s { h s with Autoretry := some v }, s)

/-- `SetIgnoreSSL`. -/
def SetIgnoreSSL (h : Store) (s : Nat) (v : Bool) : Store × Nat :=
  (Function.update h s { h s with IgnoreSSL := some v }, s)

/-- `SetKey`. -/
def SetKey (h : Store) (s : Nat) (v : GoString) : Store × Nat :=
  (Function.update h s { h s with Key := some v }, s)

/-- `SetCert`. -/
def SetCert (h : Store) (s : Nat) (v : GoString) : Store × Nat :=
  (Function.update h s { h s with Cert := some v }, s)

/-- `SetCa`. -/
def SetCa (h : Store) (s : Nat) (v : GoString) : Store × Nat :=
  (Function.update h s { h s with Ca := some v }, s)

/-- `SetMaxAttempts`. -/
def SetMaxAttempts (h : Store) (s : Nat) (v : Int) : Store × Nat :=
  (Function.update h s { h s with MaxAttempts := some v }, s)

/-- `SetBackoffPolicy`. -/
def SetBackoffPolicy (h : Store) (s : Nat) (v : GoString) : Store × Nat :=
  (Function.update h s { h s with BackoffPolicy := some v }, s)

/-- `SetBackoffPeriod`. -/
def SetBackoffPeriod (h : Store) (s : Nat) (v : Int) : Store × Nat :=
  (Function.update h s { h s with BackoffPeriod := some v }, s)

/-- `SetReadTimeout`. -/
def SetReadTimeout (h : Store) (s : Nat) (v : Int) : Store × Nat :=
  (Function.update h s { h s with ReadTimeout := some v }, s)

/-- `SetConnectTimeout`. -/
def SetConnectTimeout (h : Store) (s : Nat) (v : Int) : Store × Nat :=
  (Function.update h s { h s with ConnectTimeout := some v }, s)

/-- `SetHttpProxy`. -/
def SetHttpProxy (h : Store) (s : Nat) (v : GoString) : Store × Nat :=
  (Function.update h s { h s with HttpProxy := some v }, s)

/-- `SetHttpsProxy`. -/
def SetHttpsProxy (h : Store) (s : Nat) (v : GoString) : Store × Nat :=
  (Function.update h s { h s with HttpsProxy := some v }, s)

/-- `SetNoProxy`. -/
def SetNoProxy (h : Store) (s : Nat) (v : GoString) : Store × Nat :=
  (Function.update h s { h s with NoProxy := some v }, s)

/-- `SetMaxIdleConns`. -/
def SetMaxIdleConns (h : Store) (s : Nat) (v : Int) : Store × Nat :=
  (Function.update h s { h s with MaxIdleConns := some v }, s)

/-- `SetLocalAddr`. -/
def SetLocalAddr (h : Store) (s : Nat) (v : GoString) : Store × Nat :=
  (Function.update h s { h s with LocalAddr := some v }, s)

/-- `SetSocks5Proxy`. -/
def SetSocks5Proxy (h : Store) (s : Nat) (v : GoString) : Store × Nat :=
  (Function.update h s { h s with Socks5Proxy := some v }, s)

/-- `SetSocks5NetWork`. -/
def SetSocks5NetWork (h : Store) (s : Nat) (v : GoString) : Store × Nat :=
  (Function.update h s { h s with Socks5NetWork := some v }, s)

/-- `SetKeepAlive`. -/
def SetKeepAlive (h : Store) (s : Nat) (v : Bool) : Store × Nat :=
  (Function.update h s { h s with KeepAlive := some v }, s)

/-- The fields of a record by name, each as a dynamic value (a pointer). -/
def RuntimeOptions.fields (r : RuntimeOptions) : List (String × Any) :=
  [("Autoretry", .boolPtr r.Autoretry), ("IgnoreSSL", .boolPtr r.IgnoreSSL),
    ("Key", .strPtr r.Key), ("Cert", .strPtr r.Cert),
    ("Ca", .strPtr r.Ca), ("MaxAttempts", .intPtr r.MaxAttempts),
    ("BackoffPolicy", .strPtr r.BackoffPolicy), ("BackoffPeriod", .intPtr r.BackoffPeriod),
    ("ReadTimeout", .intPtr r.ReadTimeout), ("ConnectTimeout", .intPtr r.ConnectTimeout),
    ("LocalAddr", .strPtr r.LocalAddr), ("HttpProxy", .strPtr r.HttpProxy),
    ("HttpsProxy", .strPtr r.HttpsProxy), ("NoProxy", .strPtr r.NoProxy),
    ("MaxIdleConns", .intPtr r.MaxIdleConns), ("Socks5Proxy", .strPtr r.Socks5Proxy),
    ("Socks5NetWork", .strPtr r.Socks5NetWork), ("KeepAlive", .boolPtr r.KeepAlive)]

/-- The effect of a setter of the field `name`, called on the receiver at address
`s` in the store `h`, with outcome `r`: the pointer returned is the receiver, in the
receiver the field `name` holds `v` and every other field is as before, and no
other record of the store has changed. -/
def setsField (h : Store) (s : Nat) (name : String) (v : Any) (r : Store × Nat) : Prop :=
  r.2 = s ∧
  (r.1 s).fields = (h s).fields.map (fun f => if f.1 = name then (name, v) else f) ∧
  (r.1 s).fields.lookup name = some v ∧
  ∀ t, t ≠ s → r.1 t = h t

/-! ## Byte-wise order of strings and sorting (Go: `<` on strings, `slices.Sort`) -/

/-- The comparison `a < b` of two Go strings: byte by byte, a proper prefix first. -/
def strLess : GoString → GoString → Bool
  | [], [] => false
  | [], _ :: _ => true
  | _ :: _, [] => false
  | a :: as, b :: bs => decide (a < b) || (decide (a = b) && strLess as bs)

/-- The strings in ascending order, `slices.Sort` (`sort.Strings`). -/
def sortStrings (keys : List GoString) : List GoString :=
  keys.insertionSort (fun a b => strLess b a = false)

/-- The entries in ascending order of their keys. -/
def sortByKey {β : Type} (entries : List (GoString × β)) : List (GoString × β) :=
  entries.insertionSort (fun x y => strLess y.1 x.1 = false)

/-- The assignment `m[k] = v` on a map with string keys and values of any type. -/
def setEntry {β : Type} (m : List (GoString × β)) (k : GoString) (v : β) : List (GoString × β) :=
  match m with
  | [] => [(k, v)]
  | e :: rest => if e.1 = k then (k, v) :: rest else e :: setEntry rest k v

/-! ## unicode/utf8 and bytes.TrimSpace (Go standard library) -/

/-- `unicode.IsSpace`: the code points with the property White Space. -/
def isSpaceRune (r : Nat) : Bool :=
  decide (r = 9 ∨ r = 10 ∨ r = 11 ∨ r = 12 ∨ r = 13 ∨ r = 32 ∨ r = 0x85 ∨ r = 0xA0 ∨
    r = 0x1680 ∨ (0x2000 ≤ r ∧ r ≤ 0x200A) ∨ r = 0x2028 ∨ r = 0x2029 ∨ r = 0x202F ∨
    r = 0x205F ∨ r = 0x3000)

/-- `utf8.DecodeRune`: the first code point of the text and its width in bytes;
U+FFFD with width 1 when the text does not start with well-formed UTF-8, and with
width 0 when it is empty. -/
def DecodeRune (p : List Nat) : Nat × Nat :=
  match p with
  | [] => (0xFFFD, 0)
  | c0 :: rest =>
    match utf8ValidLen (c0 :: rest), rest with
    | 1, _ => (c0, 1)
    | 2, c1 :: _ => (c0 % 32 * 64 + c1 % 64, 2)
    | 3, c1 :: c2 :: _ => (c0 % 16 * 4096 + c1 % 64 * 64 + c2 % 64, 3)
    | 4, c1 :: c2 :: c3 :: _ =>
      (c0 % 8 * 262144 + c1 % 64 * 4096 + c2 % 64 * 64 + c3 % 64, 4)
    | _, _ => (0xFFFD, 1)

/-- `utf8.RuneStart`: the byte is not a continuation byte. -/
def RuneStart (b : Nat) : Bool :=
  decide (b / 64 % 4 ≠ 2)

/-- The number of bytes from the place where `utf8.DecodeLastRune` starts to decode
to the end of the text, given the text backwards: it steps back over at most three
bytes before the last one until it meets a byte that starts a code point. -/
def lastRuneSpan (r : List Nat) : Nat :=
  match r with
  | _ :: b2 :: rest2 =>
    if RuneStart b2 then 2
    else
      match rest2 with
      | b3 :: rest3 =>
        if RuneStart b3 then 3
        else
          match rest3 with
          | b4 :: rest4 =>
            if RuneStart b4 then 4
            else
              match rest4 with
              | _ :: _ => 5
              | [] => 4
          | [] => 3
      | [] => 2
  | _ => 1

/-- `utf8.DecodeLastRune`: the last code point of the text and its width. -/
def DecodeLastRune (p : List Nat) : Nat × Nat :=
  match p.reverse with
  | [] => (0xFFFD, 0)
  | last :: before =>
    if last < 0x80 then (last, 1)
    else
      let span := lastRuneSpan (last :: before)
      let d := DecodeRune (p.drop (p.length - span))
      if d.2 ≠ span then (0xFFFD, 1) else d

/-- The text without its leading white space code points (`bytes.TrimLeftFunc` with
`unicode.IsSpace`); the first argument bounds the number of code points. -/
def trimLeftSpace : Nat → List Nat → List Nat
  | 0, s => s
  | fuel + 1, s =>
    match s with
    | [] => []
    | c :: rest =>
      if isSpaceRune (DecodeRune (c :: rest)).1 then
        trimLeftSpace fuel ((c :: rest).drop (DecodeRune (c :: rest)).2)
      else c :: rest

/-- The text without its trailing white space code points (`bytes.TrimRightFunc`
with `unicode.IsSpace`); the first argument bounds the number of code points. -/
def trimRightSpace : Nat → List Nat → List Nat
  | 0, s => s
  | fuel + 1, s =>
    match s with
    | [] => []
    | c :: rest =>
      if isSpaceRune (DecodeLastRune (c :: rest)).1 then
        trimRightSpace fuel ((c :: rest).take ((c :: rest).length - (DecodeLastRune (c :: rest)).2))
      else c :: rest

/-- `bytes.TrimSpace`: the text without leading and trailing white space, as
defined by Unicode. -/
def TrimSpace (s : List Nat) : List Nat :=
  trimRightSpace s.length (trimLeftSpace s.length s)

/-! ## encoding/json: the encoder (Go standard library)

`ToJSONString` calls `json.NewEncoder`, `SetEscapeHTML(false)` and `Encode`.  The
definitions below follow `encoding/json/encode.go`. -/

/-- The hexadecimal digit (lower case) of a number below 16. -/
def hexDigit (n : Nat) : Nat :=
  if n < 10 then 48 + n else 87 + n

/-- How the encoder writes a byte of a string that is not well-formed UTF-8.  It
depends on the release of Go; both texts stand for the character U+FFFD. -/
inductive InvalidUTF8 where
  /-- The escape of U+FFFD, a backslash, `u` and four hexadecimal digits: six bytes
  (the earlier releases). -/
  | escape
  /-- The character U+FFFD itself, three bytes (the later releases, Go 1.27 among
  them). -/
  | rune
deriving DecidableEq, Repr

/-- The bytes written for a byte that is not well-formed UTF-8. -/
def InvalidUTF8.text : InvalidUTF8 → List Nat
  | .escape => [92, 117, 102, 102, 102, 100]
  | .rune => [0xEF, 0xBF, 0xBD]

/-- The bytes that `appendString` writes for an ASCII character when `escapeHTML` is
false: a quote and a backslash get a backslash, a control character is written as
backslash and `b`, `f`, `n`, `r` or `t` (Go 1.22 and later for `b` and `f`) or as
backslash and `u00XX`, and every other character is copied (so `<`, `>` and `&`
are). -/
def escapeASCII (c : Nat) : List Nat :=
  if c = 92 ∨ c = 34 then [92, c]
  else if c = 8 then [92, 98]
  else if c = 12 then [92, 102]
  else if c = 10 then [92, 110]
  else if c = 13 then [92, 114]
  else if c = 9 then [92, 116]
  else if c < 0x20 then [92, 117, 48, 48, hexDigit (c / 16), hexDigit (c % 16)]
  else [c]

/-- The text between the quotes of an encoded string, `appendString` with
`escapeHTML` false: an ASCII character is written as `escapeASCII` says, a byte
that is not well-formed UTF-8 as `inv` says, the code points U+2028 and U+2029 as
backslash and `u2028`, `u2029`, and every other byte is copied.  The first number
counts the continuation bytes still to be copied, the second the bytes still to be
skipped. -/
def appendString (inv : InvalidUTF8) : Nat → Nat → List Nat → List Nat
  | _, _, [] => []
  | copy + 1, skip, c :: rest => c :: appendString inv copy skip rest
  | 0, skip + 1, _ :: rest => appendString inv 0 skip rest
  | 0, 0, c :: rest =>
    if c < 0x80 then escapeASCII c ++ appendString inv 0 0 rest
    else
      match utf8ValidLen (c :: rest) with
      | 0 => inv.text ++ appendString inv 0 0 rest
      | n + 1 =>
        if c = 0xE2 ∧ rest.take 2 = [0x80, 0xA8] then
          [92, 117, 50, 48, 50, 56] ++ appendString inv 0 2 rest
        else if c = 0xE2 ∧ rest.take 2 = [0x80, 0xA9] then
          [92, 117, 50, 48, 50, 57] ++ appendString inv 0 2 rest
        else c :: appendString inv n 0 rest

/-- The string that a Go string is read back as from its JSON text: every byte that
is not part of a well-formed UTF-8 sequence is replaced by U+FFFD, and a string of
well-formed UTF-8 is left as it is.  The number counts the continuation bytes
still to be copied. -/
def coerceUTF8 : Nat → List Nat → List Nat
  | _, [] => []
  | copy + 1, c :: rest => c :: coerceUTF8 copy rest
  | 0, c :: rest =>
    match utf8ValidLen (c :: rest) with
    | 0 => [0xEF, 0xBF, 0xBD] ++ coerceUTF8 0 rest
    | n + 1 => c :: coerceUTF8 n rest

/-- A Unicode scalar value: a code point up to U+10FFFF that is not a surrogate. -/
def isScalarValue (r : Nat) : Bool :=
  decide (r < 0xD800 ∨ (0xE000 ≤ r ∧ r ≤ 0x10FFFF))

/-- The ASCII characters that `appendString` copies as they are when HTML escaping
is off, `safeSet`: all from the space on but the quote and the backslash. -/
def safeSet (c : Nat) : Bool :=
  decide (32 ≤ c ∧ c < 128 ∧ c ≠ 34 ∧ c ≠ 92)

/-- The encoding of a string: `appendString` between quotes. -/
def encodeString (inv : InvalidUTF8) (s : GoString) : GoString :=
  34 :: (appendString inv 0 0 s ++ [34])

/-- A character of the alphabet of `base64.StdEncoding`. -/
def base64Char (n : Nat) : Nat :=
  if n < 26 then 65 + n
  else if n < 52 then 97 + (n - 26)
  else if n < 62 then 48 + (n - 52)
  else if n = 62 then 43
  else 47

/-- `base64.StdEncoding.EncodeToString`, with padding. -/
def base64Encode : List Nat → List Nat
  | [] => []
  | [a] => [base64Char (a / 4), base64Char (a % 4 * 16), 61, 61]
  | [a, b] => [base64Char (a / 4), base64Char (a % 4 * 16 + b / 16), base64Char (b % 16 * 4), 61]
  | a :: b :: c :: rest =>
    base64Char (a / 4) :: base64Char (a % 4 * 16 + b / 16) :: base64Char (b % 16 * 4 + c / 64)
      :: base64Char (c % 64) :: base64Encode rest

/-- The encoding of a `json.Number`: the literal itself (`0` for the empty
literal), an error when it is not a valid JSON number (`isValidNumber`, which
accepts the texts that are one whole number literal). -/
def encodeNumber (lit : GoString) : Option GoString :=
  let numStr := if lit = [] then goStr "0" else lit
  if isNumberLiteral numStr then some numStr else none

/-- The members of an encoded object, in the given order: each key encoded as a
string, a colon, the encoded value; separated by commas. -/
def joinMembers (inv : InvalidUTF8) (es : List (GoString × GoString)) : GoString :=
  [44].intercalate (es.map (fun e => encodeString inv e.1 ++ 58 :: e.2))

mutual
/-- The JSON text of a value, as the encoder writes it without HTML escaping, or
`none` when the encoder reports an error.  The text of a `float64` (floating
point), of a map whose keys are not strings and of a stream (types outside
the model) is the parameter `encodeOther`; `inv` says how a byte that is not
well-formed UTF-8 is written. -/
def encodeValue (inv : InvalidUTF8) (encodeOther : Any → Option GoString) :
    Any → Option GoString
  | .nil => some (goStr "null")
  | .int n => some (decimalText n)
  | .intPtr none => some (goStr "null")
  | .intPtr (some n) => some (decimalText n)
  | .bool b => some (if b then goStr "true" else goStr "false")
  | .boolPtr none => some (goStr "null")
  | .boolPtr (some b) => some (if b then goStr "true" else goStr "false")
  | .str s => some (encodeString inv s)
  | .strPtr none => some (goStr "null")
  | .strPtr (some s) => some (encodeString inv s)
  | .bytes none => some (goStr "null")
  | .bytes (some b) => some (34 :: (base64Encode b ++ [34]))
  | .bytesPtr none => some (goStr "null")
  | .bytesPtr (some none) => some (goStr "null")
  | .bytesPtr (some (some b)) => some (34 :: (base64Encode b ++ [34]))
  | .uint8 b => some (decimalText (b : Int))
  | .float64 bits => encodeOther (.float64 bits)
  | .number lit => encodeNumber lit
  | .strMap none => some (goStr "null")
  | .strMap (some m) =>
    match encodeMembers inv encodeOther m with
    | some es => some (123 :: (joinMembers inv (sortByKey es) ++ [125]))
    | none => none
  | .keyedMap t m => encodeOther (.keyedMap t m)
  | .slice none => some (goStr "null")
  | .slice (some xs) =>
    match encodeElems inv encodeOther xs with
    | some es => some (91 :: ([44].intercalate es ++ [93]))
    | none => none
  | .array xs =>
    match encodeElems inv encodeOther xs with
    | some es => some (91 :: ([44].intercalate es ++ [93]))
    | none => none
  | .reader data failing => encodeOther (.reader data failing)
/-- The JSON texts of the elements, or `none` when one of them has none. -/
def encodeElems (inv : InvalidUTF8) (encodeOther : Any → Option GoString) :
    List Any → Option (List GoString)
  | [] => some []
  | x :: xs =>
    match encodeValue inv encodeOther x, encodeElems inv encodeOther xs with
    | some e, some es => some (e :: es)
    | _, _ => none
/-- The keys of the entries with the JSON texts of their values, or `none` when
one of the values has none. -/
def encodeMembers (inv : InvalidUTF8) (encodeOther : Any → Option GoString) :
    List (GoString × Any) → Option (List (GoString × GoString))
  | [] => some []
  | e :: m =>
    match encodeValue inv encodeOther e.2, encodeMembers inv encodeOther m with
    | some t, some es => some ((e.1, t) :: es)
    | _, _ => none
end

mutual
/-- Whether the JSON text of a value is fixed by the model: no `float64`, no map
whose keys are not strings and no stream occurs in it. -/
def isModelled : Any → Bool
  | .float64 _ => false
  | .keyedMap _ _ => false
  | .reader _ _ => false
  | .strMap (some m) => isModelledMembers m
  | .slice (some xs) => isModelledElems xs
  | .array xs => isModelledElems xs
  | _ => true
/-- Whether the JSON text of every element is fixed by the model. -/
def isModelledElems : List Any → Bool
  | [] => true
  | x :: xs => isModelled x && isModelledElems xs
/-- Whether the JSON text of the value of every entry is fixed by the model. -/
def isModelledMembers : List (GoString × Any) → Bool
  | [] => true
  | e :: m => isModelled e.2 && isModelledMembers m
end

mutual
/-- The JSON value that a Go value stands for, given as the Go value that the
decoder with `UseNumber` reads from a JSON text: a nil pointer, slice or map is
null, an integer is the number of its decimal text, a string is the string (with
U+FFFD for every byte that is not well-formed UTF-8), a `[]byte` is the string of
its base64 text, a slice or an array is the array of its elements, and a map is the
object of its entries, written in ascending order of the keys. -/
def jsonValue : Any → Any
  | .nil => .nil
  | .int n => .number (decimalText n)
  | .intPtr none => .nil
  | .intPtr (some n) => .number (decimalText n)
  | .bool b => .bool b
  | .boolPtr none => .nil
  | .boolPtr (some b) => .bool b
  | .str s => .str (coerceUTF8 0 s)
  | .strPtr none => .nil
  | .strPtr (some s) => .str (coerceUTF8 0 s)
  | .bytes none => .nil
  | .bytes (some b) => .str (base64Encode b)
  | .bytesPtr none => .nil
  | .bytesPtr (some none) => .nil
  | .bytesPtr (some (some b)) => .str (base64Encode b)
  | .uint8 b => .number (decimalText (b : Int))
  | .float64 bits => .float64 bits
  | .number lit => .number (if lit = [] then goStr "0" else lit)
  | .strMap none => .nil
  | .strMap (some m) =>
    .strMap (some ((sortByKey (jsonMembers m)).foldl
      (fun acc e => mapSet acc (coerceUTF8 0 e.1) e.2) []))
  | .keyedMap t m => .keyedMap t m
  | .slice none => .nil
  | .slice (some xs) => .slice (some (jsonValues xs))
  | .array xs => .slice (some (jsonValues xs))
  | .reader data failing => .reader data failing
/-- The JSON values of the elements. -/
def jsonValues : List Any → List Any
  | [] => []
  | x :: xs => jsonValue x :: jsonValues xs
/-- The keys of the entries with the JSON values of their values. -/
def jsonMembers : List (GoString × Any) → List (GoString × Any)
  | [] => []
  | e :: m => (e.1, jsonValue e.2) :: jsonMembers m
end

mutual
/-- The nesting depth of a Go value: the largest number of slices, arrays and maps
with string keys that hold one another in it. -/
def nesting : Any → Nat
  | .strMap (some m) => 1 + nestingMembers m
  | .slice (some xs) => 1 + nestingElems xs
  | .array xs => 1 + nestingElems xs
  | _ => 0
/-- The largest nesting depth of the elements. -/
def nestingElems : List Any → Nat
  | [] => 0
  | x :: xs => max (nesting x) (nestingElems xs)
/-- The largest nesting depth of the values of the entries. -/
def nestingMembers : List (GoString × Any) → Nat
  | [] => 0
  | e :: m => max (nesting e.2) (nestingMembers m)
end

/-- `Encoder.Encode`: what is written to the buffer, the JSON text and a newline;
`none` when it returns an error. -/
def Encode (inv : InvalidUTF8) (encodeOther : Any → Option GoString) (v : Any) :
    Option GoString :=
  match encodeValue inv encodeOther v with
  | some e => some (e ++ [10])
  | none => none

/-! ## Text and JSON normalisation (service.go, lines 171-230) -/

/-- The values that `ToJSONString` takes as a text or a stream, the cases of its
type switch: `*string`, `string`, `[]byte` and `io.Reader`. -/
def isTextOrStream : Any → Bool
  | .strPtr _ => true
  | .str _ => true
  | .bytes _ => true
  | .reader _ _ => true
  | _ => false

/-- The values whose JSON text is the parameter `encodeOther`: a `float64`, a map
whose keys are not strings, a stream. -/
def isOther : Any → Bool
  | .float64 _ => true
  | .keyedMap _ _ => true
  | .reader _ _ => true
  | _ => false

/-- A text that starts and ends with an ASCII character that is not white space. -/
def isTight (e : GoString) : Bool :=
  match e.head?, e.getLast? with
  | some c, some d =>
    decide (c < 0x80) && !isSpaceRune c && (decide (d < 0x80) && !isSpaceRune d)
  | _, _ => false

/-- `ToJSONString`; `none` is the nil `*string`.  `ioutil.ReadAll` of a stream
yields the bytes left to read, or an error when reading fails. -/
def ToJSONString (inv : InvalidUTF8) (encodeOther : Any → Option GoString) (a : Any) :
    Option GoString :=
  match a with
  | .strPtr v => v
  | .str v => some v
  | .bytes v => some (v.getD [])
  | .reader data failing => if failing then none else some data
  | _ =>
    match Encode inv encodeOther a with
    | none => none
    | some byt => some (TrimSpace byt)

/-- The comparison `value != nil` of an interface value with nil: a nil pointer,
slice or map held by the interface is not the nil interface. -/
def notNil : Any → Bool
  | .nil => false
  | _ => true

/-- `StringifyMapValue`. -/
def StringifyMapValue (inv : InvalidUTF8) (encodeOther : Any → Option GoString)
    (a : Option (List (GoString × Any))) : List (GoString × Option GoString) :=
  (a.getD []).foldl
    (fun res e => if notNil e.2 then setEntry res e.1 (ToJSONString inv encodeOther e.2) else res)
    []

/-- `AnyifyMapValue`. -/
def AnyifyMapValue (a : Option (List (GoString × Option GoString))) : List (GoString × Any) :=
  (a.getD []).foldl (fun res e => mapSet res e.1 (.str (StringValue e.2))) []

/-! ## Nonce (service.go, lines 48-49 and 257-267) -/

/-- The value of an `int64` after an operation whose mathematical result is `n`:
arithmetic wraps around modulo 2^64. -/
def wrapInt64 (n : Int) : Int :=
  (n + 2 ^ 63) % 2 ^ 64 - 2 ^ 63

/-- `atomic.AddInt64(addr, delta)`: the new value, which is stored at `addr` and
returned. -/
def AddInt64 (addr : Int) (delta : Int) : Int :=
  wrapInt64 (addr + delta)

/-- What a call of `GetNonce` reads from its environment: the identifier of the
goroutine (`getGID`, a `uint64`), the time in milliseconds (an `int64`) and the
random number (`rand.Int63`, not negative). -/
structure NonceCall where
  routineId : Nat
  currentTime : Int
  randNum : Nat

/-- The message that `GetNonce` hashes:
`fmt.Sprintf("%d-%d-%d-%d-%d", processStartTime, routineId, currentTime, seq, randNum)`. -/
def nonceMsg (processStartTime : Int) (routineId : Nat) (currentTime : Int) (seq : Int)
    (randNum : Nat) : GoString :=
  decimalText processStartTime ++ 45 :: (decimalText (routineId : Int) ++ 45 ::
    (decimalText currentTime ++ 45 :: (decimalText seq ++ 45 :: decimalText (randNum : Int))))

/-- The initial value of the package variable `seqId`. -/
def seqIdInit : Int := 0

/-- `GetNonce`, with the value of `seqId` before the call: the message `msg`, the
result and the value of `seqId` after the call.  The hash, written in hexadecimal
(`hex.EncodeToString` of the MD5 sum), is the parameter `md5Hex`. -/
def GetNonce (md5Hex : GoString → GoString) (processStartTime : Int) (c : NonceCall)
    (seqId : Int) : GoString × GoString × Int :=
  let routineId := c.routineId
  let currentTime := c.currentTime
  let seq := AddInt64 seqId 1
  let randNum := c.randNum
  let msg := nonceMsg processStartTime routineId currentTime seq randNum
  (msg, md5Hex msg, seq)

/-- The value of `seqId` after the given calls of `GetNonce`, taken in the order of
their atomic additions, in a process that has just started. -/
def seqIdAfter (md5Hex : GoString → GoString) (processStartTime : Int)
    (calls : List NonceCall) : Int :=
  calls.foldl (fun seqId c => (GetNonce md5Hex processStartTime c seqId).2.2) seqIdInit

/-- The message of the call number `k` (counted from 1) among the given calls. -/
def msgOfCall (md5Hex : GoString → GoString) (processStartTime : Int)
    (calls : List NonceCall) (k : Nat) : Option GoString :=
  match calls.get? (k - 1) with
  | some c =>
    if k = 0 then none
    else some (GetNonce md5Hex processStartTime c
      (seqIdAfter md5Hex processStartTime (calls.take (k - 1)))).1
  | none => none

/-! ## Form encoding (service.go, lines 463-475; net/url) -/

/-- The hexadecimal digit (upper case) of a number below 16, `upperhex`. -/
def upperhex (n : Nat) : Nat :=
  if n < 10 then 48 + n else 55 + n

/-- Whether `url.QueryEscape` leaves the byte as it is: letters, digits, `-`, `_`,
`.` and `~`. -/
def isUnreserved (c : Nat) : Bool :=
  decide ((97 ≤ c ∧ c ≤ 122) ∨ (65 ≤ c ∧ c ≤ 90) ∨ (48 ≤ c ∧ c ≤ 57) ∨
    c = 45 ∨ c = 95 ∨ c = 46 ∨ c = 126)

/-- `url.QueryEscape`: a space becomes `+`, every other byte that is not left as it
is becomes `%XX`. -/
def QueryEscape (s : GoString) : GoString :=
  s.flatMap (fun c =>
    if isUnreserved c then [c]
    else if c = 32 then [43]
    else [37, upperhex (c / 16), upperhex (c % 16)])

/-- `url.QueryUnescape`: `+` becomes a space and `%XX` the byte with that
hexadecimal value; `none` stands for the error returned when a `%` is not followed
by two hexadecimal digits. -/
def QueryUnescape : GoString → Option GoString
  | [] => some []
  | c :: rest =>
    let tail := QueryUnescape rest
    if c = 37 then
      match rest with
      | h1 :: h2 :: rest2 =>
        match hexVal h1, hexVal h2 with
        | some a, some b => (QueryUnescape rest2).map (fun r => (16 * a + b) :: r)
        | _, _ => none
      | _ => none
    else if c = 43 then tail.map (fun r => 32 :: r)
    else tail.map (fun r => c :: r)

/-- `url.Values.Add`: the value is appended to the values of the key. -/
def Values.Add (v : List (GoString × List GoString)) (key value : GoString) :
    List (GoString × List GoString) :=
  match v with
  | [] => [(key, [value])]
  | e :: rest =>
    if e.1 = key then (key, e.2 ++ [value]) :: rest else e :: Values.Add rest key value

/-- `url.Values.Encode`: the keys in ascending order, and for every value of a key
`key=value`, both escaped, with `&` before every pair but the first. -/
def Values.Encode (v : List (GoString × List GoString)) : GoString :=
  (sortStrings (v.map Prod.fst)).foldl
    (fun buf k =>
      ((v.lookup k).getD []).foldl
        (fun buf val =>
          (if buf.length > 0 then buf ++ [38] else buf) ++ (QueryEscape k ++ 61 :: QueryEscape val))
        buf)
    []

/-- `ToFormString`; `fmt.Sprintf("%v", value)` is the parameter `fmtV`. -/
def ToFormString (fmtV : Any → GoString) (a : Option (List (GoString × Any))) : GoString :=
  match a with
  | none => goStr ""
  | some m =>
    Values.Encode (m.foldl (fun urlEncoder e => Values.Add urlEncoder e.1 (fmtV e.2)) [])

/-! ## User agent and status classes (service.go, lines 25 and 481-506) -/

/-- `strings.Trim(s, cutset)` for a cutset of ASCII characters: the text without
the leading and trailing bytes that are in the cutset. -/
def Trim (s cutset : GoString) : GoString :=
  ((s.dropWhile (fun c => decide (c ∈ cutset))).reverse.dropWhile
    (fun c => decide (c ∈ cutset))).reverse

/-- The package variable `defaultUserAgent`; `runtime.GOOS`, `runtime.GOARCH` and
`runtime.Version()` are parameters. -/
def defaultUserAgent (GOOS GOARCH Version : GoString) : GoString :=
  goStr "AlibabaCloud (" ++ GOOS ++ goStr "; " ++ GOARCH ++ goStr ") Golang/"
    ++ Trim Version (goStr "go") ++ goStr " Core/" ++ goStr "0.01" ++ goStr " TeaDSL/1"

/-- `GetUserAgent`, with the value of the package variable `defaultUserAgent`. -/
def GetUserAgent (defaultUserAgent : GoString) (userAgent : Option GoString) : GoString :=
  if userAgent ≠ none ∧ StringValue userAgent ≠ goStr "" then
    defaultUserAgent ++ goStr " " ++ StringValue userAgent
  else defaultUserAgent

/-- `Is2xx`. -/
def Is2xx (code : Option Int) : Bool :=
  let tmp := IntValue code
  decide (tmp ≥ 200 ∧ tmp < 300)

/-- `Is3xx`. -/
def Is3xx (code : Option Int) : Bool :=
  let tmp := IntValue code
  decide (tmp ≥ 300 ∧ tmp < 400)

/-- `Is4xx`. -/
def Is4xx (code : Option Int) : Bool :=
  let tmp := IntValue code
  decide (tmp ≥ 400 ∧ tmp < 500)

/-- `Is5xx`. -/
def Is5xx (code : Option Int) : Bool :=
  let tmp := IntValue code
  decide (tmp ≥ 500 ∧ tmp < 600)

/-! ## Theorems -/

theorem kindString_eq_map (k : Kind) : kindString k = "map" ↔ k = Kind.Map := by
  cases k <;> simp [kindString]

theorem kindString_eq_array (k : Kind) : kindString k = "array" ↔ k = Kind.Array := by
  cases k <;> simp [kindString]

theorem kindString_eq_slice (k : Kind) : kindString k = "slice" ↔ k = Kind.Slice := by
  cases k <;> simp [kindString]

/-! ### Strict coercion of primitives -/

/-- C1: each of `AssertAsNumber`, `AssertAsBoolean` and `AssertAsString` succeeds
exactly on its concrete type and on the pointer to it, returns the held value (the
zero value for the nil pointer), and on every other value, the nil interface
included, returns the error whose text is the rendering of the value followed by
` is not a int`, ` is not a bool`, ` is not a string`. -/
theorem assertAs_primitive_spec (fmtV : Any → GoString) (a : Any) :
    (((∃ r, AssertAsNumber fmtV a = .ok r) ↔ ((∃ n, a = .int n) ∨ (∃ p, a = .intPtr p))) ∧
      (∀ n, AssertAsNumber fmtV (.int n) = .ok n) ∧
      (∀ n, AssertAsNumber fmtV (.intPtr (some n)) = .ok n) ∧
      AssertAsNumber fmtV (.intPtr none) = .ok 0 ∧
      (¬ ((∃ n, a = .int n) ∨ (∃ p, a = .intPtr p)) →
        AssertAsNumber fmtV a = .error (fmtV a ++ goStr " is not a int")) ∧
      AssertAsNumber fmtV .nil = .error (fmtV .nil ++ goStr " is not a int")) ∧
    (((∃ r, AssertAsBoolean fmtV a = .ok r) ↔ ((∃ b, a = .bool b) ∨ (∃ p, a = .boolPtr p))) ∧
      (∀ b, AssertAsBoolean fmtV (.bool b) = .ok b) ∧
      (∀ b, AssertAsBoolean fmtV (.boolPtr (some b)) = .ok b) ∧
      AssertAsBoolean fmtV (.boolPtr none) = .ok false ∧
      (¬ ((∃ b, a = .bool b) ∨ (∃ p, a = .boolPtr p)) →
        AssertAsBoolean fmtV a = .error (fmtV a ++ goStr " is not a bool")) ∧
      AssertAsBoolean fmtV .nil = .error (fmtV .nil ++ goStr " is not a bool")) ∧
    (((∃ r, AssertAsString fmtV a = .ok r) ↔ ((∃ s, a = .str s) ∨ (∃ p, a = .strPtr p))) ∧
      (∀ s, AssertAsString fmtV (.str s) = .ok s) ∧
      (∀ s, AssertAsString fmtV (.strPtr (some s)) = .ok s) ∧
      AssertAsString fmtV (.strPtr none) = .ok [] ∧
      (¬ ((∃ s, a = .str s) ∨ (∃ p, a = .strPtr p)) →
        AssertAsString fmtV a = .error (fmtV a ++ goStr " is not a string")) ∧
      AssertAsString fmtV .nil = .error (fmtV .nil ++ goStr " is not a string")) := by
  refine ⟨⟨?_, ?_, ?_, ?_, ?_, ?_⟩, ⟨?_, ?_, ?_, ?_, ?_, ?_⟩, ⟨?_, ?_, ?_, ?_, ?_, ?_⟩⟩
  all_goals first
    | rfl
    | (intros; rfl)
    | (cases a <;> simp [AssertAsNumber, AssertAsBoolean, AssertAsString])

/-! ### `AssertAsMap` -/

theorem mapSet_of_not_mem (m : List (GoString × Any)) (k : GoString) (v : Any)
    (h : k ∉ m.map Prod.fst) : mapSet m k v = m ++ [(k, v)] := by
  induction m with
  | nil => rfl
  | cons e rest ih =>
    simp only [List.map_cons, List.mem_cons, not_or] at h
    have hne : ¬ e.1 = k := fun h2 => h.1 h2.symm
    simp [mapSet, hne, ih h.2]

theorem lookup_append_cons_of_not_mem (pre rest : List (GoString × Any)) (e : GoString × Any)
    (h : e.1 ∉ pre.map Prod.fst) : (pre ++ e :: rest).lookup e.1 = some e.2 := by
  induction pre with
  | nil => simp [List.lookup]
  | cons x pre ih =>
    simp only [List.map_cons, List.mem_cons, not_or] at h
    have hne : (e.1 == x.1) = false := by simpa using h.1
    obtain ⟨xk, xv⟩ := x
    simp only [List.cons_append, List.lookup, hne]
    exact ih h.2

theorem assertAsMap_fold (m : List (GoString × Any)) :
    ∀ (rest pre : List (GoString × Any)), m = pre ++ rest → (m.map Prod.fst).Nodup →
      (rest.map (fun e => MapKey.str e.1)).foldl
        (fun res key => mapSet res (keyString key) (MapIndex (.strMap (some m)) key)) pre = m := by
  intro rest
  induction rest with
  | nil => intro pre hm _; simp [hm]
  | cons e rest ih =>
    intro pre hm hnd
    have hnot : e.1 ∉ pre.map Prod.fst := by
      rw [hm] at hnd
      simp only [List.map_append, List.map_cons] at hnd
      have := (List.nodup_append.1 hnd).2.2
      intro hin
      exact this hin (List.mem_cons_self _ _)
    have hlook : m.lookup e.1 = some e.2 := by
      rw [hm]; exact lookup_append_cons_of_not_mem pre rest e hnot
    simp only [List.map_cons, List.foldl_cons, keyString, MapIndex, hlook, Option.getD_some]
    rw [mapSet_of_not_mem pre e.1 e.2 hnot]
    exact ih (pre ++ [(e.1, e.2)]) (by simp [hm]) hnd

/-- C2: `AssertAsMap` succeeds exactly on the values of kind map and fails on every
other value (a sequence and the nil interface among them) with the error
` is not a map[string]interface{}`; on a map with string keys it returns
a map with exactly the entries of the argument, and on the nil map the empty
map. -/
theorem assertAsMap_spec (fmtV : Any → GoString) (a : Any) :
    ((∃ res, AssertAsMap fmtV a = .ok res) ↔ kind a = Kind.Map) ∧
    (kind a ≠ Kind.Map →
      AssertAsMap fmtV a = .error (fmtV a ++ goStr " is not a map[string]interface\x7b\x7d")) ∧
    (∀ xs, AssertAsMap fmtV (.slice xs)
      = .error (fmtV (.slice xs) ++ goStr " is not a map[string]interface\x7b\x7d")) ∧
    AssertAsMap fmtV .nil = .error (fmtV .nil ++ goStr " is not a map[string]interface\x7b\x7d") ∧
    AssertAsMap fmtV (.strMap none) = .ok [] ∧
    (∀ m : List (GoString × Any), (m.map Prod.fst).Nodup →
      AssertAsMap fmtV (.strMap (some m)) = .ok m ∧
      ∀ res, AssertAsMap fmtV (.strMap (some m)) = .ok res →
        res.map Prod.fst = m.map Prod.fst ∧ ∀ k, res.lookup k = m.lookup k) := by
  have hok : ∀ m : List (GoString × Any), (m.map Prod.fst).Nodup →
      AssertAsMap fmtV (.strMap (some m)) = .ok m := by
    intro m hnd
    simp only [AssertAsMap, kind, kindString, ne_eq, not_true_eq_false, if_false, MapKeys]
    rw [assertAsMap_fold m m [] rfl hnd]
  refine ⟨?_, ?_, ?_, ?_, ?_, ?_⟩
  · by_cases hk : kind a = Kind.Map
    · simp [AssertAsMap, hk, kindString]
    · have : kindString (kind a) ≠ "map" := fun h => hk ((kindString_eq_map _).1 h)
      simp [AssertAsMap, this, hk]
  · intro hk
    have : kindString (kind a) ≠ "map" := fun h => hk ((kindString_eq_map _).1 h)
    simp [AssertAsMap, this]
  · intro xs; rfl
  · rfl
  · rfl
  · intro m hnd
    refine ⟨hok m hnd, ?_⟩
    intro res hres
    rw [hok m hnd] at hres
    cases hres
    exact ⟨rfl, fun _ => rfl⟩

/-- C2, at a concrete map: `AssertAsMap` of the map with the one entry "x": 1. -/
theorem assertAsMap_spec_witness :
    AssertAsMap (fun _ => []) (.strMap (some [(goStr "x", Any.int 1)]))
      = .ok [(goStr "x", Any.int 1)] :=
  ((assertAsMap_spec (fun _ => []) (.strMap (some [(goStr "x", Any.int 1)]))).2.2.2.2.2
    [(goStr "x", Any.int 1)] (by decide)).1

/-! ### `AssertAsArray` -/

theorem assertAsArray_loop (a : Any) (aLen : Nat) :
    ∀ (fuel i : Nat) (res : List Any), aLen - i ≤ fuel →
      AssertAsArray.loop a aLen fuel i res
        = res ++ (List.range' i (aLen - i)).map (Index a) := by
  intro fuel
  induction fuel with
  | zero =>
    intro i res h
    have h0 : aLen - i = 0 := by omega
    simp [AssertAsArray.loop, h0]
  | succ fuel ih =>
    intro i res h
    by_cases hi : i < aLen
    · have hstep : aLen - i = (aLen - (i + 1)) + 1 := by omega
      simp only [AssertAsArray.loop, hi, if_true]
      rw [ih (i + 1) (res ++ [Index a i]) (by omega), hstep, List.range'_succ]
      simp
    · have h0 : aLen - i = 0 := by omega
      simp [AssertAsArray.loop, hi, h0]

theorem map_getD_range (xs : List Any) (d : Any) :
    (List.range' 0 xs.length).map (fun i => xs.getD i d) = xs := by
  apply List.ext_getElem
  · simp
  · intro i h1 h2
    simp [List.getD_eq_getElem?_getD, List.getElem?_eq_getElem h2]

theorem map_getD_range_bytes (b : List Nat) :
    (List.range' 0 b.length).map (fun i => Any.uint8 (b.getD i 0)) = b.map Any.uint8 := by
  apply List.ext_getElem
  · simp
  · intro i h1 h2
    have h3 : i < b.length := by simpa using h2
    simp [List.getD_eq_getElem?_getD, List.getElem?_eq_getElem h3]

theorem assertAsArray_ok (fmtV : Any → GoString) (a : Any)
    (h : kind a = Kind.Slice ∨ kind a = Kind.Array) :
    AssertAsArray fmtV a = .ok ((List.range' 0 (Len a)).map (Index a)) := by
  have hcond : ¬ (kindString (kind a) ≠ "array" ∧ kindString (kind a) ≠ "slice") := by
    rcases h with h | h <;> simp [h, kindString]
  simp only [AssertAsArray, hcond, if_false]
  rw [assertAsArray_loop a (Len a) (Len a) 0 [] (by omega)]
  simp

/-- C3: `AssertAsArray` succeeds exactly on the values of kind slice or array; the
result then has the length of the argument and its element at every index is the
element of the argument at that index (so a slice or array with the elements `xs`
gives `xs`, the nil slice gives the empty sequence, a byte slice gives its bytes);
on every other value it returns the error ` is not a []interface{}`. -/
theorem assertAsArray_spec (fmtV : Any → GoString) (a : Any) :
    ((∃ res, AssertAsArray fmtV a = .ok res) ↔ (kind a = Kind.Slice ∨ kind a = Kind.Array)) ∧
    ((kind a = Kind.Slice ∨ kind a = Kind.Array) →
      ∃ res, AssertAsArray fmtV a = .ok res ∧ res.length = Len a ∧
        ∀ i, i < Len a → res[i]? = some (Index a i)) ∧
    (¬ (kind a = Kind.Slice ∨ kind a = Kind.Array) →
      AssertAsArray fmtV a = .error (fmtV a ++ goStr " is not a []interface\x7b\x7d")) ∧
    (∀ xs, AssertAsArray fmtV (.slice (some xs)) = .ok xs) ∧
    (∀ xs, AssertAsArray fmtV (.array xs) = .ok xs) ∧
    AssertAsArray fmtV (.slice none) = .ok [] ∧
    (∀ b, AssertAsArray fmtV (.bytes (some b)) = .ok (b.map Any.uint8)) := by
  have hbad : ¬ (kind a = Kind.Slice ∨ kind a = Kind.Array) →
      AssertAsArray fmtV a = .error (fmtV a ++ goStr " is not a []interface\x7b\x7d") := by
    intro h
    have h1 : kindString (kind a) ≠ "array" := fun e => h (Or.inr ((kindString_eq_array _).1 e))
    have h2 : kindString (kind a) ≠ "slice" := fun e => h (Or.inl ((kindString_eq_slice _).1 e))
    simp [AssertAsArray, h1, h2]
  refine ⟨?_, ?_, hbad, ?_, ?_, ?_, ?_⟩
  · constructor
    · rintro ⟨res, hres⟩
      by_contra hk
      rw [hbad hk] at hres
      cases hres
    · intro hk
      exact ⟨_, assertAsArray_ok fmtV a hk⟩
  · intro hk
    refine ⟨_, assertAsArray_ok fmtV a hk, by simp, ?_⟩
    intro i hi
    simp [List.getElem?_map, List.getElem?_range' _ _ hi]
  · intro xs
    rw [assertAsArray_ok fmtV (.slice (some xs)) (Or.inl rfl)]
    exact congrArg _ (map_getD_range xs .nil)
  · intro xs
    rw [assertAsArray_ok fmtV (.array xs) (Or.inr rfl)]
    exact congrArg _ (map_getD_range xs .nil)
  · rfl
  · intro b
    rw [assertAsArray_ok fmtV (.bytes (some b)) (Or.inl rfl)]
    exact congrArg _ (map_getD_range_bytes b)

/-! ### `AssertAsBytes` -/

/-- C4: `AssertAsBytes` succeeds exactly on a `[]byte` and returns it unchanged; on
every other value, a pointer to a byte slice, a string and the nil interface among
them, it returns the error ` is not a []byte`. -/
theorem assertAsBytes_spec (fmtV : Any → GoString) (a : Any) :
    ((∃ res, AssertAsBytes fmtV a = .ok res) ↔ ∃ b, a = .bytes b) ∧
    (∀ b, AssertAsBytes fmtV (.bytes b) = .ok b) ∧
    ((¬ ∃ b, a = .bytes b) → AssertAsBytes fmtV a = .error (fmtV a ++ goStr " is not a []byte")) ∧
    (∀ p, AssertAsBytes fmtV (.bytesPtr p)
      = .error (fmtV (.bytesPtr p) ++ goStr " is not a []byte")) ∧
    (∀ s, AssertAsBytes fmtV (.str s) = .error (fmtV (.str s) ++ goStr " is not a []byte")) ∧
    AssertAsBytes fmtV .nil = .error (fmtV .nil ++ goStr " is not a []byte") := by
  refine ⟨?_, ?_, ?_, ?_, ?_, ?_⟩
  all_goals first
    | rfl
    | (intros; rfl)
    | (cases a <;> simp [AssertAsBytes])

/-! ### `AssertAsNumber` and `AssertAsInteger` -/

/-- C5: `AssertAsNumber` and `AssertAsInteger` are the same function: the same
result or the same error on every value. -/
theorem assertAsNumber_eq_assertAsInteger : AssertAsNumber = AssertAsInteger := by
  funext fmtV a
  cases a <;> rfl

/-! ### `IsUnset` -/

/-- C6: `IsUnset` of the nil interface is true; on every value of kind pointer,
slice or map it is true exactly when the pointer, slice or map is nil, whatever
it holds otherwise: the nil map gives true, the empty map false, and a pointer
to 0, to the empty string or to false gives false. -/
theorem isUnset_nilable_spec (headerEq : Any → Bool) :
    IsUnset headerEq .nil = true ∧
    (∀ v, (kind v = Kind.Ptr ∨ kind v = Kind.Slice ∨ kind v = Kind.Map) →
      IsUnset headerEq v = IsNil v) ∧
    (∀ p : Option Int, IsUnset headerEq (.intPtr p) = true ↔ p = none) ∧
    (∀ p : Option Bool, IsUnset headerEq (.boolPtr p) = true ↔ p = none) ∧
    (∀ p : Option GoString, IsUnset headerEq (.strPtr p) = true ↔ p = none) ∧
    (∀ m, IsUnset headerEq (.strMap m) = true ↔ m = none) ∧
    (∀ t m, IsUnset headerEq (.keyedMap t m) = true ↔ m = none) ∧
    (∀ xs, IsUnset headerEq (.slice xs) = true ↔ xs = none) ∧
    (∀ b, IsUnset headerEq (.bytes b) = true ↔ b = none) ∧
    IsUnset headerEq (.strMap none) = true ∧
    IsUnset headerEq (.strMap (some [])) = false ∧
    IsUnset headerEq (.intPtr (some 0)) = false ∧
    IsUnset headerEq (.strPtr (some [])) = false ∧
    IsUnset headerEq (.boolPtr (some false)) = false := by
  refine ⟨rfl, ?_, ?_, ?_, ?_, ?_, ?_, ?_, ?_, rfl, rfl, rfl, rfl, rfl⟩
  · intro v hv
    cases v <;> simp_all [IsUnset, kind]
  · intro p; cases p <;> simp [IsUnset, kind, IsNil]
  · intro p; cases p <;> simp [IsUnset, kind, IsNil]
  · intro p; cases p <;> simp [IsUnset, kind, IsNil]
  · intro p; cases p <;> simp [IsUnset, kind, IsNil]
  · intro t p; cases p <;> simp [IsUnset, kind, IsNil]
  · intro p; cases p <;> simp [IsUnset, kind, IsNil]
  · intro p; cases p <;> simp [IsUnset, kind, IsNil]


/-- On a value that is neither the nil interface nor of kind pointer, slice or map
(an `int`, a `string`, a `bool`, ...) `IsUnset` returns the outcome of the
comparison `valZero == v` of the two `reflect.Value` headers. -/
theorem isUnset_other_kinds (headerEq : Any → Bool) (v : Any) (hnil : v ≠ .nil)
    (hk : ¬ (kind v = Kind.Ptr ∨ kind v = Kind.Slice ∨ kind v = Kind.Map)) :
    IsUnset headerEq v = headerEq v := by
  cases v <;> simp_all [IsUnset, kind]

/-! ### `strconv.Atoi` on decimal texts -/

theorem digitChar_toNat (d : Nat) (h : d < 10) : (Nat.digitChar d).toNat = 48 + d := by
  interval_cases d <;> rfl

theorem toDigitsCore_append (fuel : Nat) :
    ∀ (n : Nat) (ds : List Char),
      Nat.toDigitsCore 10 fuel n ds = Nat.toDigitsCore 10 fuel n [] ++ ds := by
  induction fuel with
  | zero => intro n ds; simp [Nat.toDigitsCore]
  | succ fuel ih =>
    intro n ds
    simp only [Nat.toDigitsCore]
    split
    · simp
    · rw [ih (n / 10) (_ :: ds), ih (n / 10) [_]]
      simp

theorem digitsValue_append (xs : List Nat) (c : Nat) :
    digitsValue (xs ++ [c]) = digitsValue xs * 10 + (c - 48) := by
  simp [digitsValue, List.foldl_append]

theorem toDigitsCore_spec (fuel : Nat) :
    ∀ n, n < fuel →
      digitsValue ((Nat.toDigitsCore 10 fuel n []).map Char.toNat) = n ∧
      ((Nat.toDigitsCore 10 fuel n []).map Char.toNat).all isDigit = true ∧
      (Nat.toDigitsCore 10 fuel n []).map Char.toNat ≠ [] := by
  induction fuel with
  | zero => intro n h; omega
  | succ fuel ih =>
    intro n h
    have hd : (Nat.digitChar (n % 10)).toNat = 48 + n % 10 :=
      digitChar_toNat _ (Nat.mod_lt _ (by omega))
    simp only [Nat.toDigitsCore]
    split
    · rename_i h0
      have hn : n % 10 = n := by omega
      rw [hn] at hd
      refine ⟨?_, ?_, ?_⟩
      · simp [digitsValue, hn, hd]
      · simp [hn, hd, isDigit]; omega
      · simp
    · rename_i h0
      have hlt : n / 10 < fuel := by omega
      obtain ⟨h1, h2, h3⟩ := ih (n / 10) hlt
      rw [toDigitsCore_append]
      refine ⟨?_, ?_, ?_⟩
      · rw [List.map_append, List.map_singleton, digitsValue_append, h1, hd]
        omega
      · rw [List.map_append, List.all_append, h2]
        simp [hd, isDigit]; omega
      · simp

theorem natText_spec (m : Nat) :
    digitsValue ((toString m).toList.map Char.toNat) = m ∧
    ((toString m).toList.map Char.toNat).all isDigit = true ∧
    (toString m).toList.map Char.toNat ≠ [] :=
  toDigitsCore_spec (m + 1) m (by omega)

theorem decimalText_ofNat (m : Nat) :
    decimalText (Int.ofNat m) = (toString m).toList.map Char.toNat := rfl

theorem decimalText_negSucc (m : Nat) :
    decimalText (Int.negSucc m) = 45 :: (toString (m + 1)).toList.map Char.toNat := by
  show (("-" ++ toString (m + 1)).toList.map Char.toNat) = _
  rw [String.toList, String.data_append]
  rfl

theorem isDigit_iff (c : Nat) : isDigit c = true ↔ 48 ≤ c ∧ c ≤ 57 := by
  simp [isDigit]

theorem atoi_digits (body : List Nat) (hne : body ≠ []) (hall : body.all isDigit = true) :
    Atoi body = if digitsValue body < 2 ^ 63 then some (digitsValue body : Int) else none := by
  obtain ⟨c, rest, rfl⟩ := List.exists_cons_of_ne_nil hne
  have hc : isDigit c = true := by
    simp only [List.all_cons, Bool.and_eq_true] at hall
    exact hall.1
  have hc2 := (isDigit_iff c).1 hc
  have h43 : ¬ (c = 43) := by omega
  have h45 : ¬ (c = 45) := by omega
  have hall2 : ∀ x ∈ c :: rest, isDigit x = true := by simpa using hall
  have e1 : Atoi (c :: rest) = if (c :: rest) = [] then none
      else if (c :: rest).all isDigit then
        (if digitsValue (c :: rest) < 2 ^ (intSize - 1) then some (digitsValue (c :: rest) : Int)
          else none)
      else none := by
    simp only [Atoi, h43, h45, or_self, if_false, List.head?_cons, Option.some.injEq,
      decide_False, Bool.false_eq_true]
  rw [e1, if_neg hne, hall]
  rfl

theorem atoi_neg_digits (body : List Nat) (hne : body ≠ []) (hall : body.all isDigit = true) :
    Atoi (45 :: body)
      = if digitsValue body ≤ 2 ^ 63 then some (-(digitsValue body : Int)) else none := by
  have hall2 : ∀ x ∈ body, isDigit x = true := by simpa using hall
  have e1 : Atoi (45 :: body) = if body = [] then none
      else if body.all isDigit then
        (if digitsValue body ≤ 2 ^ (intSize - 1) then some (-(digitsValue body : Int))
          else none)
      else none := by
    simp only [Atoi, or_true, if_true, List.head?_cons, decide_True]
  rw [e1, if_neg hne, hall]
  rfl

theorem atoi_decimalText (n : Int) (hlo : -(2 ^ 63) ≤ n) (hhi : n < 2 ^ 63) :
    Atoi (decimalText n) = some n := by
  cases n with
  | ofNat m =>
    obtain ⟨h1, h2, h3⟩ := natText_spec m
    rw [decimalText_ofNat, atoi_digits _ h3 h2, h1]
    have : m < 2 ^ 63 := by
      have : (m : Int) < 2 ^ 63 := hhi
      exact_mod_cast this
    rw [if_pos this]
    rfl
  | negSucc m =>
    obtain ⟨h1, h2, h3⟩ := natText_spec (m + 1)
    rw [decimalText_negSucc, atoi_neg_digits _ h3 h2, h1]
    have : m + 1 ≤ 2 ^ 63 := by
      have h : -(2 ^ 63 : Int) ≤ Int.negSucc m := hlo
      rw [Int.negSucc_eq] at h
      have h' : ((m : Int) + 1) ≤ 2 ^ 63 := by linarith
      exact_mod_cast h'
    rw [if_pos this, Int.negSucc_eq]
    simp

theorem skipSpace_cons_of_not_space (c : Nat) (rest : List Nat) (h : isSpace c = false) :
    skipSpace (c :: rest) = c :: rest := by
  simp [skipSpace, h]

theorem decodeValue_of_number_start (fuel depth c : Nat) (rest : List Nat)
    (h : c = 45 ∨ isDigit c = true) :
    decodeValue fuel depth (c :: rest) = .outOfFuel ∨
    decodeValue fuel depth (c :: rest) = .bad ∨
    ∃ lit r, decodeValue fuel depth (c :: rest) = .ok (.number lit) r := by
  have hrange : c = 45 ∨ (48 ≤ c ∧ c ≤ 57) := by
    rcases h with h | h
    · exact Or.inl h
    · exact Or.inr ((isDigit_iff c).1 h)
  have hsp : isSpace c = false := by
    simp only [isSpace, decide_eq_false_iff_not]
    omega
  cases fuel with
  | zero => left; rfl
  | succ fuel =>
    right
    have h1 : ¬ c = 123 := by omega
    have h2 : ¬ c = 91 := by omega
    have h3 : ¬ c = 34 := by omega
    simp only [decodeValue, skipSpace_cons_of_not_space c rest hsp, h1, h2, h3, if_false, h,
      if_true]
    cases scanNumber (c :: rest) with
    | none => left; rfl
    | some p => right; exact ⟨p.1, p.2, rfl⟩

theorem decodeFirst_of_number_start (c : Nat) (rest : List Nat)
    (h : c = 45 ∨ isDigit c = true) :
    decodeFirst (c :: rest) = none ∨ ∃ lit, decodeFirst (c :: rest) = some (.number lit) := by
  unfold decodeFirst
  rcases decodeValue_of_number_start (2 * (c :: rest).length + 1) 0 c rest h with h1 | h1 | ⟨lit, r, h1⟩
  · left; rw [h1]
  · left; rw [h1]
  · right; exact ⟨lit, by rw [h1]⟩

theorem decodeInto_of_number_start (c : Nat) (rest : List Nat)
    (h : c = 45 ∨ isDigit c = true) :
    decodeIntoMap (c :: rest) = none ∧ decodeIntoSlice (c :: rest) = none := by
  unfold decodeIntoMap decodeIntoSlice
  rcases decodeFirst_of_number_start c rest h with h1 | ⟨lit, h1⟩ <;> rw [h1] <;> exact ⟨rfl, rfl⟩

theorem decimalText_start (n : Int) :
    ∃ c rest, decimalText n = c :: rest ∧ (c = 45 ∨ isDigit c = true) := by
  cases n with
  | ofNat m =>
    obtain ⟨_, h2, h3⟩ := natText_spec m
    rw [decimalText_ofNat]
    obtain ⟨c, rest, hc⟩ := List.exists_cons_of_ne_nil h3
    rw [hc] at h2 ⊢
    simp only [List.all_cons, Bool.and_eq_true] at h2
    exact ⟨c, rest, rfl, Or.inr h2.1⟩
  | negSucc m =>
    rw [decimalText_negSucc]
    exact ⟨45, _, rfl, Or.inl rfl⟩

/-! ### `ParseJSON` -/

/-- C8: `ParseJSON` is an ordered fallback.  Its result is the outcome of the first
attempt that succeeds, in the order: decode into a map, decode into a slice,
`strconv.Atoi`, `strconv.ParseBool`, `strconv.ParseFloat`; it is the nil interface
exactly when all five attempts fail; the function is total and has no error
result.  On the text `not json` the first four attempts fail, so the result is the
nil interface as soon as `ParseFloat` fails on it. -/
theorem parseJSON_ordered_fallback (parseFloat : GoString → Option Nat) (a : Option GoString) :
    (∀ m, decodeIntoMap (StringValue a) = some m → ParseJSON parseFloat a = .strMap m) ∧
    (decodeIntoMap (StringValue a) = none →
      ∀ xs, decodeIntoSlice (StringValue a) = some xs → ParseJSON parseFloat a = .slice xs) ∧
    (decodeIntoMap (StringValue a) = none → decodeIntoSlice (StringValue a) = none →
      ∀ n, Atoi (StringValue a) = some n → ParseJSON parseFloat a = .int n) ∧
    (decodeIntoMap (StringValue a) = none → decodeIntoSlice (StringValue a) = none →
      Atoi (StringValue a) = none →
      ∀ b, ParseBool (StringValue a) = some b → ParseJSON parseFloat a = .bool b) ∧
    (decodeIntoMap (StringValue a) = none → decodeIntoSlice (StringValue a) = none →
      Atoi (StringValue a) = none → ParseBool (StringValue a) = none →
      ∀ f, parseFloat (StringValue a) = some f → ParseJSON parseFloat a = .float64 f) ∧
    (ParseJSON parseFloat a = .nil ↔
      (decodeIntoMap (StringValue a) = none ∧ decodeIntoSlice (StringValue a) = none ∧
        Atoi (StringValue a) = none ∧ ParseBool (StringValue a) = none ∧
        parseFloat (StringValue a) = none)) ∧
    (parseFloat (goStr "not json") = none →
      ParseJSON parseFloat (some (goStr "not json")) = .nil) := by
  refine ⟨?_, ?_, ?_, ?_, ?_, ?_, ?_⟩
  · intro m h; simp [ParseJSON, h]
  · intro h1 xs h2; simp [ParseJSON, h1, h2]
  · intro h1 h2 n h3; simp [ParseJSON, h1, h2, h3]
  · intro h1 h2 h3 b h4; simp [ParseJSON, h1, h2, h3, h4]
  · intro h1 h2 h3 h4 f h5; simp [ParseJSON, h1, h2, h3, h4, h5]
  · unfold ParseJSON
    cases decodeIntoMap (StringValue a) <;> cases decodeIntoSlice (StringValue a) <;>
      cases Atoi (StringValue a) <;> cases ParseBool (StringValue a) <;>
      cases parseFloat (StringValue a) <;> simp
  · intro h
    have h1 : decodeIntoMap (goStr "not json") = none := rfl
    have h2 : decodeIntoSlice (goStr "not json") = none := rfl
    have h3 : Atoi (goStr "not json") = none := rfl
    have h4 : ParseBool (goStr "not json") = none := rfl
    simp only [ParseJSON, StringValue, h1, h2, h3, h4, h]

/-- C8, at a concrete text: with a float parser that rejects `not json`, `ParseJSON`
of `not json` is the nil interface. -/
theorem parseJSON_ordered_fallback_witness :
    ParseJSON (fun _ => none) (some (goStr "not json")) = .nil :=
  (parseJSON_ordered_fallback (fun _ => none) none).2.2.2.2.2.2 rfl

/-- C9: for every integer `n` of the range of a 64-bit `int`, `ParseJSON` of the
decimal text of `n` is the `int` `n` (not a float, a bool, a map, a slice or the
nil interface): decoding the text into a map and into a slice both fail, and
`strconv.Atoi` returns `n`. -/
theorem parseJSON_decimalText (parseFloat : GoString → Option Nat) (n : Int)
    (hlo : -(2 ^ 63) ≤ n) (hhi : n < 2 ^ 63) :
    ParseJSON parseFloat (some (decimalText n)) = .int n ∧
    decodeIntoMap (decimalText n) = none ∧
    decodeIntoSlice (decimalText n) = none ∧
    Atoi (decimalText n) = some n := by
  obtain ⟨c, rest, htext, hc⟩ := decimalText_start n
  have hdec : decodeIntoMap (decimalText n) = none ∧ decodeIntoSlice (decimalText n) = none := by
    rw [htext]; exact decodeInto_of_number_start c rest hc
  have hatoi := atoi_decimalText n hlo hhi
  refine ⟨?_, hdec.1, hdec.2, hatoi⟩
  simp only [ParseJSON, StringValue, hdec.1, hdec.2, hatoi]

/-- C9, at concrete texts: `ParseJSON` of `123` is the int 123 and `ParseJSON` of
`1` is the int 1, neither the bool true nor a float. -/
theorem parseJSON_decimalText_witness :
    ParseJSON (fun _ => none) (some (goStr "123")) = .int 123 ∧
    ParseJSON (fun _ => some 0) (some (goStr "1")) = .int 1 :=
  ⟨(parseJSON_decimalText (fun _ => none) 123 (by decide) (by decide)).1,
   (parseJSON_decimalText (fun _ => some 0) 1 (by decide) (by decide)).1⟩

/-! ### What the decoder builds -/

theorem keepsNumbersElems_append (acc : List Any) (v : Any) :
    keepsNumbersElems (acc ++ [v]) = (keepsNumbersElems acc && keepsNumbers v) := by
  induction acc with
  | nil => simp [keepsNumbersElems]
  | cons x acc ih => simp [keepsNumbersElems, ih, Bool.and_assoc]

theorem keepsNumbersMembers_mapSet (acc : List (GoString × Any)) (k : GoString) (v : Any)
    (hacc : keepsNumbersMembers acc = true) (hv : keepsNumbers v = true) :
    keepsNumbersMembers (mapSet acc k v) = true := by
  induction acc with
  | nil => simp [mapSet, keepsNumbersMembers, hv]
  | cons e acc ih =>
    simp only [keepsNumbersMembers, Bool.and_eq_true] at hacc
    unfold mapSet
    split
    · simp [keepsNumbersMembers, hv, hacc.2]
    · simp [keepsNumbersMembers, hacc.1, ih hacc.2]

theorem decode_keepsNumbers (fuel : Nat) :
    (∀ depth s v r, decodeValue fuel depth s = .ok v r → keepsNumbers v = true) ∧
    (∀ depth s acc xs r, keepsNumbersElems acc = true →
      decodeElems fuel depth s acc = .ok xs r → keepsNumbersElems xs = true) ∧
    (∀ depth s acc m r, keepsNumbersMembers acc = true →
      decodeMembers fuel depth s acc = .ok m r → keepsNumbersMembers m = true) := by
  induction fuel with
  | zero =>
    refine ⟨?_, ?_, ?_⟩ <;> intros <;> simp_all [decodeValue, decodeElems, decodeMembers]
  | succ fuel ih =>
    obtain ⟨ihV, ihE, ihM⟩ := ih
    refine ⟨?_, ?_, ?_⟩
    · intro depth s v r h
      unfold decodeValue at h
      repeat' split at h
      all_goals cases h
      all_goals try rfl
      · simp only [keepsNumbers]
        exact ihM _ _ [] _ _ rfl (by assumption)
      · simp only [keepsNumbers]
        exact ihE _ _ [] _ _ rfl (by assumption)
    · intro depth s acc xs r hacc h
      unfold decodeElems at h
      repeat' split at h
      all_goals try cases h
      · have hv := ihV _ _ _ _ (by assumption)
        exact ihE _ _ _ _ _ (by rw [keepsNumbersElems_append, hacc, hv]; rfl) h
      · have hv := ihV _ _ _ _ (by assumption)
        rw [keepsNumbersElems_append, hacc, hv]; rfl
    · intro depth s acc m r hacc h
      unfold decodeMembers at h
      repeat' split at h
      all_goals try cases h
      · have hv := ihV _ _ _ _ (by assumption)
        exact ihM _ _ _ _ _ (keepsNumbersMembers_mapSet _ _ _ hacc hv) h
      · have hv := ihV _ _ _ _ (by assumption)
        exact keepsNumbersMembers_mapSet _ _ _ hacc hv

theorem decodeValue_of_brace_start (fuel depth : Nat) (s rest : List Nat) (v : Any)
    (r : List Nat) (h : skipSpace s = 123 :: rest) (hv : decodeValue fuel depth s = .ok v r) :
    ∃ m, v = .strMap (some m) := by
  cases fuel with
  | zero => cases hv
  | succ fuel =>
    unfold decodeValue at hv
    simp only [h, if_true] at hv
    repeat' split at hv
    all_goals cases hv
    all_goals exact ⟨_, rfl⟩

theorem head_skipSpace (s : List Nat) (h : (skipSpace s).head? = some 123) :
    ∃ rest, skipSpace s = 123 :: rest := by
  cases hs : skipSpace s with
  | nil => rw [hs] at h; cases h
  | cons c rest =>
    rw [hs] at h
    simp only [List.head?_cons, Option.some.injEq] at h
    exact ⟨rest, by rw [h]⟩

theorem parseJSON_of_objectText (parseFloat : GoString → Option Nat) (s : GoString)
    (h : isObjectText s = true) :
    ∃ m, ParseJSON parseFloat (some s) = .strMap (some m) ∧
      keepsNumbers (.strMap (some m)) = true := by
  simp only [isObjectText, Bool.and_eq_true, decide_eq_true_eq] at h
  obtain ⟨rest, hrest⟩ := head_skipSpace s h.1
  have hsome := h.2
  unfold decodeFirst at hsome
  cases hd : decodeValue (2 * s.length + 1) 0 s with
  | ok v r =>
    obtain ⟨m, hm⟩ := decodeValue_of_brace_start _ _ s rest v r hrest hd
    subst hm
    have hfirst : decodeFirst s = some (.strMap (some m)) := by
      unfold decodeFirst; rw [hd]
    refine ⟨m, ?_, (decode_keepsNumbers _).1 _ _ _ _ hd⟩
    simp only [ParseJSON, StringValue, decodeIntoMap, hfirst]
  | bad => rw [hd] at hsome; cases hsome
  | outOfFuel => rw [hd] at hsome; cases hsome

theorem numberLen_append (lit : List Nat) :
    ∀ (st : NumState) (rest : List Nat), numberLen st lit = some lit.length →
      numberLen st (lit ++ 125 :: rest) = some lit.length := by
  induction lit with
  | nil =>
    intro st rest h
    cases st <;> simp_all [numberLen, isDigit]
  | cons x xs ih =>
    intro st rest h
    have key : ∀ st2, (numberLen st2 xs).map (· + 1) = some (xs.length + 1) →
        (numberLen st2 (xs ++ 125 :: rest)).map (· + 1) = some (xs.length + 1) := by
      intro st2 h2
      have h3 : numberLen st2 xs = some xs.length := by
        cases hn : numberLen st2 xs with
        | none => rw [hn] at h2; cases h2
        | some k =>
          rw [hn] at h2
          simp only [Option.map_some', Option.some.injEq, Nat.add_right_cancel_iff] at h2
          rw [h2]
      rw [ih st2 rest h3]; rfl
    cases st <;> simp only [numberLen, List.cons_append, List.length_cons] at h ⊢ <;>
      (repeat' split at h) <;> (try cases h) <;> simp_all [key]

theorem scanNumber_literal (c : Nat) (rest : List Nat)
    (h : isNumberLiteral (c :: rest) = true) :
    scanNumber (c :: (rest ++ [125])) = some (c :: rest, [125]) := by
  simp only [isNumberLiteral, Bool.and_eq_true, decide_eq_true_eq] at h
  simp only [scanNumber, numberLen_append rest _ [] h.2, List.take_left', List.drop_left']

theorem decodeValue_literal (fuel depth c : Nat) (rest : List Nat)
    (h : isNumberLiteral (c :: rest) = true) :
    decodeValue (fuel + 1) depth (c :: (rest ++ [125])) = .ok (.number (c :: rest)) [125] := by
  have hc : c = 45 ∨ isDigit c = true := by
    simp only [isNumberLiteral, Bool.and_eq_true, decide_eq_true_eq] at h
    exact h.1
  have hrange : c = 45 ∨ (48 ≤ c ∧ c ≤ 57) := by
    rcases hc with h | h
    · exact Or.inl h
    · exact Or.inr ((isDigit_iff c).1 h)
  have hsp : isSpace c = false := by
    simp only [isSpace, decide_eq_false_iff_not]
    omega
  have h1 : ¬ c = 123 := by omega
  have h2 : ¬ c = 91 := by omega
  have h3 : ¬ c = 34 := by omega
  simp only [decodeValue, skipSpace_cons_of_not_space c _ hsp, h1, h2, h3, if_false, hc,
    if_true, scanNumber_literal c rest h]

theorem decodeMembers_literal (fuel depth c : Nat) (rest : List Nat)
    (h : isNumberLiteral (c :: rest) = true) :
    decodeMembers (fuel + 2) depth (34 :: 97 :: 34 :: 58 :: c :: (rest ++ [125])) []
      = .ok [([97], .number (c :: rest))] [] := by
  have hstr : scanString (97 :: 34 :: 58 :: c :: (rest ++ [125]))
      = some ([97], 58 :: c :: (rest ++ [125])) := rfl
  have hsp : skipSpace (58 :: c :: (rest ++ [125])) = 58 :: c :: (rest ++ [125]) := rfl
  have hsp2 : skipSpace [125] = [125] := rfl
  unfold decodeMembers
  simp only [if_true, hstr, hsp, decodeValue_literal fuel depth c rest h, hsp2]
  rfl

theorem decodeFirst_literal (lit : GoString) (h : isNumberLiteral lit = true) :
    decodeFirst (goStr "\x7b\"a\":" ++ lit ++ goStr "\x7d")
      = some (.strMap (some [(goStr "a", .number lit)])) := by
  cases lit with
  | nil => cases h
  | cons c rest =>
    have e1 : goStr "\x7b\"a\":" ++ (c :: rest) ++ goStr "\x7d"
        = 123 :: 34 :: 97 :: 34 :: 58 :: c :: (rest ++ [125]) := rfl
    have e2 : 2 * (123 :: 34 :: 97 :: 34 :: 58 :: c :: (rest ++ [125])).length + 1
        = (2 * rest.length + 12) + 3 := by
      simp only [List.length_cons, List.length_append, List.length_nil]
      omega
    have hsp : skipSpace (123 :: 34 :: 97 :: 34 :: 58 :: c :: (rest ++ [125]))
        = 123 :: 34 :: 97 :: 34 :: 58 :: c :: (rest ++ [125]) := rfl
    have hsp2 : skipSpace (34 :: 97 :: 34 :: 58 :: c :: (rest ++ [125]))
        = 34 :: 97 :: 34 :: 58 :: c :: (rest ++ [125]) := rfl
    have hdepth : 0 + 1 ≤ maxNestingDepth := by decide
    rw [e1]
    unfold decodeFirst
    rw [e2]
    unfold decodeValue
    simp only [hsp, hsp2, if_true, hdepth, decodeMembers_literal _ _ c rest h]
    rfl

/-! ### The recursion budget of the decoder is never used up -/

theorem skipSpace_length_le (s : List Nat) : (skipSpace s).length ≤ s.length := by
  induction s with
  | nil => simp [skipSpace]
  | cons c rest ih =>
    unfold skipSpace
    split
    · simp only [List.length_cons]; omega
    · simp

theorem skipSpace_cons_length (s : List Nat) (c : Nat) (rest : List Nat)
    (h : skipSpace s = c :: rest) : rest.length < s.length := by
  have := skipSpace_length_le s
  rw [h] at this
  simp only [List.length_cons] at this
  omega

theorem stringLen_lt (s : List Nat) :
    ∀ (st : StrState) (n : Nat), stringLen st s = some n → n < s.length := by
  induction s with
  | nil => intro st n h; simp [stringLen] at h
  | cons c rest ih =>
    intro st n h
    have key : ∀ st2, (stringLen st2 rest).map (· + 1) = some n → n < rest.length + 1 := by
      intro st2 h2
      cases hn : stringLen st2 rest with
      | none => rw [hn] at h2; cases h2
      | some k =>
        rw [hn] at h2
        simp only [Option.map_some', Option.some.injEq] at h2
        have := ih st2 k hn
        omega
    cases st <;> simp only [stringLen, List.length_cons] at h ⊢ <;>
      (repeat' split at h) <;> (try cases h) <;> first | omega | exact key _ h

theorem scanString_length (s : List Nat) (k : GoString) (r : List Nat)
    (h : scanString s = some (k, r)) : r.length < s.length := by
  unfold scanString at h
  split at h
  · rename_i n hn
    have := stringLen_lt s _ n hn
    simp only [Option.some.injEq, Prod.mk.injEq] at h
    rw [← h.2, List.length_drop]
    omega
  · cases h

theorem numberLen_le (s : List Nat) :
    ∀ (st : NumState) (n : Nat), numberLen st s = some n → n ≤ s.length := by
  induction s with
  | nil => intro st n h; cases st <;> simp_all [numberLen]
  | cons c rest ih =>
    intro st n h
    have key : ∀ st2, (numberLen st2 rest).map (· + 1) = some n → n ≤ rest.length + 1 := by
      intro st2 h2
      cases hn : numberLen st2 rest with
      | none => rw [hn] at h2; cases h2
      | some k =>
        rw [hn] at h2
        simp only [Option.map_some', Option.some.injEq] at h2
        have := ih st2 k hn
        omega
    cases st <;> simp only [numberLen, List.length_cons] at h ⊢ <;>
      (repeat' split at h) <;> (try cases h) <;> first | omega | exact key _ h

theorem scanNumber_length (s : List Nat) (lit : GoString) (r : List Nat)
    (h : scanNumber s = some (lit, r)) : r.length < s.length := by
  unfold scanNumber at h
  split at h
  · cases h
  · rename_i c rest
    simp only at h
    split at h
    · simp only [Option.some.injEq, Prod.mk.injEq] at h
      rw [← h.2, List.length_drop, List.length_cons]
      omega
    · cases h

theorem scanWord_length (w s r : List Nat) (h : scanWord w s = some r) :
    r.length ≤ s.length := by
  unfold scanWord at h
  split at h
  · simp only [Option.some.injEq] at h
    rw [← h, List.length_drop]
    omega
  · cases h

theorem decode_consumes (fuel : Nat) :
    (∀ depth s v r, decodeValue fuel depth s = .ok v r → r.length < s.length) ∧
    (∀ depth s acc xs r, decodeElems fuel depth s acc = .ok xs r → r.length < s.length) ∧
    (∀ depth s acc m r, decodeMembers fuel depth s acc = .ok m r → r.length < s.length) := by
  induction fuel with
  | zero =>
    refine ⟨?_, ?_, ?_⟩ <;> intros <;> simp_all [decodeValue, decodeElems, decodeMembers]
  | succ fuel ih =>
    obtain ⟨ihV, ihE, ihM⟩ := ih
    refine ⟨?_, ?_, ?_⟩
    · intro depth s v r h
      unfold decodeValue at h
      split at h
      · cases h
      · rename_i c rest hs
        have hs := skipSpace_cons_length s c rest hs
        repeat' split at h
        all_goals try cases h
        all_goals first
          | (have h1 := skipSpace_cons_length rest _ _ (by assumption)
             omega)
          | (have h1 := skipSpace_cons_length rest _ _ (by assumption)
             have h2 := ihM _ _ _ _ _ (by assumption)
             simp only [List.length_cons] at h2
             omega)
          | (have h1 := skipSpace_cons_length rest _ _ (by assumption)
             have h2 := ihE _ _ _ _ _ (by assumption)
             simp only [List.length_cons] at h2
             omega)
          | (have h1 := scanString_length _ _ _ (by assumption)
             omega)
          | (have h1 := scanNumber_length _ _ _ (by assumption)
             simp only [List.length_cons] at h1
             omega)
          | (have h1 := scanWord_length _ _ _ (by assumption)
             omega)
    · intro depth s acc xs r h
      unfold decodeElems at h
      repeat' split at h
      all_goals try cases h
      · rename_i _ v r1 hv _ c r2 hsp _
        have h1 := ihV _ _ _ _ hv
        have h2 := skipSpace_cons_length _ _ _ hsp
        have h3 := ihE _ _ _ _ _ h
        omega
      · rename_i _ v r1 hv _ c _ _ hsp
        have h1 := ihV _ _ _ _ hv
        have h2 := skipSpace_cons_length _ _ _ hsp
        omega
    · intro depth s acc m r h
      unfold decodeMembers at h
      repeat' split at h
      all_goals try cases h
      · rename_i _ q s1 _ _ key r1 hstr _ c1 r2 hsp1 _ _ v r3 hv _ c2 r4 hsp2 _
        have h1 := scanString_length _ _ _ hstr
        have h2 := skipSpace_cons_length _ _ _ hsp1
        have h3 := ihV _ _ _ _ hv
        have h4 := skipSpace_cons_length _ _ _ hsp2
        have h5 := ihM _ _ _ _ _ h
        have h6 := skipSpace_length_le r4
        simp only [List.length_cons]
        omega
      · rename_i _ q s1 _ _ key r1 hstr _ c1 r2 hsp1 _ _ v r3 hv _ c2 _ _ hsp2
        have h1 := scanString_length _ _ _ hstr
        have h2 := skipSpace_cons_length _ _ _ hsp1
        have h3 := ihV _ _ _ _ hv
        have h4 := skipSpace_cons_length _ _ _ hsp2
        simp only [List.length_cons]
        omega

theorem decode_fuel (fuel : Nat) :
    (∀ depth s, 2 * s.length < fuel → decodeValue fuel depth s ≠ .outOfFuel) ∧
    (∀ depth s acc, 2 * s.length + 1 < fuel → decodeElems fuel depth s acc ≠ .outOfFuel) ∧
    (∀ depth s acc, 2 * s.length + 1 < fuel → decodeMembers fuel depth s acc ≠ .outOfFuel) := by
  induction fuel with
  | zero => refine ⟨?_, ?_, ?_⟩ <;> intros <;> omega
  | succ fuel ih =>
    obtain ⟨ihV, ihE, ihM⟩ := ih
    refine ⟨?_, ?_, ?_⟩
    · intro depth s hlen h
      unfold decodeValue at h
      split at h
      · cases h
      · rename_i c rest hs
        have hs := skipSpace_cons_length s c rest hs
        repeat' split at h
        all_goals try cases h
        · rename_i _ _ _ _ _ c2 rest2 hsp _ _ hm
          have h1 := skipSpace_cons_length _ _ _ hsp
          exact ihM _ _ _ (by simp only [List.length_cons]; omega) hm
        · rename_i _ _ _ _ _ _ c2 rest2 hsp _ _ hm
          have h1 := skipSpace_cons_length _ _ _ hsp
          exact ihE _ _ _ (by simp only [List.length_cons]; omega) hm
    · intro depth s acc hlen h
      unfold decodeElems at h
      repeat' split at h
      all_goals try cases h
      · rename_i _ v r1 hv _ c r2 hsp _
        have h1 := (decode_consumes fuel).1 _ _ _ _ hv
        have h2 := skipSpace_cons_length _ _ _ hsp
        exact ihE _ _ _ (by omega) h
      · rename_i _ hv
        exact ihV _ _ (by omega) hv
    · intro depth s acc hlen h
      unfold decodeMembers at h
      repeat' split at h
      all_goals try cases h
      · rename_i _ q s1 _ _ key r1 hstr _ c1 r2 hsp1 _ _ v r3 hv _ c2 r4 hsp2 _
        have h1 := scanString_length _ _ _ hstr
        have h2 := skipSpace_cons_length _ _ _ hsp1
        have h3 := (decode_consumes fuel).1 _ _ _ _ hv
        have h4 := skipSpace_cons_length _ _ _ hsp2
        have h6 := skipSpace_length_le r4
        simp only [List.length_cons] at hlen
        exact ihM _ _ _ (by omega) h
      · rename_i _ q s1 _ _ key r1 hstr _ c1 r2 hsp1 _ _ hv
        have h1 := scanString_length _ _ _ hstr
        have h2 := skipSpace_cons_length _ _ _ hsp1
        simp only [List.length_cons] at hlen
        exact ihV _ _ (by omega) hv

theorem decode_stable_step (fuel : Nat) :
    (∀ depth s, decodeValue fuel depth s ≠ .outOfFuel →
      decodeValue (fuel + 1) depth s = decodeValue fuel depth s) ∧
    (∀ depth s acc, decodeElems fuel depth s acc ≠ .outOfFuel →
      decodeElems (fuel + 1) depth s acc = decodeElems fuel depth s acc) ∧
    (∀ depth s acc, decodeMembers fuel depth s acc ≠ .outOfFuel →
      decodeMembers (fuel + 1) depth s acc = decodeMembers fuel depth s acc) := by
  induction fuel with
  | zero =>
    refine ⟨?_, ?_, ?_⟩ <;> intros <;> simp_all [decodeValue, decodeElems, decodeMembers]
  | succ fuel ih =>
    obtain ⟨ihV, ihE, ihM⟩ := ih
    refine ⟨?_, ?_, ?_⟩
    · intro depth s hne
      rw [decodeValue, decodeValue]
      rw [decodeValue] at hne
      repeat' split at hne
      all_goals try exact absurd rfl hne
      all_goals first
        | rfl
        | simp [*]
    · intro depth s acc hne
      rw [decodeElems, decodeElems]
      rw [decodeElems] at hne
      repeat' split at hne
      all_goals try exact absurd rfl hne
      all_goals first
        | rfl
        | simp [*]
    · intro depth s acc hne
      cases s with
      | nil => rfl
      | cons q s1 =>
        rw [decodeMembers, decodeMembers]
        rw [decodeMembers] at hne
        repeat' split at hne
        all_goals try exact absurd rfl hne
        all_goals first
          | rfl
          | simp [*]

/-- The budget that `decodeFirst` hands to the decoder is never used up, and a
larger budget gives the same outcome: `decodeFirst` fails only where the text is
malformed, ends too early or is nested too deeply. -/
theorem decodeFirst_budget (s : GoString) (extra : Nat) :
    decodeValue (2 * s.length + 1) 0 s ≠ .outOfFuel ∧
    decodeValue (2 * s.length + 1 + extra) 0 s = decodeValue (2 * s.length + 1) 0 s := by
  have h0 : decodeValue (2 * s.length + 1) 0 s ≠ .outOfFuel :=
    (decode_fuel (2 * s.length + 1)).1 0 s (by omega)
  refine ⟨h0, ?_⟩
  induction extra with
  | zero => rfl
  | succ extra ih =>
    rw [← Nat.add_assoc, (decode_stable_step _).1 0 s (by rw [ih]; exact h0), ih]

/-! ### The decoder reads every JSON text that is nested at most 10000 levels deep -/

theorem skipSpace_spaces_append (ws s : List Nat) (h : isSpaces ws = true) :
    skipSpace (ws ++ s) = skipSpace s := by
  induction ws with
  | nil => rfl
  | cons c ws ih =>
    simp only [isSpaces, List.all_cons, Bool.and_eq_true] at h
    simp only [List.cons_append, skipSpace, h.1, if_true]
    exact ih (by simpa [isSpaces] using h.2)

theorem skipSpace_idem (s : List Nat) : skipSpace (skipSpace s) = skipSpace s := by
  induction s with
  | nil => rfl
  | cons c s ih =>
    by_cases h : isSpace c = true
    · simp only [skipSpace, h, if_true, ih]
    · simp [skipSpace, h]

theorem decodeValue_skipSpace (fuel depth : Nat) (s : List Nat) :
    decodeValue fuel depth (skipSpace s) = decodeValue fuel depth s := by
  cases fuel with
  | zero => rfl
  | succ fuel => rw [decodeValue, decodeValue, skipSpace_idem]

theorem decodeElems_skipSpace (fuel depth : Nat) (s : List Nat) (acc : List Any) :
    decodeElems fuel depth (skipSpace s) acc = decodeElems fuel depth s acc := by
  cases fuel with
  | zero => rfl
  | succ fuel => rw [decodeElems, decodeElems, decodeValue_skipSpace]

theorem numberLen_append_of_stop (lit : List Nat) :
    ∀ (st : NumState) (rest : List Nat), numberLen st lit = some lit.length →
      endsNumber rest = true → numberLen st (lit ++ rest) = some lit.length := by
  induction lit with
  | nil =>
    intro st rest h hstop
    cases rest with
    | nil => simpa using h
    | cons c tl =>
      simp only [endsNumber, Bool.not_eq_true', Bool.or_eq_false_iff, decide_eq_false_iff_not,
        not_or] at hstop
      cases st <;> simp_all [numberLen]
  | cons x xs ih =>
    intro st rest h hstop
    have key : ∀ st2, (numberLen st2 xs).map (· + 1) = some (xs.length + 1) →
        (numberLen st2 (xs ++ rest)).map (· + 1) = some (xs.length + 1) := by
      intro st2 h2
      have h3 : numberLen st2 xs = some xs.length := by
        cases hn : numberLen st2 xs with
        | none => rw [hn] at h2; cases h2
        | some k =>
          rw [hn] at h2
          simp only [Option.map_some', Option.some.injEq, Nat.add_right_cancel_iff] at h2
          rw [h2]
      rw [ih st2 rest h3 hstop]; rfl
    clear hstop ih
    cases st <;> simp only [numberLen, List.cons_append, List.length_cons] at h ⊢ <;>
      (repeat' split at h) <;> (try cases h) <;> simp_all [key]

theorem stringLen_append (raw : List Nat) :
    ∀ (st : StrState) (rest : List Nat), stringLen st (raw ++ [34]) = some raw.length →
      stringLen st (raw ++ 34 :: rest) = some raw.length := by
  induction raw with
  | nil =>
    intro st rest h
    cases st <;> simp_all [stringLen, hexVal]
  | cons x xs ih =>
    intro st rest h
    have key : ∀ st2, (stringLen st2 (xs ++ [34])).map (· + 1) = some (xs.length + 1) →
        (stringLen st2 (xs ++ 34 :: rest)).map (· + 1) = some (xs.length + 1) := by
      intro st2 h2
      have h3 : stringLen st2 (xs ++ [34]) = some xs.length := by
        cases hn : stringLen st2 (xs ++ [34]) with
        | none => rw [hn] at h2; cases h2
        | some k =>
          rw [hn] at h2
          simp only [Option.map_some', Option.some.injEq, Nat.add_right_cancel_iff] at h2
          rw [h2]
      rw [ih st2 rest h3]; rfl
    clear ih
    cases st with
    | plain =>
      simp only [stringLen, List.cons_append, List.length_cons] at h ⊢
      (repeat' split at h) <;> (try cases h) <;> simp_all [key]
    | esc =>
      simp only [stringLen, List.cons_append, List.length_cons] at h ⊢
      (repeat' split at h) <;> (try cases h) <;> simp_all [key]
    | hex k =>
      simp only [stringLen, List.cons_append, List.length_cons] at h ⊢
      split at h
      · rename_i hx
        simp only [hx, if_true]
        exact key _ h
      · cases h

theorem scanString_body (raw rest : List Nat) (h : isStringBody raw = true) :
    scanString (raw ++ 34 :: rest) = some (unquote 0 raw, rest) := by
  simp only [isStringBody, decide_eq_true_eq] at h
  simp only [scanString, stringLen_append raw _ rest h, List.take_left']
  have : List.drop (raw.length + 1) (raw ++ 34 :: rest) = rest := by
    rw [List.drop_append_eq_append_drop]
    simp
  rw [this]


theorem endsNumber_spaces (ws : List Nat) (c : Nat) (tl : List Nat) (h : isSpaces ws = true)
    (hc : c = 44 ∨ c = 93 ∨ c = 125) : endsNumber (ws ++ c :: tl) = true := by
  cases ws with
  | nil =>
    rcases hc with rfl | rfl | rfl <;> rfl
  | cons x ws =>
    simp only [isSpaces, List.all_cons, Bool.and_eq_true, isSpace, decide_eq_true_eq] at h
    simp only [List.cons_append, endsNumber, isDigit]
    rcases h.1 with rfl | rfl | rfl | rfl <;> rfl

theorem skipSpace_spaces_cons (ws : List Nat) (c : Nat) (tl : List Nat)
    (h : isSpaces ws = true) (hc : isSpace c = false) :
    skipSpace (ws ++ c :: tl) = c :: tl := by
  rw [skipSpace_spaces_append ws _ h, skipSpace_cons_of_not_space c tl hc]

theorem decodeValue_number (fuel depth : Nat) (lit rest : List Nat)
    (h : isNumberLiteral lit = true) (hstop : endsNumber rest = true) :
    decodeValue (fuel + 1) depth (lit ++ rest) = .ok (.number lit) rest := by
  cases lit with
  | nil => cases h
  | cons c tl =>
    simp only [isNumberLiteral, Bool.and_eq_true, decide_eq_true_eq] at h
    have hc := h.1
    have hrange : c = 45 ∨ (48 ≤ c ∧ c ≤ 57) := by
      rcases hc with h | h
      · exact Or.inl h
      · exact Or.inr ((isDigit_iff c).1 h)
    have hsp : isSpace c = false := by
      simp only [isSpace, decide_eq_false_iff_not]
      omega
    have h1 : ¬ c = 123 := by omega
    have h2 : ¬ c = 91 := by omega
    have h3 : ¬ c = 34 := by omega
    have hnum : scanNumber (c :: (tl ++ rest)) = some (c :: tl, rest) := by
      simp only [scanNumber, numberLen_append_of_stop tl _ rest h.2 hstop, List.take_left',
        List.drop_left']
    simp only [List.cons_append, decodeValue, skipSpace_cons_of_not_space c _ hsp, h1, h2, h3,
      if_false, hc, if_true, hnum]

theorem decodeValue_string (fuel depth : Nat) (raw rest : List Nat)
    (h : isStringBody raw = true) :
    decodeValue (fuel + 1) depth (34 :: (raw ++ 34 :: rest)) = .ok (.str (unquote 0 raw)) rest := by
  have hsp : skipSpace (34 :: (raw ++ 34 :: rest)) = 34 :: (raw ++ 34 :: rest) := rfl
  simp only [decodeValue, hsp, scanString_body raw rest h]
  rfl

theorem decodeValue_emptyArray (fuel depth : Nat) (ws rest : List Nat)
    (h : isSpaces ws = true) (hd : depth + 1 ≤ maxNestingDepth) :
    decodeValue (fuel + 1) depth (91 :: (ws ++ 93 :: rest)) = .ok (.slice (some [])) rest := by
  have hsp : skipSpace (91 :: (ws ++ 93 :: rest)) = 91 :: (ws ++ 93 :: rest) := rfl
  simp only [decodeValue, hsp, skipSpace_spaces_cons ws 93 rest h rfl, hd]
  rfl

theorem decodeValue_emptyObject (fuel depth : Nat) (ws rest : List Nat)
    (h : isSpaces ws = true) (hd : depth + 1 ≤ maxNestingDepth) :
    decodeValue (fuel + 1) depth (123 :: (ws ++ 125 :: rest)) = .ok (.strMap (some [])) rest := by
  have hsp : skipSpace (123 :: (ws ++ 125 :: rest)) = 123 :: (ws ++ 125 :: rest) := rfl
  simp only [decodeValue, hsp, skipSpace_spaces_cons ws 125 rest h rfl, hd]
  rfl

theorem decodeValue_array (fuel depth : Nat) (s r : List Nat) (xs : List Any) (c2 : Nat)
    (rest2 : List Nat) (hd : depth + 1 ≤ maxNestingDepth) (hs : skipSpace s = c2 :: rest2)
    (hc : c2 ≠ 93) (he : decodeElems fuel (depth + 1) s [] = .ok xs r) :
    decodeValue (fuel + 1) depth (91 :: s) = .ok (.slice (some xs)) r := by
  have hsp : skipSpace (91 :: s) = 91 :: s := rfl
  have he2 : decodeElems fuel (depth + 1) (c2 :: rest2) [] = .ok xs r := by
    rw [← hs, decodeElems_skipSpace, he]
  simp only [decodeValue, hsp, hs, hd, hc, he2]
  rfl

theorem decodeValue_object (fuel depth : Nat) (s r : List Nat) (m : List (GoString × Any))
    (c2 : Nat) (rest2 : List Nat) (hd : depth + 1 ≤ maxNestingDepth)
    (hs : skipSpace s = c2 :: rest2) (hc : c2 ≠ 125)
    (hm : decodeMembers fuel (depth + 1) (skipSpace s) [] = .ok m r) :
    decodeValue (fuel + 1) depth (123 :: s) = .ok (.strMap (some m)) r := by
  have hsp : skipSpace (123 :: s) = 123 :: s := rfl
  rw [hs] at hm
  simp only [decodeValue, hsp, hs, hd, hc, hm]
  rfl

theorem decodeElems_more (fuel depth : Nat) (s r r2 : List Nat) (acc : List Any) (v : Any)
    (hv : decodeValue fuel depth s = .ok v r) (hs : skipSpace r = 44 :: r2) :
    decodeElems (fuel + 1) depth s acc = decodeElems fuel depth r2 (acc ++ [v]) := by
  simp only [decodeElems, hv, hs]
  rfl

theorem decodeElems_last (fuel depth : Nat) (s r r2 : List Nat) (acc : List Any) (v : Any)
    (hv : decodeValue fuel depth s = .ok v r) (hs : skipSpace r = 93 :: r2) :
    decodeElems (fuel + 1) depth s acc = .ok (acc ++ [v]) r2 := by
  simp only [decodeElems, hv, hs]
  rfl

theorem decodeMembers_more (fuel depth : Nat) (s1 r r2 r3 r4 : List Nat) (key : GoString)
    (acc : List (GoString × Any)) (v : Any)
    (hk : scanString s1 = some (key, r)) (hs1 : skipSpace r = 58 :: r2)
    (hv : decodeValue fuel depth r2 = .ok v r3) (hs2 : skipSpace r3 = 44 :: r4) :
    decodeMembers (fuel + 1) depth (34 :: s1) acc
      = decodeMembers fuel depth (skipSpace r4) (mapSet acc key v) := by
  simp only [decodeMembers, hk, hs1, hv, hs2]
  rfl

theorem decodeMembers_last (fuel depth : Nat) (s1 r r2 r3 r4 : List Nat) (key : GoString)
    (acc : List (GoString × Any)) (v : Any)
    (hk : scanString s1 = some (key, r)) (hs1 : skipSpace r = 58 :: r2)
    (hv : decodeValue fuel depth r2 = .ok v r3) (hs2 : skipSpace r3 = 125 :: r4) :
    decodeMembers (fuel + 1) depth (34 :: s1) acc = .ok (mapSet acc key v) r4 := by
  simp only [decodeMembers, hk, hs1, hv, hs2]
  rfl

theorem decodeValue_spaces (fuel depth : Nat) (ws s : List Nat) (h : isSpaces ws = true) :
    decodeValue fuel depth (ws ++ s) = decodeValue fuel depth s := by
  rw [← decodeValue_skipSpace, skipSpace_spaces_append ws s h, decodeValue_skipSpace]

theorem value_text_head (v : JValue) (h : v.wellFormed = true) :
    ∃ c tl, v.text = c :: tl ∧ isSpace c = false ∧ c ≠ 93 := by
  cases v with
  | number lit =>
    cases lit with
    | nil => cases h
    | cons c tl =>
      simp only [JValue.wellFormed, isNumberLiteral, Bool.and_eq_true, decide_eq_true_eq] at h
      have hrange : c = 45 ∨ (48 ≤ c ∧ c ≤ 57) := by
        rcases h.1 with h | h
        · exact Or.inl h
        · exact Or.inr ((isDigit_iff c).1 h)
      refine ⟨c, tl, rfl, ?_, by omega⟩
      simp only [isSpace, decide_eq_false_iff_not]
      omega
  | _ => exact ⟨_, _, rfl, by decide, by decide⟩

theorem elems_text_skip (es : JElems) (tail : List Nat) (h : es.wellFormed = true) :
    ∃ c tl, skipSpace (es.text ++ tail) = c :: tl ∧ c ≠ 93 := by
  cases es with
  | one ws1 v ws2 =>
    simp only [JElems.wellFormed, Bool.and_eq_true] at h
    obtain ⟨c, tl, hv, hsp, hc⟩ := value_text_head v h.1.2
    refine ⟨c, tl ++ (ws2 ++ tail), ?_, hc⟩
    simp only [JElems.text, List.append_assoc, hv, List.cons_append]
    exact skipSpace_spaces_cons ws1 c _ h.1.1 hsp
  | cons ws1 v ws2 rest =>
    simp only [JElems.wellFormed, Bool.and_eq_true] at h
    obtain ⟨c, tl, hv, hsp, hc⟩ := value_text_head v h.1.1.2
    refine ⟨c, tl ++ (ws2 ++ 44 :: (rest.text ++ tail)), ?_, hc⟩
    simp only [JElems.text, List.append_assoc, hv, List.cons_append]
    exact skipSpace_spaces_cons ws1 c _ h.1.1.1 hsp

theorem members_text_skip (ms : JMembers) (tail : List Nat) (h : ms.wellFormed = true) :
    ∃ tl, skipSpace (ms.text ++ tail) = 34 :: tl := by
  cases ms with
  | one ws1 key ws2 ws3 v ws4 =>
    simp only [JMembers.wellFormed, Bool.and_eq_true] at h
    simp only [JMembers.text, List.append_assoc, List.cons_append]
    exact ⟨_, skipSpace_spaces_cons ws1 34 _ h.1.1.1.1.1 rfl⟩
  | cons ws1 key ws2 ws3 v ws4 rest =>
    simp only [JMembers.wellFormed, Bool.and_eq_true] at h
    simp only [JMembers.text, List.append_assoc, List.cons_append]
    exact ⟨_, skipSpace_spaces_cons ws1 34 _ h.1.1.1.1.1.1 rfl⟩

mutual
theorem decodeValue_text : (v : JValue) → ∀ (fuel d : Nat) (rest : List Nat),
    v.wellFormed = true → d + v.depth ≤ maxNestingDepth → v.size ≤ fuel →
    endsNumber rest = true → decodeValue fuel d (v.text ++ rest) = .ok v.value rest
  | .litNull, fuel, d, rest, _, _, hf, _ => by
    obtain ⟨f, rfl⟩ : ∃ f, fuel = f + 1 := ⟨fuel - 1, by simp only [JValue.size] at hf; omega⟩
    simp [JValue.text, JValue.value, decodeValue, skipSpace, isSpace, isDigit, scanWord]
  | .litTrue, fuel, d, rest, _, _, hf, _ => by
    obtain ⟨f, rfl⟩ : ∃ f, fuel = f + 1 := ⟨fuel - 1, by simp only [JValue.size] at hf; omega⟩
    simp [JValue.text, JValue.value, decodeValue, skipSpace, isSpace, isDigit, scanWord]
  | .litFalse, fuel, d, rest, _, _, hf, _ => by
    obtain ⟨f, rfl⟩ : ∃ f, fuel = f + 1 := ⟨fuel - 1, by simp only [JValue.size] at hf; omega⟩
    simp [JValue.text, JValue.value, decodeValue, skipSpace, isSpace, isDigit, scanWord]
  | .number lit, fuel, d, rest, hwf, _, hf, hstop => by
    obtain ⟨f, rfl⟩ : ∃ f, fuel = f + 1 := ⟨fuel - 1, by simp only [JValue.size] at hf; omega⟩
    exact decodeValue_number f d lit rest hwf hstop
  | .string raw, fuel, d, rest, hwf, _, hf, _ => by
    obtain ⟨f, rfl⟩ : ∃ f, fuel = f + 1 := ⟨fuel - 1, by simp only [JValue.size] at hf; omega⟩
    simp only [JValue.text, JValue.value, List.cons_append, List.append_assoc,
      List.nil_append]
    exact decodeValue_string f d raw rest hwf
  | .emptyArray ws, fuel, d, rest, hwf, hd, hf, _ => by
    obtain ⟨f, rfl⟩ : ∃ f, fuel = f + 1 := ⟨fuel - 1, by simp only [JValue.size] at hf; omega⟩
    simp only [JValue.text, JValue.value, List.cons_append, List.append_assoc,
      List.nil_append]
    exact decodeValue_emptyArray f d ws rest hwf (by simpa [JValue.depth] using hd)
  | .emptyObject ws, fuel, d, rest, hwf, hd, hf, _ => by
    obtain ⟨f, rfl⟩ : ∃ f, fuel = f + 1 := ⟨fuel - 1, by simp only [JValue.size] at hf; omega⟩
    simp only [JValue.text, JValue.value, List.cons_append, List.append_assoc,
      List.nil_append]
    exact decodeValue_emptyObject f d ws rest hwf (by simpa [JValue.depth] using hd)
  | .array es, fuel, d, rest, hwf, hd, hf, _ => by
    obtain ⟨f, rfl⟩ : ∃ f, fuel = f + 1 := ⟨fuel - 1, by simp only [JValue.size] at hf; omega⟩
    simp only [JValue.wellFormed] at hwf
    simp only [JValue.depth] at hd
    simp only [JValue.size] at hf
    obtain ⟨c2, rest2, hs, hc⟩ := elems_text_skip es (93 :: rest) hwf
    have he := decodeElems_text es f (d + 1) rest [] hwf (by omega) (by omega)
    simp only [JValue.text, JValue.value, List.cons_append, List.append_assoc,
      List.nil_append]
    exact decodeValue_array f d _ rest _ c2 rest2 (by omega) hs hc (by simpa using he)
  | .object ms, fuel, d, rest, hwf, hd, hf, _ => by
    obtain ⟨f, rfl⟩ : ∃ f, fuel = f + 1 := ⟨fuel - 1, by simp only [JValue.size] at hf; omega⟩
    simp only [JValue.wellFormed] at hwf
    simp only [JValue.depth] at hd
    simp only [JValue.size] at hf
    obtain ⟨rest2, hs⟩ := members_text_skip ms (125 :: rest) hwf
    have hm := decodeMembers_text ms f (d + 1) rest [] hwf (by omega) (by omega)
    simp only [JValue.text, JValue.value, List.cons_append, List.append_assoc,
      List.nil_append]
    exact decodeValue_object f d _ rest _ 34 rest2 (by omega) hs (by decide) hm
theorem decodeElems_text : (es : JElems) → ∀ (fuel d : Nat) (rest : List Nat) (acc : List Any),
    es.wellFormed = true → d + es.depth ≤ maxNestingDepth → es.size ≤ fuel →
    decodeElems fuel d (es.text ++ 93 :: rest) acc = .ok (acc ++ es.values) rest
  | .one ws1 v ws2, fuel, d, rest, acc, hwf, hd, hf => by
    obtain ⟨f, rfl⟩ : ∃ f, fuel = f + 1 := ⟨fuel - 1, by simp only [JElems.size] at hf; omega⟩
    simp only [JElems.wellFormed, Bool.and_eq_true] at hwf
    simp only [JElems.depth] at hd
    simp only [JElems.size] at hf
    have hv := decodeValue_text v f d (ws2 ++ 93 :: rest) hwf.1.2 hd (by omega)
      (endsNumber_spaces ws2 93 rest hwf.2 (by simp))
    simp only [JElems.text, JElems.values, List.append_assoc]
    exact decodeElems_last f d _ _ rest acc v.value
      (by rw [decodeValue_spaces f d ws1 _ hwf.1.1]; exact hv)
      (skipSpace_spaces_cons ws2 93 rest hwf.2 rfl)
  | .cons ws1 v ws2 more, fuel, d, rest, acc, hwf, hd, hf => by
    obtain ⟨f, rfl⟩ : ∃ f, fuel = f + 1 := ⟨fuel - 1, by simp only [JElems.size] at hf; omega⟩
    simp only [JElems.wellFormed, Bool.and_eq_true] at hwf
    simp only [JElems.depth] at hd
    simp only [JElems.size] at hf
    have hv := decodeValue_text v f d (ws2 ++ 44 :: (more.text ++ 93 :: rest)) hwf.1.1.2
      (by omega) (by omega) (endsNumber_spaces ws2 44 _ hwf.1.2 (by simp))
    have hmore := decodeElems_text more f d rest (acc ++ [v.value]) hwf.2 (by omega) (by omega)
    simp only [JElems.text, JElems.values, List.append_assoc, List.cons_append]
    rw [decodeElems_more f d _ _ (more.text ++ 93 :: rest) acc v.value
      (by rw [decodeValue_spaces f d ws1 _ hwf.1.1.1]; exact hv)
      (skipSpace_spaces_cons ws2 44 _ hwf.1.2 rfl), hmore]
    simp
theorem decodeMembers_text : (ms : JMembers) → ∀ (fuel d : Nat) (rest : List Nat)
    (acc : List (GoString × Any)),
    ms.wellFormed = true → d + ms.depth ≤ maxNestingDepth → ms.size ≤ fuel →
    decodeMembers fuel d (skipSpace (ms.text ++ 125 :: rest)) acc = .ok (ms.store acc) rest
  | .one ws1 key ws2 ws3 v ws4, fuel, d, rest, acc, hwf, hd, hf => by
    obtain ⟨f, rfl⟩ : ∃ f, fuel = f + 1 := ⟨fuel - 1, by simp only [JMembers.size] at hf; omega⟩
    simp only [JMembers.wellFormed, Bool.and_eq_true] at hwf
    simp only [JMembers.depth] at hd
    simp only [JMembers.size] at hf
    obtain ⟨⟨⟨⟨⟨h1, hk⟩, h2⟩, h3⟩, hv⟩, h4⟩ := hwf
    have hval := decodeValue_text v f d (ws4 ++ 125 :: rest) hv hd (by omega)
      (endsNumber_spaces ws4 125 rest h4 (by simp))
    simp only [JMembers.text, JMembers.store, List.append_assoc, List.cons_append]
    rw [skipSpace_spaces_cons ws1 34 _ h1 rfl]
    exact decodeMembers_last f d _ _ _ _ rest (unquote 0 key) acc v.value
      (scanString_body key _ hk) (skipSpace_spaces_cons ws2 58 _ h2 rfl)
      (by rw [decodeValue_spaces f d ws3 _ h3]; exact hval)
      (skipSpace_spaces_cons ws4 125 rest h4 rfl)
  | .cons ws1 key ws2 ws3 v ws4 more, fuel, d, rest, acc, hwf, hd, hf => by
    obtain ⟨f, rfl⟩ : ∃ f, fuel = f + 1 := ⟨fuel - 1, by simp only [JMembers.size] at hf; omega⟩
    simp only [JMembers.wellFormed, Bool.and_eq_true] at hwf
    simp only [JMembers.depth] at hd
    simp only [JMembers.size] at hf
    obtain ⟨⟨⟨⟨⟨⟨h1, hk⟩, h2⟩, h3⟩, hv⟩, h4⟩, hm⟩ := hwf
    have hval := decodeValue_text v f d (ws4 ++ 44 :: (more.text ++ 125 :: rest)) hv
      (by omega) (by omega) (endsNumber_spaces ws4 44 _ h4 (by simp))
    have hmore := decodeMembers_text more f d rest (mapSet acc (unquote 0 key) v.value) hm
      (by omega) (by omega)
    simp only [JMembers.text, JMembers.store, List.append_assoc, List.cons_append]
    rw [skipSpace_spaces_cons ws1 34 _ h1 rfl]
    rw [decodeMembers_more f d _ _ _ _ (more.text ++ 125 :: rest) (unquote 0 key) acc v.value
      (scanString_body key _ hk) (skipSpace_spaces_cons ws2 58 _ h2 rfl)
      (by rw [decodeValue_spaces f d ws3 _ h3]; exact hval)
      (skipSpace_spaces_cons ws4 44 _ h4 rfl), hmore]
end

/-! ### `ParseJSON` on JSON objects -/

theorem endsNumber_of_spaces (ws : List Nat) (h : isSpaces ws = true) :
    endsNumber ws = true := by
  cases ws with
  | nil => rfl
  | cons x ws =>
    simp only [isSpaces, List.all_cons, Bool.and_eq_true, isSpace, decide_eq_true_eq] at h
    simp only [endsNumber, isDigit]
    rcases h.1 with rfl | rfl | rfl | rfl <;> rfl

theorem decodeFirst_text (ws1 ws2 : List Nat) (v : JValue) (h1 : isSpaces ws1 = true)
    (h2 : isSpaces ws2 = true) (hwf : v.wellFormed = true)
    (hd : v.depth ≤ maxNestingDepth) :
    decodeFirst (ws1 ++ (v.text ++ ws2)) = some v.value := by
  have hb := (decodeFirst_budget (ws1 ++ (v.text ++ ws2)) v.size).2
  have hv := decodeValue_text v (2 * (ws1 ++ (v.text ++ ws2)).length + 1 + v.size) 0 ws2 hwf
    (by omega) (by omega) (endsNumber_of_spaces ws2 h2)
  rw [← decodeValue_spaces _ 0 ws1 _ h1, hb] at hv
  unfold decodeFirst
  rw [hv]

theorem deep_arrays_refused (n : Nat) :
    ∀ (fuel d : Nat) (rest : List Nat) (v : Any) (r : List Nat), 1 ≤ n →
      maxNestingDepth < d + n →
      decodeValue fuel d (List.replicate n 91 ++ rest) ≠ .ok v r := by
  induction n with
  | zero => intro fuel d rest v r h; omega
  | succ n ih =>
    intro fuel d rest v r _ hd
    cases fuel with
    | zero => exact fun h => Decoded.noConfusion h
    | succ fuel =>
      have hsp : skipSpace (91 :: (List.replicate n 91 ++ rest))
          = 91 :: (List.replicate n 91 ++ rest) := rfl
      simp only [List.replicate_succ, List.cons_append, decodeValue, hsp]
      by_cases hdepth : d + 1 ≤ maxNestingDepth
      · cases n with
        | zero => omega
        | succ m =>
          have hsp2 : skipSpace (List.replicate (m + 1) 91 ++ rest)
              = 91 :: (List.replicate m 91 ++ rest) := rfl
          have hih := ih
          simp only [List.replicate_succ, List.cons_append] at hih
          simp only [hdepth, hsp2]
          cases fuel with
          | zero => simp [decodeElems]
          | succ fuel =>
            simp only [decodeElems]
            cases hv : decodeValue fuel (d + 1) (91 :: (List.replicate m 91 ++ rest)) with
            | ok v2 r2 => exact absurd hv (hih fuel (d + 1) rest v2 r2 (by omega) (by omega))
            | bad => simp
            | outOfFuel => simp
      · simp [hdepth]

theorem nestedArrays_text (n : Nat) :
    (nestedArrays n).text = List.replicate (n + 1) 91 ++ List.replicate (n + 1) 93 := by
  induction n with
  | zero => rfl
  | succ n ih =>
    simp only [nestedArrays, JValue.text, JElems.text, ih, List.nil_append, List.append_nil,
      List.append_assoc]
    rw [List.replicate_succ (n := n + 1) (a := 91)]
    rw [List.replicate_succ' (n := n + 1) (a := 93)]
    simp

theorem nestedArrays_wellFormed (n : Nat) : (nestedArrays n).wellFormed = true := by
  induction n with
  | zero => rfl
  | succ n ih => simp [nestedArrays, JValue.wellFormed, JElems.wellFormed, ih, isSpaces]

theorem nestedArrays_depth (n : Nat) : (nestedArrays n).depth = n + 1 := by
  induction n with
  | zero => rfl
  | succ n ih => simp only [nestedArrays, JValue.depth, JElems.depth, ih]; omega

theorem objectOfNestedArrays_text (n : Nat) :
    (objectOfNestedArrays n).text = 123 :: 34 :: 97 :: 34 :: 58 ::
      (List.replicate (n + 1) 91 ++ (List.replicate (n + 1) 93 ++ [125])) := by
  have e : goStr "a" = [97] := rfl
  simp only [objectOfNestedArrays, JValue.text, JMembers.text, nestedArrays_text, e,
    List.nil_append, List.append_nil, List.append_assoc, List.cons_append,
    List.singleton_append]

theorem objectOfNestedArrays_refused (n fuel : Nat) (v : Any) (r : List Nat)
    (hn : maxNestingDepth < n + 2) :
    decodeValue fuel 0 (objectOfNestedArrays n).text ≠ .ok v r := by
  rw [objectOfNestedArrays_text]
  cases fuel with
  | zero => exact fun h => Decoded.noConfusion h
  | succ fuel =>
    have hsp : ∀ X : List Nat, skipSpace (123 :: 34 :: 97 :: 34 :: 58 :: X)
        = 123 :: 34 :: 97 :: 34 :: 58 :: X := fun _ => rfl
    have hsp2 : ∀ X : List Nat, skipSpace (34 :: 97 :: 34 :: 58 :: X)
        = 34 :: 97 :: 34 :: 58 :: X := fun _ => rfl
    have hdepth : 0 + 1 ≤ maxNestingDepth := by decide
    simp only [decodeValue, hsp, hsp2, hdepth, if_true]
    cases fuel with
    | zero => simp [decodeMembers]
    | succ fuel =>
      have hstr : ∀ X : List Nat, scanString (97 :: 34 :: 58 :: X) = some ([97], 58 :: X) :=
        fun _ => rfl
      have hsp3 : ∀ X : List Nat, skipSpace (58 :: X) = 58 :: X := fun _ => rfl
      simp only [decodeMembers, hstr, hsp3, if_true]
      cases hv : decodeValue fuel (0 + 1)
          (List.replicate (n + 1) 91 ++ (List.replicate (n + 1) 93 ++ [125])) with
      | ok v2 r2 =>
        exact absurd hv (deep_arrays_refused (n + 1) fuel (0 + 1) _ v2 r2 (by omega)
          (by omega))
      | bad => simp
      | outOfFuel => simp

theorem parseJSON_objectOfNestedArrays (n : Nat) (hn : maxNestingDepth < n + 2) :
    ParseJSON (fun _ => none) (some (objectOfNestedArrays n).text) = .nil := by
  have hfirst : decodeFirst (objectOfNestedArrays n).text = none := by
    unfold decodeFirst
    cases hv : decodeValue (2 * (objectOfNestedArrays n).text.length + 1) 0
        (objectOfNestedArrays n).text with
    | ok v r => exact absurd hv (objectOfNestedArrays_refused n _ v r hn)
    | bad => rfl
    | outOfFuel => rfl
  have h1 : decodeIntoMap (objectOfNestedArrays n).text = none := by
    simp only [decodeIntoMap, hfirst]
  have h2 : decodeIntoSlice (objectOfNestedArrays n).text = none := by
    simp only [decodeIntoSlice, hfirst]
  have h3 : Atoi (objectOfNestedArrays n).text = none := by
    rw [objectOfNestedArrays_text]
    simp [Atoi, isDigit]
  have h4 : ParseBool (objectOfNestedArrays n).text = none := by
    rw [objectOfNestedArrays_text]
    have e : ∀ (X : List Nat) (c : Nat) (tl : List Nat), c ≠ 123 → 123 :: X ≠ c :: tl := by
      intro X c tl hc h
      exact hc (List.cons.inj h).1.symm
    unfold ParseBool
    rw [if_neg, if_neg]
    · intro h
      rcases h with h | h | h | h | h | h <;> exact e _ _ _ (by decide) h
    · intro h
      rcases h with h | h | h | h | h | h <;> exact e _ _ _ (by decide) h
  simp only [ParseJSON, StringValue, h1, h2, h3, h4]

theorem objectOfNestedArrays_wellFormed (n : Nat) :
    (objectOfNestedArrays n).wellFormed = true := by
  have e : isStringBody (goStr "a") = true := by decide
  simp only [objectOfNestedArrays, JValue.wellFormed, JMembers.wellFormed,
    nestedArrays_wellFormed, e, isSpaces, List.all_nil, Bool.and_self]

theorem objectOfNestedArrays_depth (n : Nat) : (objectOfNestedArrays n).depth = n + 2 := by
  simp only [objectOfNestedArrays, JValue.depth, JMembers.depth, nestedArrays_depth]
  omega

/-- C10, as stated, fails: the object with the one member "a" whose value is 10000
arrays nested in one another is a JSON object, nested 10001 levels deep; the
decoder refuses it (its nesting limit is 10000), so both decoding attempts fail
and, the text being no integer, bool or float, `ParseJSON` returns the nil
interface and not a map. -/
theorem parseJSON_object_counterexample :
    isJSONObject deepObject.text [] deepObject [] ∧
    deepObject.depth = 10001 ∧
    ParseJSON (fun _ => none) (some deepObject.text) = .nil :=
  ⟨⟨by simp, rfl, rfl, objectOfNestedArrays_wellFormed 9999, Or.inr ⟨_, rfl⟩⟩,
   objectOfNestedArrays_depth 9999,
   parseJSON_objectOfNestedArrays 9999 (by decide)⟩

/-- C10, amended: for every text that is a JSON object nested at most 10000 levels
deep (the nesting limit of the decoder), `ParseJSON` returns the value of the
object: a non-nil `map[string]interface{}` in which every number, at any depth, is
the `json.Number` of its literal and no `float64` occurs.  In particular, for
every JSON number literal `lit` the object with the one member "a": `lit` gives the
map with the one key "a" holding the `json.Number` `lit`, and the object with the
one member "a": 1 gives the map with the one key "a" holding the `json.Number` `1`. -/
theorem parseJSON_object_spec (parseFloat : GoString → Option Nat) (s : GoString)
    (ws1 ws2 : List Nat) (o : JValue) (h : isJSONObject s ws1 o ws2)
    (hd : o.depth ≤ maxNestingDepth) :
    ParseJSON parseFloat (some s) = o.value ∧
    (∃ m, o.value = .strMap (some m)) ∧
    keepsNumbers o.value = true ∧
    (∀ lit, isNumberLiteral lit = true →
      ParseJSON parseFloat (some (goStr "\x7b\"a\":" ++ lit ++ goStr "\x7d"))
        = .strMap (some [(goStr "a", .number lit)])) ∧
    ParseJSON parseFloat (some (goStr "\x7b\"a\":1\x7d"))
      = .strMap (some [(goStr "a", .number (goStr "1"))]) := by
  obtain ⟨hs, h1, h2, hwf, hobj⟩ := h
  have hfirst : decodeFirst s = some o.value := by
    rw [hs]; exact decodeFirst_text ws1 ws2 o h1 h2 hwf hd
  have hmap : ∃ m, o.value = .strMap (some m) := by
    rcases hobj with ⟨ws, rfl⟩ | ⟨ms, rfl⟩
    · exact ⟨_, rfl⟩
    · exact ⟨_, rfl⟩
  have hkeeps : keepsNumbers o.value = true := by
    have hv : decodeValue (2 * s.length + 1) 0 s = .ok o.value
        (match decodeValue (2 * s.length + 1) 0 s with | .ok _ r => r | _ => []) := by
      unfold decodeFirst at hfirst
      cases hdv : decodeValue (2 * s.length + 1) 0 s with
      | ok v r =>
        rw [hdv] at hfirst
        simp only [Option.some.injEq] at hfirst
        rw [hfirst]
      | bad => rw [hdv] at hfirst; cases hfirst
      | outOfFuel => rw [hdv] at hfirst; cases hfirst
    exact (decode_keepsNumbers _).1 _ _ _ _ hv
  refine ⟨?_, hmap, hkeeps, ?_, rfl⟩
  · obtain ⟨m, hm⟩ := hmap
    simp only [ParseJSON, StringValue, decodeIntoMap, hfirst, hm]
  · intro lit hlit
    simp only [ParseJSON, StringValue, decodeIntoMap, decodeFirst_literal lit hlit]

/-- C10, amended, at a concrete text: the object with white space and the one
member "a": 1.50 is a JSON object nested one level deep, and `ParseJSON` returns the
map with the one key "a" holding the `json.Number` `1.50`. -/
theorem parseJSON_object_spec_witness :
    isJSONObject (goStr " \x7b \"a\" : 1.50 \x7d ") [32]
      (.object (.one [32] (goStr "a") [32] [32] (.number (goStr "1.50")) [32])) [32] ∧
    ParseJSON (fun _ => some 0) (some (goStr " \x7b \"a\" : 1.50 \x7d "))
      = .strMap (some [(goStr "a", .number (goStr "1.50"))]) :=
  ⟨⟨rfl, rfl, rfl, by decide, Or.inr ⟨_, rfl⟩⟩,
   (parseJSON_object_spec (fun _ => some 0) (goStr " \x7b \"a\" : 1.50 \x7d ") [32] [32]
      (.object (.one [32] (goStr "a") [32] [32] (.number (goStr "1.50")) [32]))
      ⟨rfl, rfl, rfl, by decide, Or.inr ⟨_, rfl⟩⟩ (by decide)).1⟩

/-! ### `ToJSONString` on texts -/

/-- C11: on a `string`, a `*string` and a `[]byte`, `ToJSONString` returns the text
it is given, byte for byte, without quotes and without escapes: a string `s` gives
`s`, a pointer gives the same pointer (the nil pointer included), a byte sequence
gives its bytes as text (the empty text for the nil slice); so `hello` gives
`hello`, and a text with a quote, a backslash and control characters is returned as
it is.  No parameter of the encoder has a part in it. -/
theorem toJSONString_text_unchanged (inv : InvalidUTF8) (encodeOther : Any → Option GoString) :
    (∀ s : GoString, ToJSONString inv encodeOther (.str s) = some s) ∧
    (∀ p : Option GoString, ToJSONString inv encodeOther (.strPtr p) = p) ∧
    (∀ b : List Nat, ToJSONString inv encodeOther (.bytes (some b)) = some b) ∧
    ToJSONString inv encodeOther (.bytes none) = some [] ∧
    ToJSONString inv encodeOther (.str (goStr "hello")) = some (goStr "hello") ∧
    ToJSONString inv encodeOther (.str (goStr "a\"b\\c\n\x01")) = some (goStr "a\"b\\c\n\x01") ∧
    goStr "a\"b\\c\n\x01" = [97, 34, 98, 92, 99, 10, 1] :=
  ⟨fun _ => rfl, fun _ => rfl, fun _ => rfl, rfl, rfl, rfl, by decide⟩

/-! ### The encoder writes no white space around a value -/

/-- The state of the scanner after a complete number literal. -/
theorem numberLen_last_digit :
    ∀ (rest : List Nat) (st : NumState) (prev : Nat),
      numberLen st rest = some rest.length →
      ((st = .zero ∨ st = .int ∨ st = .frac ∨ st = .expDigits) → isDigit prev = true) →
      ∃ d, (prev :: rest).getLast? = some d ∧ isDigit d = true := by
  intro rest
  induction rest with
  | nil =>
    intro st prev h hacc
    refine ⟨prev, rfl, hacc ?_⟩
    cases st <;> simp_all [numberLen]
  | cons c rest ih =>
    intro st prev h _
    rw [List.getLast?_cons_cons]
    have key : ∀ st2, numberLen st2 rest = some rest.length →
        ((st2 = .zero ∨ st2 = .int ∨ st2 = .frac ∨ st2 = .expDigits) → isDigit c = true) →
        ∃ d, (c :: rest).getLast? = some d ∧ isDigit d = true := fun st2 h2 h3 => ih st2 c h2 h3
    have hmap : ∀ st2, (numberLen st2 rest).map (· + 1) = some (rest.length + 1) →
        numberLen st2 rest = some rest.length := by
      intro st2 h2
      cases hn : numberLen st2 rest with
      | none => rw [hn] at h2; simp at h2
      | some n => rw [hn] at h2; simp at h2; rw [h2]
    have h0 : ¬ (some 0 = some (rest.length + 1)) := by simp
    cases st <;> simp only [numberLen, List.length_cons] at h
    · -- neg
      split_ifs at h with h1 h2
      · exact key _ (hmap _ h) (fun _ => by simp [isDigit, h1])
      · exact key _ (hmap _ h) (fun _ => by simp [isDigit]; omega)
    · -- zero
      split_ifs at h with h1 h2
      · exact key _ (hmap _ h) (fun hs => by simp at hs)
      · exact key _ (hmap _ h) (fun hs => by simp at hs)
      · exact absurd h h0
    · -- int
      split_ifs at h with h1 h2 h3
      · exact key _ (hmap _ h) (fun _ => h1)
      · exact key _ (hmap _ h) (fun hs => by simp at hs)
      · exact key _ (hmap _ h) (fun hs => by simp at hs)
      · exact absurd h h0
    · -- dot
      split_ifs at h with h1
      · exact key _ (hmap _ h) (fun _ => h1)
    · -- frac
      split_ifs at h with h1 h2
      · exact key _ (hmap _ h) (fun _ => h1)
      · exact key _ (hmap _ h) (fun hs => by simp at hs)
      · exact absurd h h0
    · -- exp
      split_ifs at h with h1 h2
      · exact key _ (hmap _ h) (fun hs => by simp at hs)
      · exact key _ (hmap _ h) (fun _ => h2)
    · -- expSign
      split_ifs at h with h1
      · exact key _ (hmap _ h) (fun _ => h1)
    · -- expDigits
      split_ifs at h with h1
      · exact key _ (hmap _ h) (fun _ => h1)
      · exact absurd h h0

theorem isTight_of (e : GoString) (c d : Nat) (hc : e.head? = some c) (hd : e.getLast? = some d)
    (h1 : 32 < c ∧ c < 127) (h2 : 32 < d ∧ d < 127) : isTight e = true := by
  have a1 : isSpaceRune c = false := by
    simp only [isSpaceRune, decide_eq_false_iff_not]; omega
  have a2 : isSpaceRune d = false := by
    simp only [isSpaceRune, decide_eq_false_iff_not]; omega
  have b1 : c < 128 := by omega
  have b2 : d < 128 := by omega
  simp [isTight, hc, hd, a1, a2, b1, b2]

theorem isTight_wrap (c d : Nat) (mid : List Nat) (h1 : 32 < c ∧ c < 127)
    (h2 : 32 < d ∧ d < 127) : isTight (c :: (mid ++ [d])) = true :=
  isTight_of _ c d rfl (by
    rw [← List.cons_append, List.getLast?_append]
    rfl) h1 h2

theorem isTight_numberLiteral (lit : GoString) (h : isNumberLiteral lit = true) :
    isTight lit = true := by
  cases lit with
  | nil => simp [isNumberLiteral] at h
  | cons c rest =>
    simp only [isNumberLiteral, Bool.and_eq_true, decide_eq_true_eq] at h
    obtain ⟨hc, hlen⟩ := h
    have hc2 : c = 45 ∨ (48 ≤ c ∧ c ≤ 57) := by
      rcases hc with hc | hc
      · exact Or.inl hc
      · exact Or.inr ((isDigit_iff c).1 hc)
    obtain ⟨d, hd, hdig⟩ := numberLen_last_digit rest _ c hlen (by
      intro hs
      rcases hc2 with hc2 | hc2
      · subst hc2; simp at hs
      · exact (isDigit_iff c).2 hc2)
    have hd2 := (isDigit_iff d).1 hdig
    exact isTight_of _ c d rfl hd (by omega) (by omega)

theorem isTight_digits (ds : List Nat) (hne : ds ≠ []) (hall : ds.all isDigit = true) :
    isTight ds = true ∧ isTight (45 :: ds) = true := by
  have hall2 : ∀ x ∈ ds, isDigit x = true := by simpa using hall
  obtain ⟨c, rest, hc⟩ := List.exists_cons_of_ne_nil hne
  have hlast : ds.getLast? = some (ds.getLast hne) := List.getLast?_eq_getLast ds hne
  have h1 := (isDigit_iff c).1 (hall2 c (by simp [hc]))
  have h2 := (isDigit_iff _).1 (hall2 _ (List.getLast_mem hne))
  refine ⟨isTight_of _ c _ (by simp [hc]) hlast (by omega) (by omega), ?_⟩
  refine isTight_of _ 45 (ds.getLast hne) rfl ?_ (by omega) (by omega)
  rw [← hlast]
  subst hc
  exact List.getLast?_cons_cons

theorem isTight_decimalText (n : Int) : isTight (decimalText n) = true := by
  cases n with
  | ofNat m =>
    obtain ⟨_, h2, h3⟩ := natText_spec m
    rw [decimalText_ofNat]
    exact (isTight_digits _ h3 h2).1
  | negSucc m =>
    obtain ⟨_, h2, h3⟩ := natText_spec (m + 1)
    rw [decimalText_negSucc]
    exact (isTight_digits _ h3 h2).2

/-- Every JSON text that the encoder writes starts and ends with an ASCII character
that is not white space; for a value whose text is the parameter, as soon as that
text does. -/
theorem encodeValue_tight_at (inv : InvalidUTF8) (encodeOther : Any → Option GoString)
    (a : Any) (hat : isOther a = true → ∀ e, encodeOther a = some e → isTight e = true)
    (e : GoString) (h : encodeValue inv encodeOther a = some e) : isTight e = true := by
  have hnull : isTight (goStr "null") = true := by decide
  have htrue : isTight (goStr "true") = true := by decide
  have hfalse : isTight (goStr "false") = true := by decide
  have hstr : ∀ mid : List Nat, isTight (34 :: (mid ++ [34])) = true :=
    fun mid => isTight_wrap 34 34 mid (by omega) (by omega)
  cases a with
  | nil => simp only [encodeValue, Option.some.injEq] at h; rw [← h]; exact hnull
  | int n => simp only [encodeValue, Option.some.injEq] at h; rw [← h]; exact isTight_decimalText n
  | intPtr p =>
    cases p <;> simp only [encodeValue, Option.some.injEq] at h <;> rw [← h]
    · exact hnull
    · exact isTight_decimalText _
  | bool b =>
    simp only [encodeValue, Option.some.injEq] at h; rw [← h]
    cases b
    · exact hfalse
    · exact htrue
  | boolPtr p =>
    cases p with
    | none => simp only [encodeValue, Option.some.injEq] at h; rw [← h]; exact hnull
    | some b =>
      simp only [encodeValue, Option.some.injEq] at h; rw [← h]
      cases b
      · exact hfalse
      · exact htrue
  | str s => simp only [encodeValue, Option.some.injEq] at h; rw [← h]; exact hstr _
  | strPtr p =>
    cases p <;> simp only [encodeValue, Option.some.injEq] at h <;> rw [← h]
    · exact hnull
    · exact hstr _
  | bytes b =>
    cases b <;> simp only [encodeValue, Option.some.injEq] at h <;> rw [← h]
    · exact hnull
    · exact hstr _
  | bytesPtr p =>
    cases p with
    | none => simp only [encodeValue, Option.some.injEq] at h; rw [← h]; exact hnull
    | some q =>
      cases q <;> simp only [encodeValue, Option.some.injEq] at h <;> rw [← h]
      · exact hnull
      · exact hstr _
  | uint8 b => simp only [encodeValue, Option.some.injEq] at h; rw [← h]; exact isTight_decimalText _
  | float64 bits => exact hat rfl _ (by simpa only [encodeValue] using h)
  | number lit =>
    simp only [encodeValue, encodeNumber] at h
    by_cases h1 : isNumberLiteral (if lit = [] then goStr "0" else lit) = true
    · rw [if_pos h1] at h
      simp only [Option.some.injEq] at h
      rw [← h]
      exact isTight_numberLiteral _ h1
    · rw [if_neg h1] at h
      simp at h
  | strMap m =>
    cases m with
    | none => simp only [encodeValue, Option.some.injEq] at h; rw [← h]; exact hnull
    | some m =>
      simp only [encodeValue] at h
      cases hm : encodeMembers inv encodeOther m with
      | none => rw [hm] at h; simp at h
      | some es =>
        rw [hm] at h
        simp only [Option.some.injEq] at h
        rw [← h]
        exact isTight_wrap 123 125 _ (by omega) (by omega)
  | keyedMap t m => exact hat rfl _ (by simpa only [encodeValue] using h)
  | slice xs =>
    cases xs with
    | none => simp only [encodeValue, Option.some.injEq] at h; rw [← h]; exact hnull
    | some xs =>
      simp only [encodeValue] at h
      cases hm : encodeElems inv encodeOther xs with
      | none => rw [hm] at h; simp at h
      | some es =>
        rw [hm] at h
        simp only [Option.some.injEq] at h
        rw [← h]
        exact isTight_wrap 91 93 _ (by omega) (by omega)
  | array xs =>
    simp only [encodeValue] at h
    cases hm : encodeElems inv encodeOther xs with
    | none => rw [hm] at h; simp at h
    | some es =>
      rw [hm] at h
      simp only [Option.some.injEq] at h
      rw [← h]
      exact isTight_wrap 91 93 _ (by omega) (by omega)
  | reader data failing => exact hat rfl _ (by simpa only [encodeValue] using h)

theorem encodeValue_tight (inv : InvalidUTF8) (encodeOther : Any → Option GoString)
    (henc : ∀ a e, encodeOther a = some e → isTight e = true) (a : Any) (e : GoString)
    (h : encodeValue inv encodeOther a = some e) : isTight e = true :=
  encodeValue_tight_at inv encodeOther a (fun _ => henc a) e h

theorem decodeRune_ascii (c : Nat) (rest : List Nat) (h : c < 0x80) :
    DecodeRune (c :: rest) = (c, 1) := by
  have : utf8ValidLen (c :: rest) = 1 := by
    simp only [utf8ValidLen, h, if_true]
  simp only [DecodeRune, this]

theorem decodeLastRune_ascii (init : List Nat) (d : Nat) (h : d < 0x80) :
    DecodeLastRune (init ++ [d]) = (d, 1) := by
  simp only [DecodeLastRune, List.reverse_append, List.reverse_cons, List.reverse_nil,
    List.nil_append, List.singleton_append, h, if_true]

theorem trimLeftSpace_tight (fuel c : Nat) (rest : List Nat) (h1 : c < 0x80)
    (h2 : isSpaceRune c = false) : trimLeftSpace fuel (c :: rest) = c :: rest := by
  cases fuel with
  | zero => rfl
  | succ fuel => simp [trimLeftSpace, decodeRune_ascii c rest h1, h2]

theorem trimRightSpace_tight (fuel : Nat) (init : List Nat) (d : Nat) (h1 : d < 0x80)
    (h2 : isSpaceRune d = false) : trimRightSpace fuel (init ++ [d]) = init ++ [d] := by
  cases fuel with
  | zero => rfl
  | succ fuel =>
    cases hs : init ++ [d] with
    | nil => simp at hs
    | cons x xs =>
      simp only [trimRightSpace]
      rw [← hs, decodeLastRune_ascii init d h1]
      simp [h2]

theorem trimRightSpace_newline (fuel : Nat) (e : List Nat) :
    trimRightSpace (fuel + 1) (e ++ [10]) = trimRightSpace fuel e := by
  cases hs : e ++ [10] with
  | nil => simp at hs
  | cons x xs =>
    simp only [trimRightSpace]
    rw [← hs, decodeLastRune_ascii e 10 (by omega)]
    have : isSpaceRune 10 = true := by decide
    simp [this]

/-- `bytes.TrimSpace` takes the newline off a text that has no white space at
either end, and nothing else. -/
theorem trimSpace_tight (e : GoString) (h : isTight e = true) : TrimSpace (e ++ [10]) = e := by
  unfold isTight at h
  cases hh : e.head? with
  | none => rw [hh] at h; simp at h
  | some c =>
    cases hl : e.getLast? with
    | none => rw [hh, hl] at h; simp at h
    | some d =>
      rw [hh, hl] at h
      simp only [Bool.and_eq_true, decide_eq_true_eq, Bool.not_eq_true'] at h
      obtain ⟨⟨hc1, hc2⟩, hd1, hd2⟩ := h
      have hne : e ≠ [] := by
        intro h0; subst h0; simp at hh
      obtain ⟨rest, hrest⟩ : ∃ rest, e = c :: rest := by
        cases e with
        | nil => exact absurd rfl hne
        | cons x xs =>
          simp only [List.head?_cons, Option.some.injEq] at hh
          exact ⟨xs, by rw [hh]⟩
      have hinit : e = e.dropLast ++ [d] := by
        have := List.dropLast_append_getLast? d hl
        exact this.symm
      unfold TrimSpace
      have hleft : trimLeftSpace (e ++ [10]).length (e ++ [10]) = e ++ [10] := by
        rw [hrest, List.cons_append]
        exact trimLeftSpace_tight _ c _ hc1 hc2
      rw [hleft, List.length_append, List.length_singleton, trimRightSpace_newline _ e]
      rw [hinit]
      exact trimRightSpace_tight _ _ d hd1 hd2

theorem toJSONString_of_encoded (inv : InvalidUTF8) (encodeOther : Any → Option GoString)
    (a : Any) (ha : isTextOrStream a = false) :
    ToJSONString inv encodeOther a
      = match Encode inv encodeOther a with
        | none => none
        | some byt => some (TrimSpace byt) := by
  cases a <;> first | rfl | simp [isTextOrStream] at ha

theorem appendString_ascii_cons (inv : InvalidUTF8) (c : Nat) (rest : GoString) (h : c < 0x80) :
    appendString inv 0 0 (c :: rest) = escapeASCII c ++ appendString inv 0 0 rest := by
  simp only [appendString, h, if_true]

theorem escapeASCII_safe (c : Nat) (h : safeSet c = true) : escapeASCII c = [c] := by
  simp only [safeSet, decide_eq_true_eq] at h
  obtain ⟨h1, h2, h3, h4⟩ := h
  have a1 : ¬ (c = 92 ∨ c = 34) := by omega
  have a2 : ¬ c = 8 := by omega
  have a3 : ¬ c = 12 := by omega
  have a4 : ¬ c = 10 := by omega
  have a5 : ¬ c = 13 := by omega
  have a6 : ¬ c = 9 := by omega
  have a7 : ¬ c < 32 := by omega
  simp only [escapeASCII, a1, a2, a3, a4, a5, a6, a7, if_false]

theorem appendString_safe_cons (inv : InvalidUTF8) (c : Nat) (rest : GoString)
    (h : safeSet c = true) :
    appendString inv 0 0 (c :: rest) = c :: appendString inv 0 0 rest := by
  have h2 : c < 0x80 := by
    simp only [safeSet, decide_eq_true_eq] at h
    omega
  rw [appendString_ascii_cons inv c rest h2, escapeASCII_safe c h]
  rfl

theorem appendString_safe (inv : InvalidUTF8) (s : GoString) (h : s.all safeSet = true) :
    appendString inv 0 0 s = s := by
  induction s with
  | nil => rfl
  | cons c rest ih =>
    simp only [List.all_cons, Bool.and_eq_true] at h
    rw [appendString_safe_cons inv c rest h.1, ih h.2]

theorem encodeString_safe (inv : InvalidUTF8) (s : GoString) (h : s.all safeSet = true) :
    encodeString inv s = 34 :: (s ++ [34]) := by
  rw [encodeString, appendString_safe inv s h]

/-- On a value that its type switch does not take, `ToJSONString` returns the text
that the encoder writes, without the newline; for a value whose text is the
parameter, as soon as that text has no white space around it. -/
theorem toJSONString_eq_encodeValue_at (inv : InvalidUTF8)
    (encodeOther : Any → Option GoString) (b : Any)
    (hat : isOther b = true → ∀ e, encodeOther b = some e → isTight e = true)
    (hb : isTextOrStream b = false) :
    ToJSONString inv encodeOther b = encodeValue inv encodeOther b := by
  rw [toJSONString_of_encoded inv encodeOther b hb]
  unfold Encode
  cases hv : encodeValue inv encodeOther b with
  | none => rfl
  | some e =>
    simp only
    rw [trimSpace_tight e (encodeValue_tight_at inv encodeOther b hat e hv)]

/-- On a value that its type switch does not take, `ToJSONString` returns the text
that the encoder writes, without the newline. -/
theorem toJSONString_eq_encodeValue (inv : InvalidUTF8) (encodeOther : Any → Option GoString)
    (henc : ∀ a e, encodeOther a = some e → isTight e = true) (b : Any)
    (hb : isTextOrStream b = false) :
    ToJSONString inv encodeOther b = encodeValue inv encodeOther b :=
  toJSONString_eq_encodeValue_at inv encodeOther b (fun _ => henc b) hb

theorem isOther_of_modelled (a : Any) (h : isModelled a = true) : isOther a = false := by
  cases a <;> first | rfl | simp [isModelled] at h

/-! ### The encoder writes a string as a JSON string that stands for it -/

theorem unquote_succ_cons (copy c : Nat) (rest : List Nat) :
    unquote (copy + 1) (c :: rest) = c :: unquote copy rest := by
  delta unquote
  rfl

theorem unquote_high (c : Nat) (X : List Nat) (h : ¬ c < 0x80) :
    unquote 0 (c :: X)
      = match utf8ValidLen (c :: X) with
        | 0 => [0xEF, 0xBF, 0xBD] ++ unquote 0 X
        | n + 1 => c :: unquote n X := by
  have h92 : ¬ c = 92 := by omega
  delta unquote
  show (if c = 92 then _ else if c < 0x80 then _ else _) = _
  rw [if_neg h92, if_neg h]

theorem unquote_escapeASCII (c : Nat) (X : List Nat) (h : c < 0x80) :
    unquote 0 (escapeASCII c ++ X) = c :: unquote 0 X := by
  interval_cases c <;> (delta unquote; rfl)

theorem unquote_invalid (inv : InvalidUTF8) (X : List Nat) :
    unquote 0 (inv.text ++ X) = [0xEF, 0xBF, 0xBD] ++ unquote 0 X := by
  cases inv <;> (delta unquote; rfl)

theorem unquote_escape_u2028 (X : List Nat) :
    unquote 0 ([92, 117, 50, 48, 50, 56] ++ X) = [0xE2, 0x80, 0xA8] ++ unquote 0 X := by
  delta unquote; rfl

theorem unquote_escape_u2029 (X : List Nat) :
    unquote 0 ([92, 117, 50, 48, 50, 57] ++ X) = [0xE2, 0x80, 0xA9] ++ unquote 0 X := by
  delta unquote; rfl

theorem unquote_copy (pre : List Nat) (X : List Nat) :
    unquote pre.length (pre ++ X) = pre ++ unquote 0 X := by
  induction pre with
  | nil => rfl
  | cons c pre ih => rw [List.length_cons, List.cons_append, unquote_succ_cons, ih]; rfl

theorem coerceUTF8_copy (pre : List Nat) (X : List Nat) :
    coerceUTF8 pre.length (pre ++ X) = pre ++ coerceUTF8 0 X := by
  induction pre with
  | nil => rfl
  | cons c pre ih =>
    show c :: coerceUTF8 pre.length (pre ++ X) = c :: (pre ++ coerceUTF8 0 X)
    rw [ih]

theorem appendString_copy (inv : InvalidUTF8) (pre : List Nat) (X : List Nat) :
    appendString inv pre.length 0 (pre ++ X) = pre ++ appendString inv 0 0 X := by
  induction pre with
  | nil => rfl
  | cons c pre ih =>
    show c :: appendString inv pre.length 0 (pre ++ X) = c :: (pre ++ appendString inv 0 0 X)
    rw [ih]

theorem ite_eq_succ (P : Prop) [Decidable P] (k n : Nat) (h : (if P then k else 0) = n + 1) :
    P ∧ k = n + 1 := by
  by_cases hp : P
  · rw [if_pos hp] at h; exact ⟨hp, h⟩
  · rw [if_neg hp] at h; omega

/-- The shape of a well-formed UTF-8 sequence of more than one byte: the bytes after
the first are there, they are not ASCII, and what follows them plays no part. -/
theorem utf8ValidLen_split (c : Nat) (rest : List Nat) (n : Nat) (hc : ¬ c < 0x80)
    (h : utf8ValidLen (c :: rest) = n + 1) :
    ∃ pre post, rest = pre ++ post ∧ pre.length = n ∧ (∀ x ∈ pre, 0x80 ≤ x) ∧
      ∀ Z, utf8ValidLen (c :: (pre ++ Z)) = n + 1 := by
  have hlo : 0x80 ≤ (if c = 0xE0 then 0xA0 else if c = 0xF0 then 0x90 else 0x80) := by
    split_ifs <;> omega
  by_cases h2 : 0xC2 ≤ c ∧ c ≤ 0xDF
  · cases rest with
    | nil => simp [utf8ValidLen, hc, h2] at h
    | cons c1 r =>
      simp only [utf8ValidLen, hc, h2, if_true, if_false, and_self] at h
      obtain ⟨hc1, hk⟩ := ite_eq_succ _ _ _ h
      have hn : n = 1 := by omega
      subst hn
      simp only [decide_eq_true_eq] at hc1
      refine ⟨[c1], r, rfl, rfl, by simp; omega, ?_⟩
      intro Z
      simp [utf8ValidLen, hc, h2, hc1]
  · by_cases h3 : 0xE0 ≤ c ∧ c ≤ 0xEF
    · rcases rest with _ | ⟨c1, _ | ⟨c2, r⟩⟩
      · simp [utf8ValidLen, hc, h2, h3] at h
      · simp [utf8ValidLen, hc, h2, h3] at h
      · simp only [utf8ValidLen, hc, h2, h3, if_true, if_false, and_self] at h
        obtain ⟨hc1, hk⟩ := ite_eq_succ _ _ _ h
        have hn : n = 2 := by omega
        subst hn
        refine ⟨[c1, c2], r, rfl, rfl, ?_, ?_⟩
        · intro x hx
          simp only [List.mem_cons, List.mem_singleton, List.not_mem_nil, or_false] at hx
          simp only [decide_eq_true_eq] at hc1
          rcases hx with rfl | rfl
          · exact le_trans hlo hc1.1
          · omega
        · intro Z
          simp only [List.cons_append, List.nil_append, utf8ValidLen, hc, h2, h3, if_true,
            if_false, and_self]
          exact if_pos hc1
    · by_cases h4 : 0xF0 ≤ c ∧ c ≤ 0xF4
      · rcases rest with _ | ⟨c1, _ | ⟨c2, _ | ⟨c3, r⟩⟩⟩
        · simp [utf8ValidLen, hc, h2, h3, h4] at h
        · simp [utf8ValidLen, hc, h2, h3, h4] at h
        · simp [utf8ValidLen, hc, h2, h3, h4] at h
        · simp only [utf8ValidLen, hc, h2, h3, h4, if_true, if_false, and_self] at h
          obtain ⟨hc1, hk⟩ := ite_eq_succ _ _ _ h
          have hn : n = 3 := by omega
          subst hn
          refine ⟨[c1, c2, c3], r, rfl, rfl, ?_, ?_⟩
          · intro x hx
            simp only [List.mem_cons, List.mem_singleton, List.not_mem_nil, or_false] at hx
            simp only [decide_eq_true_eq] at hc1
            rcases hx with rfl | rfl | rfl
            · exact le_trans hlo hc1.1
            · omega
            · omega
          · intro Z
            simp only [List.cons_append, List.nil_append, utf8ValidLen, hc, h2, h3, h4, if_true,
              if_false, and_self]
            exact if_pos hc1
      · simp [utf8ValidLen, hc, h2, h3, h4] at h

theorem hexVal_hexDigit (k : Nat) (h : k < 16) : hexVal (hexDigit k) = some k := by
  interval_cases k <;> rfl

theorem body_cons (c : Nat) (Y : List Nat) (h1 : 32 ≤ c) (h2 : c ≠ 34) (h3 : c ≠ 92)
    (h : stringLen .plain (Y ++ [34]) = some Y.length) :
    stringLen .plain ((c :: Y) ++ [34]) = some (c :: Y).length := by
  have h4 : ¬ c < 32 := by omega
  simp [stringLen, h2, h3, h4, h]

theorem body_append (pre Y : List Nat) (hpre : ∀ x ∈ pre, 0x80 ≤ x)
    (h : stringLen .plain (Y ++ [34]) = some Y.length) :
    stringLen .plain ((pre ++ Y) ++ [34]) = some (pre ++ Y).length := by
  induction pre with
  | nil => exact h
  | cons c pre ih =>
    have hc := hpre c (by simp)
    exact body_cons c (pre ++ Y) (by omega) (by omega) (by omega)
      (ih (fun x hx => hpre x (by simp [hx])))

theorem body_escape (e : Nat) (Y : List Nat)
    (he : e = 98 ∨ e = 102 ∨ e = 110 ∨ e = 114 ∨ e = 116 ∨ e = 92 ∨ e = 47 ∨ e = 34)
    (h : stringLen .plain (Y ++ [34]) = some Y.length) :
    stringLen .plain ((92 :: e :: Y) ++ [34]) = some (92 :: e :: Y).length := by
  simp [stringLen, he, h]

theorem body_escape_u (h1 h2 h3 h4 : Nat) (Y : List Nat) (a1 : (hexVal h1).isSome = true)
    (a2 : (hexVal h2).isSome = true) (a3 : (hexVal h3).isSome = true)
    (a4 : (hexVal h4).isSome = true)
    (h : stringLen .plain (Y ++ [34]) = some Y.length) :
    stringLen .plain ((92 :: 117 :: h1 :: h2 :: h3 :: h4 :: Y) ++ [34])
      = some (92 :: 117 :: h1 :: h2 :: h3 :: h4 :: Y).length := by
  simp [stringLen, a1, a2, a3, a4, h]

theorem escapeASCII_cases (c : Nat) :
    (escapeASCII c = [c] ∧ 32 ≤ c ∧ c ≠ 34 ∧ c ≠ 92) ∨
    (∃ e, escapeASCII c = [92, e] ∧
      (e = 98 ∨ e = 102 ∨ e = 110 ∨ e = 114 ∨ e = 116 ∨ e = 92 ∨ e = 47 ∨ e = 34)) ∨
    (escapeASCII c = [92, 117, 48, 48, hexDigit (c / 16), hexDigit (c % 16)] ∧ c < 32) := by
  unfold escapeASCII
  split_ifs with h1 h2 h3 h4 h5 h6 h7
  · right; left; exact ⟨c, rfl, by omega⟩
  · right; left; exact ⟨_, rfl, by simp⟩
  · right; left; exact ⟨_, rfl, by simp⟩
  · right; left; exact ⟨_, rfl, by simp⟩
  · right; left; exact ⟨_, rfl, by simp⟩
  · right; left; exact ⟨_, rfl, by simp⟩
  · right; right; exact ⟨rfl, h7⟩
  · left; exact ⟨rfl, by omega, by omega, by omega⟩

theorem body_escapeASCII (c : Nat) (Y : List Nat)
    (h : stringLen .plain (Y ++ [34]) = some Y.length) :
    stringLen .plain ((escapeASCII c ++ Y) ++ [34]) = some (escapeASCII c ++ Y).length := by
  rcases escapeASCII_cases c with ⟨e, h1, h2, h3⟩ | ⟨e, he, hcase⟩ | ⟨he, hc⟩
  · rw [e]; exact body_cons c Y h1 h2 h3 h
  · rw [he]; exact body_escape e Y hcase h
  · rw [he]
    have d1 : (hexVal (hexDigit (c / 16))).isSome = true := by
      rw [hexVal_hexDigit _ (by omega)]; rfl
    have d2 : (hexVal (hexDigit (c % 16))).isSome = true := by
      rw [hexVal_hexDigit _ (by omega)]; rfl
    exact body_escape_u 48 48 _ _ Y rfl rfl d1 d2 h

theorem body_invalid (inv : InvalidUTF8) (Y : List Nat)
    (h : stringLen .plain (Y ++ [34]) = some Y.length) :
    stringLen .plain ((inv.text ++ Y) ++ [34]) = some (inv.text ++ Y).length := by
  cases inv
  · exact body_escape_u 102 102 102 100 Y rfl rfl rfl rfl h
  · exact body_append [0xEF, 0xBF, 0xBD] Y (by simp) h

theorem take_two_eq (rest : List Nat) (a b : Nat) (h : rest.take 2 = [a, b]) :
    ∃ r, rest = a :: b :: r := by
  rcases rest with _ | ⟨x, _ | ⟨y, r⟩⟩
  · simp at h
  · simp at h
  · simp only [List.take_succ_cons, List.take_zero, List.cons.injEq, and_true] at h
    exact ⟨r, by rw [h.1, h.2]⟩

/-- For every Go string, what `appendString` writes is the body of a JSON string
literal, and the decoder reads it back as the string with every byte that is not
well-formed UTF-8 replaced by U+FFFD. -/
theorem appendString_spec (inv : InvalidUTF8) :
    ∀ (n : Nat) (s : List Nat), s.length ≤ n →
      unquote 0 (appendString inv 0 0 s) = coerceUTF8 0 s ∧
      stringLen .plain (appendString inv 0 0 s ++ [34])
        = some (appendString inv 0 0 s).length := by
  intro n
  induction n with
  | zero =>
    intro s hs
    have : s = [] := List.length_eq_zero.1 (by omega)
    subst this
    exact ⟨rfl, rfl⟩
  | succ n ih =>
    intro s hs
    cases s with
    | nil => exact ⟨rfl, rfl⟩
    | cons c rest =>
      have hrest : rest.length ≤ n := by simpa using hs
      by_cases hc : c < 0x80
      · obtain ⟨i1, i2⟩ := ih rest hrest
        have e1 : appendString inv 0 0 (c :: rest)
            = escapeASCII c ++ appendString inv 0 0 rest := by
          simp only [appendString, hc, if_true]
        have e2 : coerceUTF8 0 (c :: rest) = c :: coerceUTF8 0 rest := by
          have : utf8ValidLen (c :: rest) = 1 := by simp only [utf8ValidLen, hc, if_true]
          simp only [coerceUTF8, this]
        rw [e1, e2, unquote_escapeASCII c _ hc, i1]
        exact ⟨rfl, body_escapeASCII c _ i2⟩
      · cases hv : utf8ValidLen (c :: rest) with
        | zero =>
          obtain ⟨i1, i2⟩ := ih rest hrest
          have e1 : appendString inv 0 0 (c :: rest)
              = inv.text ++ appendString inv 0 0 rest := by
            simp only [appendString, hc, if_false, hv]
          have e2 : coerceUTF8 0 (c :: rest) = [0xEF, 0xBF, 0xBD] ++ coerceUTF8 0 rest := by
            simp only [coerceUTF8, hv]
          rw [e1, e2, unquote_invalid, i1]
          exact ⟨rfl, body_invalid inv _ i2⟩
        | succ k =>
          obtain ⟨pre, post, hsplit, hlen, hpre, hZ⟩ := utf8ValidLen_split c rest k hc hv
          have hpost : post.length ≤ n := by
            have : rest.length = pre.length + post.length := by rw [hsplit]; simp
            omega
          have e2 : coerceUTF8 0 (c :: rest) = c :: (pre ++ coerceUTF8 0 post) := by
            simp only [coerceUTF8, hv]
            rw [hsplit, ← hlen, coerceUTF8_copy]
          have hc32 : 32 ≤ c := by omega
          have hc34 : c ≠ 34 := by omega
          have hc92 : c ≠ 92 := by omega
          by_cases hA : c = 0xE2 ∧ rest.take 2 = [0x80, 0xA8]
          · obtain ⟨r, hr⟩ := take_two_eq rest _ _ hA.2
            obtain ⟨i1, i2⟩ := ih r (by rw [hr] at hrest; simp at hrest; omega)
            have hcE : c = 0xE2 := hA.1
            subst hcE
            subst hr
            have e1 : appendString inv 0 0 (0xE2 :: 0x80 :: 0xA8 :: r)
                = [92, 117, 50, 48, 50, 56] ++ appendString inv 0 0 r := by
              simp [appendString, utf8ValidLen]
            have e3 : coerceUTF8 0 (0xE2 :: 0x80 :: 0xA8 :: r)
                = [0xE2, 0x80, 0xA8] ++ coerceUTF8 0 r := by
              simp [coerceUTF8, utf8ValidLen]
            rw [e1, e3, unquote_escape_u2028, i1]
            exact ⟨rfl, body_escape_u 50 48 50 56 _ rfl rfl rfl rfl i2⟩
          · by_cases hB : c = 0xE2 ∧ rest.take 2 = [0x80, 0xA9]
            · obtain ⟨r, hr⟩ := take_two_eq rest _ _ hB.2
              obtain ⟨i1, i2⟩ := ih r (by rw [hr] at hrest; simp at hrest; omega)
              have hcE : c = 0xE2 := hB.1
              subst hcE
              subst hr
              have e1 : appendString inv 0 0 (0xE2 :: 0x80 :: 0xA9 :: r)
                  = [92, 117, 50, 48, 50, 57] ++ appendString inv 0 0 r := by
                simp [appendString, utf8ValidLen]
              have e3 : coerceUTF8 0 (0xE2 :: 0x80 :: 0xA9 :: r)
                  = [0xE2, 0x80, 0xA9] ++ coerceUTF8 0 r := by
                simp [coerceUTF8, utf8ValidLen]
              rw [e1, e3, unquote_escape_u2029, i1]
              exact ⟨rfl, body_escape_u 50 48 50 57 _ rfl rfl rfl rfl i2⟩
            · obtain ⟨i1, i2⟩ := ih post hpost
              have e1 : appendString inv 0 0 (c :: rest)
                  = c :: (pre ++ appendString inv 0 0 post) := by
                simp only [appendString, hc, if_false, hv, hA, hB]
                rw [hsplit, ← hlen, appendString_copy]
              rw [e1, e2, unquote_high c _ hc, hZ]
              have e4 : unquote k (pre ++ appendString inv 0 0 post)
                  = pre ++ coerceUTF8 0 post := by
                rw [← hlen, unquote_copy, i1]
              refine ⟨by show c :: unquote k _ = _; rw [e4], ?_⟩
              have := body_append pre _ hpre i2
              exact body_cons c _ hc32 hc34 hc92 this

theorem coerceUTF8_ascii (s : List Nat) (h : ∀ c ∈ s, c < 0x80) : coerceUTF8 0 s = s := by
  induction s with
  | nil => rfl
  | cons c rest ih =>
    have hc : c < 0x80 := h c (by simp)
    have hv : utf8ValidLen (c :: rest) = 1 := by simp only [utf8ValidLen, hc, if_true]
    simp only [coerceUTF8, hv]
    rw [ih (fun x hx => h x (by simp [hx]))]

/-- The UTF-8 encoding of a scalar value is a well-formed sequence, whatever
follows it. -/
theorem utf8ValidLen_encodeRune (r : Nat) (Z : List Nat) (h : isScalarValue r = true) :
    utf8ValidLen (utf8EncodeRune r ++ Z) = (utf8EncodeRune r).length := by
  simp only [isScalarValue, decide_eq_true_eq] at h
  unfold utf8EncodeRune
  by_cases h1 : r < 0x80
  · simp [h1, utf8ValidLen]
  · by_cases h2 : r < 0x800
    · have a1 : ¬ (0xC0 + r / 64 < 0x80) := by omega
      have a2 : 0xC2 ≤ 0xC0 + r / 64 ∧ 0xC0 + r / 64 ≤ 0xDF := by omega
      have a3 : 0x80 ≤ 0x80 + r % 64 ∧ 0x80 + r % 64 ≤ 0xBF := by omega
      simp only [h1, h2, if_true, if_false, List.cons_append, List.nil_append, utf8ValidLen, a1,
        a2, and_self, a3, decide_True, List.length_cons, List.length_nil]
    · have h3 : ¬ ((0xD800 ≤ r ∧ r < 0xE000) ∨ 0x10FFFF < r) := by omega
      by_cases h4 : r < 0x10000
      · have a1 : ¬ (0xE0 + r / 4096 < 0x80) := by omega
        have a2 : ¬ (0xC2 ≤ 0xE0 + r / 4096 ∧ 0xE0 + r / 4096 ≤ 0xDF) := by omega
        have a3 : 0xE0 ≤ 0xE0 + r / 4096 ∧ 0xE0 + r / 4096 ≤ 0xEF := by omega
        have a4 : (if 0xE0 + r / 4096 = 0xE0 then 0xA0
              else if 0xE0 + r / 4096 = 0xF0 then 0x90 else 0x80) ≤ 0x80 + r / 64 % 64 ∧
            0x80 + r / 64 % 64 ≤ (if 0xE0 + r / 4096 = 0xED then 0x9F
              else if 0xE0 + r / 4096 = 0xF4 then 0x8F else 0xBF) ∧
            decide (0x80 ≤ 0x80 + r % 64 ∧ 0x80 + r % 64 ≤ 0xBF) = true := by
          refine ⟨?_, ?_, ?_⟩
          · split_ifs <;> omega
          · split_ifs <;> omega
          · simp only [decide_eq_true_eq]; omega
        simp only [h1, h2, h3, h4, if_true, if_false, List.cons_append, List.nil_append,
          utf8ValidLen, a1, a2, a3, and_self, List.length_cons, List.length_nil]
        exact if_pos a4
      · have a1 : ¬ (0xF0 + r / 262144 < 0x80) := by omega
        have a2 : ¬ (0xC2 ≤ 0xF0 + r / 262144 ∧ 0xF0 + r / 262144 ≤ 0xDF) := by omega
        have a3 : ¬ (0xE0 ≤ 0xF0 + r / 262144 ∧ 0xF0 + r / 262144 ≤ 0xEF) := by omega
        have a5 : 0xF0 ≤ 0xF0 + r / 262144 ∧ 0xF0 + r / 262144 ≤ 0xF4 := by omega
        have a4 : (if 0xF0 + r / 262144 = 0xE0 then 0xA0
              else if 0xF0 + r / 262144 = 0xF0 then 0x90 else 0x80) ≤ 0x80 + r / 4096 % 64 ∧
            0x80 + r / 4096 % 64 ≤ (if 0xF0 + r / 262144 = 0xED then 0x9F
              else if 0xF0 + r / 262144 = 0xF4 then 0x8F else 0xBF) ∧
            decide (0x80 ≤ 0x80 + r / 64 % 64 ∧ 0x80 + r / 64 % 64 ≤ 0xBF) = true ∧
            decide (0x80 ≤ 0x80 + r % 64 ∧ 0x80 + r % 64 ≤ 0xBF) = true := by
          refine ⟨?_, ?_, ?_, ?_⟩
          · split_ifs <;> omega
          · split_ifs <;> omega
          · simp only [decide_eq_true_eq]; omega
          · simp only [decide_eq_true_eq]; omega
        simp only [h1, h2, h3, h4, if_true, if_false, List.cons_append, List.nil_append,
          utf8ValidLen, a1, a2, a3, a5, and_self, List.length_cons, List.length_nil]
        exact if_pos a4

theorem utf8EncodeRune_ne_nil (r : Nat) : ∃ c tl, utf8EncodeRune r = c :: tl := by
  unfold utf8EncodeRune
  split_ifs <;> exact ⟨_, _, rfl⟩

/-- A string that is the UTF-8 encoding of scalar values is read back as it is. -/
theorem coerceUTF8_runes (rs : List Nat) (h : ∀ r ∈ rs, isScalarValue r = true) :
    coerceUTF8 0 (rs.map utf8EncodeRune).flatten = (rs.map utf8EncodeRune).flatten := by
  induction rs with
  | nil => rfl
  | cons r rs ih =>
    have hr := h r (by simp)
    have ih2 := ih (fun x hx => h x (by simp [hx]))
    obtain ⟨c, tl, hct⟩ := utf8EncodeRune_ne_nil r
    have hv := utf8ValidLen_encodeRune r (rs.map utf8EncodeRune).flatten hr
    simp only [List.map_cons, List.flatten_cons]
    rw [hct] at hv ⊢
    rw [List.cons_append]
    rw [List.cons_append, List.length_cons] at hv
    simp only [coerceUTF8, hv]
    rw [coerceUTF8_copy, ih2]

theorem char_isScalarValue (c : Char) : isScalarValue c.toNat = true := by
  have h := c.valid
  simp only [isScalarValue, decide_eq_true_eq]
  rcases h with h | ⟨h1, h2⟩
  · left; exact h
  · right
    have h3 : c.toNat = c.val.toNat := rfl
    rw [h3]
    constructor
    · exact h1
    · exact Nat.le_of_lt_succ h2

/-- The bytes of a text literal are well-formed UTF-8: they are read back as they
are. -/
theorem coerceUTF8_goStr (s : String) : coerceUTF8 0 (goStr s) = goStr s := by
  have := coerceUTF8_runes (s.toList.map Char.toNat) (by
    intro r hr
    obtain ⟨c, _, hc⟩ := List.mem_map.1 hr
    rw [← hc]
    exact char_isScalarValue c)
  simpa [goStr, List.map_map] using this

theorem unquote_plain (c : Nat) (X : List Nat) (h1 : c < 0x80) (h2 : c ≠ 92) :
    unquote 0 (c :: X) = c :: unquote 0 X := by
  delta unquote
  show (if c = 92 then _ else if c < 0x80 then _ else _) = _
  rw [if_neg h2, if_pos h1]

/-- A text of characters that the encoder copies is the body of a string literal
and stands for itself. -/
theorem safe_text_body (s : List Nat) (h : s.all safeSet = true) :
    isStringBody s = true ∧ unquote 0 s = s := by
  induction s with
  | nil => exact ⟨rfl, rfl⟩
  | cons c rest ih =>
    simp only [List.all_cons, Bool.and_eq_true, safeSet, decide_eq_true_eq] at h
    obtain ⟨⟨h1, h2, h3, h4⟩, hrest⟩ := h
    obtain ⟨i1, i2⟩ := ih hrest
    simp only [isStringBody, decide_eq_true_eq] at i1 ⊢
    exact ⟨body_cons c rest h1 h3 h4 i1, by rw [unquote_plain c rest h2 h4, i2]⟩

theorem base64Char_safe (n : Nat) : safeSet (base64Char n) = true := by
  simp only [safeSet, base64Char, decide_eq_true_eq]
  split_ifs <;> omega

theorem base64Encode_safe : ∀ (n : Nat) (b : List Nat), b.length ≤ n →
    (base64Encode b).all safeSet = true := by
  intro n
  induction n using Nat.strong_induction_on with
  | _ n ih =>
    intro b hb
    have h61 : safeSet 61 = true := by decide
    rcases b with _ | ⟨x, _ | ⟨y, _ | ⟨z, rest⟩⟩⟩
    · rfl
    · simp [base64Encode, base64Char_safe, h61]
    · simp [base64Encode, base64Char_safe, h61]
    · have hr := ih (n - 3) (by simp at hb; omega) rest (by simp at hb; omega)
      simp only [base64Encode, List.all_cons, base64Char_safe, Bool.true_and, hr]

/-! ### The decimal text of an integer is a JSON number -/

theorem toDigitsCore_head (fuel : Nat) :
    ∀ n, 0 < n → n < fuel →
      ∃ d tl, (Nat.toDigitsCore 10 fuel n []).map Char.toNat = d :: tl ∧ 49 ≤ d ∧ d ≤ 57 := by
  induction fuel with
  | zero => intro n _ h; omega
  | succ fuel ih =>
    intro n hpos h
    simp only [Nat.toDigitsCore]
    split
    · rename_i h0
      have hn : n % 10 = n := by omega
      have hd : (Nat.digitChar (n % 10)).toNat = 48 + n % 10 :=
        digitChar_toNat _ (Nat.mod_lt _ (by omega))
      exact ⟨48 + n % 10, [], by simp [hd], by omega, by omega⟩
    · rename_i h0
      obtain ⟨d, tl, e, h1, h2⟩ := ih (n / 10) (by omega) (by omega)
      rw [toDigitsCore_append, List.map_append, e]
      exact ⟨d, _, rfl, h1, h2⟩

theorem numberLen_int_digits (ds : List Nat) (h : ds.all isDigit = true) :
    numberLen .int ds = some ds.length := by
  induction ds with
  | nil => rfl
  | cons c rest ih =>
    simp only [List.all_cons, Bool.and_eq_true] at h
    simp [numberLen, h.1, ih h.2]

theorem natText_literal (m : Nat) :
    isNumberLiteral ((toString m).toList.map Char.toNat) = true ∧
    isNumberLiteral (45 :: (toString (m + 1)).toList.map Char.toNat) = true := by
  have hpos : ∀ k, 0 < k → ∃ d tl, (toString k).toList.map Char.toNat = d :: tl ∧
      49 ≤ d ∧ d ≤ 57 ∧ tl.all isDigit = true := by
    intro k hk
    obtain ⟨d, tl, e, h1, h2⟩ := toDigitsCore_head (k + 1) k hk (by omega)
    have e2 : (toString k).toList.map Char.toNat = d :: tl := e
    have hall := (natText_spec k).2.1
    rw [e2] at hall
    simp only [List.all_cons, Bool.and_eq_true] at hall
    exact ⟨d, tl, e2, h1, h2, hall.2⟩
  constructor
  · rcases Nat.eq_zero_or_pos m with h0 | hp
    · subst h0; rfl
    · obtain ⟨d, tl, e, h1, h2, h3⟩ := hpos m hp
      rw [e]
      have a1 : ¬ d = 45 := by omega
      have a2 : ¬ d = 48 := by omega
      have a3 : isDigit d = true := (isDigit_iff d).2 (by omega)
      simp [isNumberLiteral, a1, a2, a3, numberLen_int_digits tl h3]
  · obtain ⟨d, tl, e, h1, h2, h3⟩ := hpos (m + 1) (by omega)
    rw [e]
    have a2 : ¬ d = 48 := by omega
    have a4 : 49 ≤ d ∧ d ≤ 57 := ⟨h1, h2⟩
    simp [isNumberLiteral, numberLen, a2, a4, numberLen_int_digits tl h3]

theorem decimalText_literal (n : Int) : isNumberLiteral (decimalText n) = true := by
  cases n with
  | ofNat m => rw [decimalText_ofNat]; exact (natText_literal m).1
  | negSucc m => rw [decimalText_negSucc]; exact (natText_literal m).2

/-! ### The encoder writes a JSON text that stands for the value -/

theorem orderedInsert_map_snd {β γ : Type} (f : β → γ) (x : GoString × β) :
    ∀ l : List (GoString × β),
      List.orderedInsert (fun x y : GoString × γ => strLess y.1 x.1 = false) (x.1, f x.2)
          (l.map (fun e => (e.1, f e.2)))
        = (List.orderedInsert (fun x y : GoString × β => strLess y.1 x.1 = false) x l).map
            (fun e => (e.1, f e.2)) := by
  intro l
  induction l with
  | nil => rfl
  | cons b l ih =>
    simp only [List.map_cons, List.orderedInsert]
    by_cases h : strLess b.1 x.1 = false
    · simp [h]
    · simp [h, ih]

theorem sortByKey_map_snd {β γ : Type} (f : β → γ) (l : List (GoString × β)) :
    sortByKey (l.map (fun e => (e.1, f e.2))) = (sortByKey l).map (fun e => (e.1, f e.2)) := by
  induction l with
  | nil => rfl
  | cons x l ih =>
    simp only [sortByKey, List.map_cons, List.insertionSort] at ih ⊢
    rw [ih, orderedInsert_map_snd]

theorem sortByKey_perm {β : Type} (l : List (GoString × β)) : (sortByKey l).Perm l :=
  List.perm_insertionSort _ l

theorem elems_of_trees (t : JValue) (ts : List JValue)
    (hwf : ∀ x ∈ t :: ts, x.wellFormed = true) :
    ∃ el : JElems, el.wellFormed = true ∧
      el.text = [44].intercalate ((t :: ts).map JValue.text) ∧
      el.values = (t :: ts).map JValue.value ∧
      ∀ B, (∀ x ∈ t :: ts, x.depth ≤ B) → el.depth ≤ B := by
  induction ts generalizing t with
  | nil =>
    refine ⟨.one [] t [], ?_, ?_, rfl, ?_⟩
    · simp [JElems.wellFormed, isSpaces, hwf t (by simp)]
    · simp [JElems.text, List.intercalate, List.intersperse]
    · intro B hB
      exact hB t (by simp)
  | cons u us ih =>
    obtain ⟨el, h1, h2, h3, h4⟩ := ih u (fun x hx => hwf x (by simp [hx]))
    refine ⟨.cons [] t [] el, ?_, ?_, ?_, ?_⟩
    · simp [JElems.wellFormed, isSpaces, hwf t (by simp), h1]
    · simp only [JElems.text, h2, List.nil_append]
      simp [List.intercalate, List.intersperse]
    · simp only [JElems.values, h3, List.map_cons]
    · intro B hB
      simp only [JElems.depth]
      exact max_le (hB t (by simp)) (h4 B (fun x hx => hB x (by simp [hx])))

theorem array_of_trees (ts : List JValue) (hwf : ∀ x ∈ ts, x.wellFormed = true) :
    ∃ t : JValue, t.wellFormed = true ∧
      t.text = 91 :: ([44].intercalate (ts.map JValue.text) ++ [93]) ∧
      t.value = .slice (some (ts.map JValue.value)) ∧
      ∀ B, (∀ x ∈ ts, x.depth ≤ B) → t.depth ≤ 1 + B := by
  cases ts with
  | nil => exact ⟨.emptyArray [], rfl, rfl, rfl, fun B _ => by simp [JValue.depth]⟩
  | cons t ts =>
    obtain ⟨el, h1, h2, h3, h4⟩ := elems_of_trees t ts hwf
    refine ⟨.array el, h1, ?_, ?_, ?_⟩
    · simp only [JValue.text, h2]
    · simp only [JValue.value, h3]
    · intro B hB
      simp only [JValue.depth]
      exact Nat.add_le_add_left (h4 B hB) 1

theorem members_of_trees (inv : InvalidUTF8) (p : GoString × JValue)
    (ps : List (GoString × JValue)) (hwf : ∀ x ∈ p :: ps, x.2.wellFormed = true) :
    ∃ ms : JMembers, ms.wellFormed = true ∧
      ms.text = joinMembers inv ((p :: ps).map (fun x => (x.1, x.2.text))) ∧
      (∀ acc, ms.store acc
        = (p :: ps).foldl (fun acc x => mapSet acc (coerceUTF8 0 x.1) x.2.value) acc) ∧
      ∀ B, (∀ x ∈ p :: ps, x.2.depth ≤ B) → ms.depth ≤ B := by
  induction ps generalizing p with
  | nil =>
    obtain ⟨a1, a2⟩ := appendString_spec inv p.1.length p.1 (Nat.le_refl _)
    refine ⟨.one [] (appendString inv 0 0 p.1) [] [] p.2 [], ?_, ?_, ?_, ?_⟩
    · simp [JMembers.wellFormed, isSpaces, hwf p (by simp), isStringBody, a2]
    · simp [JMembers.text, joinMembers, encodeString, List.intercalate, List.intersperse]
    · intro acc
      simp only [JMembers.store, a1, List.foldl_cons, List.foldl_nil]
    · intro B hB
      exact hB p (by simp)
  | cons q qs ih =>
    obtain ⟨a1, a2⟩ := appendString_spec inv p.1.length p.1 (Nat.le_refl _)
    obtain ⟨ms, h1, h2, h3, h4⟩ := ih q (fun x hx => hwf x (by simp [hx]))
    refine ⟨.cons [] (appendString inv 0 0 p.1) [] [] p.2 [] ms, ?_, ?_, ?_, ?_⟩
    · simp [JMembers.wellFormed, isSpaces, hwf p (by simp), isStringBody, a2, h1]
    · simp only [JMembers.text, h2, List.nil_append]
      simp [joinMembers, encodeString, List.intercalate, List.intersperse]
    · intro acc
      simp only [JMembers.store, a1, h3, List.foldl_cons]
    · intro B hB
      simp only [JMembers.depth]
      exact max_le (hB p (by simp)) (h4 B (fun x hx => hB x (by simp [hx])))

theorem object_of_trees (inv : InvalidUTF8) (ps : List (GoString × JValue))
    (hwf : ∀ x ∈ ps, x.2.wellFormed = true) :
    ∃ t : JValue, t.wellFormed = true ∧
      t.text = 123 :: (joinMembers inv (ps.map (fun x => (x.1, x.2.text))) ++ [125]) ∧
      t.value = .strMap (some
        (ps.foldl (fun acc x => mapSet acc (coerceUTF8 0 x.1) x.2.value) [])) ∧
      ∀ B, (∀ x ∈ ps, x.2.depth ≤ B) → t.depth ≤ 1 + B := by
  cases ps with
  | nil => exact ⟨.emptyObject [], rfl, rfl, rfl, fun B _ => by simp [JValue.depth]⟩
  | cons p ps =>
    obtain ⟨ms, h1, h2, h3, h4⟩ := members_of_trees inv p ps hwf
    refine ⟨.object ms, h1, ?_, ?_, ?_⟩
    · simp only [JValue.text, h2]
    · simp only [JValue.value, h3]
    · intro B hB
      simp only [JValue.depth]
      exact Nat.add_le_add_left (h4 B hB) 1

theorem tree_null : ∃ t : JValue, t.wellFormed = true ∧ t.text = goStr "null" ∧
    t.value = Any.nil ∧ t.depth = 0 := ⟨.litNull, rfl, rfl, rfl, rfl⟩

theorem tree_bool (b : Bool) : ∃ t : JValue, t.wellFormed = true ∧
    t.text = (if b then goStr "true" else goStr "false") ∧ t.value = Any.bool b ∧
    t.depth = 0 := by
  cases b
  · exact ⟨.litFalse, rfl, rfl, rfl, rfl⟩
  · exact ⟨.litTrue, rfl, rfl, rfl, rfl⟩

theorem tree_int (n : Int) : ∃ t : JValue, t.wellFormed = true ∧ t.text = decimalText n ∧
    t.value = Any.number (decimalText n) ∧ t.depth = 0 :=
  ⟨.number (decimalText n), decimalText_literal n, rfl, rfl, rfl⟩

theorem tree_string (inv : InvalidUTF8) (s : GoString) : ∃ t : JValue, t.wellFormed = true ∧
    t.text = encodeString inv s ∧ t.value = Any.str (coerceUTF8 0 s) ∧ t.depth = 0 := by
  obtain ⟨a1, a2⟩ := appendString_spec inv s.length s (Nat.le_refl _)
  refine ⟨.string (appendString inv 0 0 s), ?_, rfl, ?_, rfl⟩
  · simp [JValue.wellFormed, isStringBody, a2]
  · simp only [JValue.value, a1]

theorem tree_bytes (b : List Nat) : ∃ t : JValue, t.wellFormed = true ∧
    t.text = 34 :: (base64Encode b ++ [34]) ∧ t.value = Any.str (base64Encode b) ∧
    t.depth = 0 := by
  obtain ⟨a1, a2⟩ := safe_text_body (base64Encode b) (base64Encode_safe b.length b (Nat.le_refl _))
  refine ⟨.string (base64Encode b), a1, rfl, ?_, rfl⟩
  simp only [JValue.value, a2]

theorem leaf_tree {e : GoString} {v : Any} {d : Nat}
    (h : ∃ t : JValue, t.wellFormed = true ∧ t.text = e ∧ t.value = v ∧ t.depth = 0) :
    ∃ t : JValue, t.wellFormed = true ∧ t.text = e ∧ t.value = v ∧ t.depth ≤ d := by
  obtain ⟨t, h1, h2, h3, h4⟩ := h
  exact ⟨t, h1, h2, h3, by omega⟩

mutual
/-- The text that the encoder writes for a value of the model is the text of a
well-formed JSON syntax tree that stands for the JSON value of the value and is
nested no deeper than the value. -/
theorem encodeValue_tree (inv : InvalidUTF8) (encodeOther : Any → Option GoString) :
    (a : Any) → isModelled a = true → ∀ e, encodeValue inv encodeOther a = some e →
      ∃ t : JValue, t.wellFormed = true ∧ t.text = e ∧ t.value = jsonValue a ∧
        t.depth ≤ nesting a
  | .nil, _, e, h => by
    simp only [encodeValue, Option.some.injEq] at h; subst h; exact leaf_tree tree_null
  | .int n, _, e, h => by
    simp only [encodeValue, Option.some.injEq] at h; subst h; exact leaf_tree (tree_int n)
  | .intPtr none, _, e, h => by
    simp only [encodeValue, Option.some.injEq] at h; subst h; exact leaf_tree tree_null
  | .intPtr (some n), _, e, h => by
    simp only [encodeValue, Option.some.injEq] at h; subst h; exact leaf_tree (tree_int n)
  | .bool b, _, e, h => by
    simp only [encodeValue, Option.some.injEq] at h; subst h; exact leaf_tree (tree_bool b)
  | .boolPtr none, _, e, h => by
    simp only [encodeValue, Option.some.injEq] at h; subst h; exact leaf_tree tree_null
  | .boolPtr (some b), _, e, h => by
    simp only [encodeValue, Option.some.injEq] at h; subst h; exact leaf_tree (tree_bool b)
  | .str s, _, e, h => by
    simp only [encodeValue, Option.some.injEq] at h; subst h; exact leaf_tree (tree_string inv s)
  | .strPtr none, _, e, h => by
    simp only [encodeValue, Option.some.injEq] at h; subst h; exact leaf_tree tree_null
  | .strPtr (some s), _, e, h => by
    simp only [encodeValue, Option.some.injEq] at h; subst h; exact leaf_tree (tree_string inv s)
  | .bytes none, _, e, h => by
    simp only [encodeValue, Option.some.injEq] at h; subst h; exact leaf_tree tree_null
  | .bytes (some b), _, e, h => by
    simp only [encodeValue, Option.some.injEq] at h; subst h; exact leaf_tree (tree_bytes b)
  | .bytesPtr none, _, e, h => by
    simp only [encodeValue, Option.some.injEq] at h; subst h; exact leaf_tree tree_null
  | .bytesPtr (some none), _, e, h => by
    simp only [encodeValue, Option.some.injEq] at h; subst h; exact leaf_tree tree_null
  | .bytesPtr (some (some b)), _, e, h => by
    simp only [encodeValue, Option.some.injEq] at h; subst h; exact leaf_tree (tree_bytes b)
  | .uint8 b, _, e, h => by
    simp only [encodeValue, Option.some.injEq] at h; subst h; exact leaf_tree (tree_int _)
  | .float64 bits, hm, _, _ => by simp [isModelled] at hm
  | .number lit, _, e, h => by
    simp only [encodeValue, encodeNumber] at h
    by_cases h1 : isNumberLiteral (if lit = [] then goStr "0" else lit) = true
    · rw [if_pos h1] at h
      simp only [Option.some.injEq] at h
      subst h
      exact ⟨.number _, h1, rfl, rfl, Nat.zero_le _⟩
    · rw [if_neg h1] at h
      simp at h
  | .strMap none, _, e, h => by
    simp only [encodeValue, Option.some.injEq] at h; subst h; exact leaf_tree tree_null
  | .strMap (some m), hm, e, h => by
    simp only [encodeValue] at h
    cases hes : encodeMembers inv encodeOther m with
    | none => rw [hes] at h; simp at h
    | some es =>
      rw [hes] at h
      simp only [Option.some.injEq] at h
      subst h
      have hm2 : isModelledMembers m = true := by simpa [isModelled] using hm
      obtain ⟨ts, hwf, htext, hval, hdep⟩ := encodeMembers_tree inv encodeOther m hm2 es hes
      have hwf2 : ∀ x ∈ sortByKey ts, x.2.wellFormed = true :=
        fun x hx => hwf x ((sortByKey_perm ts).mem_iff.1 hx)
      obtain ⟨t, h1, h2, h3, h4⟩ := object_of_trees inv (sortByKey ts) hwf2
      refine ⟨t, h1, ?_, ?_, ?_⟩
      · rw [h2, ← htext, sortByKey_map_snd]
      · rw [h3]
        simp only [jsonValue]
        rw [← hval, sortByKey_map_snd, List.foldl_map]
      · simp only [nesting]
        exact h4 _ (fun x hx => hdep x ((sortByKey_perm ts).mem_iff.1 hx))
  | .keyedMap t m, hm, _, _ => by simp [isModelled] at hm
  | .slice none, _, e, h => by
    simp only [encodeValue, Option.some.injEq] at h; subst h; exact leaf_tree tree_null
  | .slice (some xs), hm, e, h => by
    simp only [encodeValue] at h
    cases hes : encodeElems inv encodeOther xs with
    | none => rw [hes] at h; simp at h
    | some es =>
      rw [hes] at h
      simp only [Option.some.injEq] at h
      subst h
      have hm2 : isModelledElems xs = true := by simpa [isModelled] using hm
      obtain ⟨ts, hwf, htext, hval, hdep⟩ := encodeElems_tree inv encodeOther xs hm2 es hes
      obtain ⟨t, h1, h2, h3, h4⟩ := array_of_trees ts hwf
      refine ⟨t, h1, by rw [h2, htext], ?_, ?_⟩
      · rw [h3, hval]
        simp only [jsonValue]
      · simp only [nesting]
        exact h4 _ hdep
  | .array xs, hm, e, h => by
    simp only [encodeValue] at h
    cases hes : encodeElems inv encodeOther xs with
    | none => rw [hes] at h; simp at h
    | some es =>
      rw [hes] at h
      simp only [Option.some.injEq] at h
      subst h
      have hm2 : isModelledElems xs = true := by simpa [isModelled] using hm
      obtain ⟨ts, hwf, htext, hval, hdep⟩ := encodeElems_tree inv encodeOther xs hm2 es hes
      obtain ⟨t, h1, h2, h3, h4⟩ := array_of_trees ts hwf
      refine ⟨t, h1, by rw [h2, htext], ?_, ?_⟩
      · rw [h3, hval]
        simp only [jsonValue]
      · simp only [nesting]
        exact h4 _ hdep
  | .reader data failing, hm, _, _ => by simp [isModelled] at hm
/-- The texts of the elements are the texts of well-formed trees that stand for the
JSON values of the elements. -/
theorem encodeElems_tree (inv : InvalidUTF8) (encodeOther : Any → Option GoString) :
    (xs : List Any) → isModelledElems xs = true → ∀ es,
      encodeElems inv encodeOther xs = some es →
      ∃ ts : List JValue, (∀ t ∈ ts, t.wellFormed = true) ∧ ts.map JValue.text = es ∧
        ts.map JValue.value = jsonValues xs ∧ ∀ t ∈ ts, t.depth ≤ nestingElems xs
  | [], _, es, h => by
    simp only [encodeElems, Option.some.injEq] at h
    subst h
    exact ⟨[], by simp, rfl, rfl, by simp⟩
  | x :: xs, hm, es, h => by
    simp only [isModelledElems, Bool.and_eq_true] at hm
    simp only [encodeElems] at h
    cases hx : encodeValue inv encodeOther x with
    | none => rw [hx] at h; simp at h
    | some e =>
      cases hxs : encodeElems inv encodeOther xs with
      | none => rw [hx, hxs] at h; simp at h
      | some es2 =>
        rw [hx, hxs] at h
        simp only [Option.some.injEq] at h
        subst h
        obtain ⟨t, h1, h2, h3, h4⟩ := encodeValue_tree inv encodeOther x hm.1 e hx
        obtain ⟨ts, g1, g2, g3, g4⟩ := encodeElems_tree inv encodeOther xs hm.2 es2 hxs
        refine ⟨t :: ts, ?_, ?_, ?_, ?_⟩
        · intro y hy
          rcases List.mem_cons.1 hy with rfl | hy
          · exact h1
          · exact g1 y hy
        · simp only [List.map_cons, h2, g2]
        · simp only [List.map_cons, h3, g3, jsonValues]
        · intro y hy
          simp only [nestingElems]
          rcases List.mem_cons.1 hy with rfl | hy
          · exact le_trans h4 (le_max_left _ _)
          · exact le_trans (g4 y hy) (le_max_right _ _)
/-- The texts of the values of the entries are the texts of well-formed trees that
stand for the JSON values of the values. -/
theorem encodeMembers_tree (inv : InvalidUTF8) (encodeOther : Any → Option GoString) :
    (m : List (GoString × Any)) → isModelledMembers m = true → ∀ es,
      encodeMembers inv encodeOther m = some es →
      ∃ ts : List (GoString × JValue), (∀ p ∈ ts, p.2.wellFormed = true) ∧
        ts.map (fun p => (p.1, p.2.text)) = es ∧
        ts.map (fun p => (p.1, p.2.value)) = jsonMembers m ∧
        ∀ p ∈ ts, p.2.depth ≤ nestingMembers m
  | [], _, es, h => by
    simp only [encodeMembers, Option.some.injEq] at h
    subst h
    exact ⟨[], by simp, rfl, rfl, by simp⟩
  | x :: xs, hm, es, h => by
    simp only [isModelledMembers, Bool.and_eq_true] at hm
    simp only [encodeMembers] at h
    cases hx : encodeValue inv encodeOther x.2 with
    | none => rw [hx] at h; simp at h
    | some e =>
      cases hxs : encodeMembers inv encodeOther xs with
      | none => rw [hx, hxs] at h; simp at h
      | some es2 =>
        rw [hx, hxs] at h
        simp only [Option.some.injEq] at h
        subst h
        obtain ⟨t, h1, h2, h3, h4⟩ := encodeValue_tree inv encodeOther x.2 hm.1 e hx
        obtain ⟨ts, g1, g2, g3, g4⟩ := encodeMembers_tree inv encodeOther xs hm.2 es2 hxs
        refine ⟨(x.1, t) :: ts, ?_, ?_, ?_, ?_⟩
        · intro y hy
          rcases List.mem_cons.1 hy with rfl | hy
          · exact h1
          · exact g1 y hy
        · simp only [List.map_cons, h2, g2]
        · simp only [List.map_cons, h3, g3, jsonMembers]
        · intro y hy
          simp only [nestingMembers]
          rcases List.mem_cons.1 hy with rfl | hy
          · exact le_trans h4 (le_max_left _ _)
          · exact le_trans (g4 y hy) (le_max_right _ _)
end

/-! ### `ToJSONString` on the other values -/

/-- C12: for every value that is not a `string`, `*string`, `[]byte` or stream,
`ToJSONString` returns what the encoder wrote, white space at both ends removed, and
the encoder writes the JSON text of the value and a newline; when the encoder
reports an error the result is the nil pointer, and there is no error result.

The result is the JSON text itself, and it starts and ends with a character that is
not white space: for every value whose text the model fixes, and for a `float64` or
a map whose keys are not strings as soon as the text that the parameter
`encodeOther` gives for this value has no white space around it.

That text is the JSON encoding of the value: for every value in which no `float64`,
no map whose keys are not strings and no stream occurs, it is the text of a
well-formed JSON syntax tree, and the decoder reads the JSON value of the value back
from it (up to the nesting limit of the decoder).  In particular the text between
the quotes of an encoded string is the body of a string literal that is read back
as the string, with U+FFFD for every byte that is not well-formed UTF-8, whatever
the release does with such a byte; an ASCII string and the UTF-8 of a text are read
back as they are.

HTML escaping is off: an ASCII character is written as `escapeASCII` says, which
copies `<`, `>` and `&`, and a string of characters of `safeSet` stands in the
result as it is between quotes.  The instances show keys in ascending order, the
escapes of a quote, a backslash, control characters, U+2028 and U+2029, base64 for
a `[]byte`, numbers, nil values, the error of a `json.Number` that is no number,
both ways to write a byte that is not well-formed UTF-8, and `{"a":1}` for the map
with the one entry "a": 1. -/
theorem toJSONString_encoded (inv : InvalidUTF8) (encodeOther : Any → Option GoString)
    (a : Any) (ha : isTextOrStream a = false) :
    ToJSONString inv encodeOther a = (Encode inv encodeOther a).map TrimSpace ∧
    Encode inv encodeOther a = (encodeValue inv encodeOther a).map (fun e => e ++ [10]) ∧
    (encodeValue inv encodeOther a = none →
      Encode inv encodeOther a = none ∧ ToJSONString inv encodeOther a = none) ∧
    ((isOther a = true → ∀ e, encodeOther a = some e → isTight e = true) →
      ToJSONString inv encodeOther a = encodeValue inv encodeOther a ∧
      ∀ e, encodeValue inv encodeOther a = some e →
        Encode inv encodeOther a = some (e ++ [10]) ∧
        ToJSONString inv encodeOther a = some e ∧ isTight e = true) ∧
    (isModelled a = true →
      ToJSONString inv encodeOther a = encodeValue inv encodeOther a ∧
      ∀ e, ToJSONString inv encodeOther a = some e →
        isTight e = true ∧
        (∃ t : JValue, t.wellFormed = true ∧ t.text = e ∧ t.value = jsonValue a ∧
          t.depth ≤ nesting a) ∧
        (nesting a ≤ maxNestingDepth → decodeFirst e = some (jsonValue a))) ∧
    (∀ s : GoString,
      isStringBody (appendString inv 0 0 s) = true ∧
      unquote 0 (appendString inv 0 0 s) = coerceUTF8 0 s ∧
      ToJSONString inv encodeOther (.slice (some [.str s]))
        = some (91 :: (encodeString inv s ++ [93])) ∧
      decodeFirst (encodeString inv s) = some (.str (coerceUTF8 0 s))) ∧
    (∀ s : GoString, (∀ c ∈ s, c < 0x80) → coerceUTF8 0 s = s) ∧
    (∀ s : String, coerceUTF8 0 (goStr s) = goStr s) ∧
    (∀ (c : Nat) (rest : GoString), c < 0x80 →
      appendString inv 0 0 (c :: rest) = escapeASCII c ++ appendString inv 0 0 rest) ∧
    (escapeASCII 60 = [60] ∧ escapeASCII 62 = [62] ∧ escapeASCII 38 = [38] ∧
      escapeASCII 34 = [92, 34] ∧ escapeASCII 92 = [92, 92] ∧ escapeASCII 10 = [92, 110]) ∧
    (safeSet 60 = true ∧ safeSet 62 = true ∧ safeSet 38 = true) ∧
    (∀ (c : Nat) (rest : GoString), safeSet c = true →
      appendString inv 0 0 (c :: rest) = c :: appendString inv 0 0 rest) ∧
    (∀ k s : GoString, k.all safeSet = true → s.all safeSet = true →
      ToJSONString inv encodeOther (.strMap (some [(k, .str s)]))
        = some (123 :: 34 :: (k ++ 34 :: 58 :: 34 :: (s ++ [34, 125]))) ∧
      ToJSONString inv encodeOther (.slice (some [.str s]))
        = some (91 :: 34 :: (s ++ [34, 93]))) ∧
    ToJSONString inv encodeOther (.strMap (some [(goStr "k", .str (goStr "<a>&b"))]))
      = some (goStr "\x7b\"k\":\"<a>&b\"\x7d") ∧
    ToJSONString inv encodeOther
        (.strMap (some [(goStr "b", .slice (some [.int 1, .nil, .bool true])),
          (goStr "a", .str (goStr "x<y>&\"z\\\n"))]))
      = some (goStr "\x7b\"a\":\"x<y>&\\\"z\\\\\\n\",\"b\":[1,null,true]\x7d") ∧
    ToJSONString inv encodeOther
        (.slice (some [.bytes (some (goStr "hi")), .int (-5), .number (goStr "1.5e3"),
          .strPtr none, .uint8 255, .number []]))
      = some (goStr "[\"aGk=\",-5,1.5e3,null,255,0]") ∧
    ToJSONString inv encodeOther (.slice (some [.number (goStr "1e")])) = none ∧
    ToJSONString inv encodeOther (.slice (some [.str [1, 8, 12, 13, 9, 31, 127]]))
      = some (goStr "[\"\\u0001\\b\\f\\r\\t\\u001f\x7f\"]") ∧
    ToJSONString inv encodeOther
        (.slice (some [.str [0xE2, 0x80, 0xA8, 0xE2, 0x80, 0xA9, 0xE2, 0x80, 0xAA]]))
      = some (goStr "[\"\\u2028\\u2029" ++ [0xE2, 0x80, 0xAA] ++ goStr "\"]") ∧
    ToJSONString inv encodeOther
        (.array [.str (goStr "é"), .strMap (some []), .slice (some []), .strMap none])
      = some (goStr "[\"é\",\x7b\x7d,[],null]") ∧
    ToJSONString .escape encodeOther (.slice (some [.str [0xFF, 65]]))
      = some (goStr "[\"\\ufffdA\"]") ∧
    ToJSONString .rune encodeOther (.slice (some [.str [0xFF, 65]]))
      = some (goStr "[\"" ++ [0xEF, 0xBF, 0xBD, 65] ++ goStr "\"]") ∧
    ToJSONString inv encodeOther (.strMap (some [(goStr "a", .int 1)]))
      = some (goStr "\x7b\"a\":1\x7d") ∧
    goStr "\x7b\"a\":1\x7d" = [123, 34, 97, 34, 58, 49, 125] := by
  have main : ∀ (i : InvalidUTF8) (b : Any) (o : Option GoString), isModelled b = true →
      isTextOrStream b = false → encodeValue i encodeOther b = o →
      ToJSONString i encodeOther b = o :=
    fun i b o hm hb ho => by
      rw [← ho]
      exact toJSONString_eq_encodeValue_at i encodeOther b
        (fun h => by rw [isOther_of_modelled b hm] at h; exact absurd h (by decide)) hb
  have hEnc : Encode inv encodeOther a
      = (encodeValue inv encodeOther a).map (fun e => e ++ [10]) := by
    unfold Encode
    cases encodeValue inv encodeOther a <;> rfl
  have hmap : ∀ k s : GoString, k.all safeSet = true → s.all safeSet = true →
      encodeValue inv encodeOther (.strMap (some [(k, .str s)]))
        = some (123 :: 34 :: (k ++ 34 :: 58 :: 34 :: (s ++ [34, 125]))) := by
    intro k s hk hs
    simp [encodeValue, encodeMembers, sortByKey, joinMembers, encodeString_safe inv k hk,
      encodeString_safe inv s hs, List.intercalate, List.intersperse]
  have hslice : ∀ s : GoString, s.all safeSet = true →
      encodeValue inv encodeOther (.slice (some [.str s]))
        = some (91 :: 34 :: (s ++ [34, 93])) := by
    intro s hs
    simp [encodeValue, encodeElems, encodeString_safe inv s hs, List.intercalate,
      List.intersperse]
  refine ⟨?_, hEnc, ?_, ?_, ?_, ?_, coerceUTF8_ascii, coerceUTF8_goStr,
    appendString_ascii_cons inv, ⟨rfl, rfl, rfl, rfl, rfl, rfl⟩,
    ⟨by decide, by decide, by decide⟩, appendString_safe_cons inv, ?_, ?_, ?_, ?_, ?_, ?_,
    ?_, ?_, ?_, ?_, ?_, by decide⟩
  · rw [toJSONString_of_encoded inv encodeOther a ha]
    cases Encode inv encodeOther a <;> rfl
  · intro he
    have h1 : Encode inv encodeOther a = none := by rw [hEnc, he]; rfl
    refine ⟨h1, ?_⟩
    rw [toJSONString_of_encoded inv encodeOther a ha, h1]
  · intro hat
    have h1 := toJSONString_eq_encodeValue_at inv encodeOther a hat ha
    refine ⟨h1, fun e he => ⟨by rw [hEnc, he]; rfl, by rw [h1, he],
      encodeValue_tight_at inv encodeOther a hat e he⟩⟩
  · intro hm
    have h1 := main inv a _ hm ha rfl
    refine ⟨h1, fun e he => ?_⟩
    rw [h1] at he
    obtain ⟨t, t1, t2, t3, t4⟩ := encodeValue_tree inv encodeOther a hm e he
    refine ⟨encodeValue_tight_at inv encodeOther a
      (fun ho => by rw [isOther_of_modelled a hm] at ho; exact absurd ho (by decide)) e he,
      ⟨t, t1, t2, t3, t4⟩, fun hd => ?_⟩
    have := decodeFirst_text [] [] t rfl rfl t1 (le_trans t4 hd)
    rw [t2, t3] at this
    simpa using this
  · intro s
    obtain ⟨a1, a2⟩ := appendString_spec inv s.length s (Nat.le_refl _)
    refine ⟨by simp [isStringBody, a2], a1, ?_, ?_⟩
    · refine main inv _ _ rfl rfl ?_
      simp [encodeValue, encodeElems, List.intercalate, List.intersperse]
    · obtain ⟨t, t1, t2, t3, t4⟩ := tree_string inv s
      have := decodeFirst_text [] [] t rfl rfl t1 (by rw [t4]; exact Nat.zero_le _)
      rw [t2, t3] at this
      simpa using this
  · intro k s hk hs
    exact ⟨main inv _ _ rfl rfl (hmap k s hk hs), main inv _ _ rfl rfl (hslice s hs)⟩
  · refine main inv _ _ rfl rfl ?_
    rw [hmap _ _ (by decide) (by decide)]
    rfl
  · exact main inv _ _ rfl rfl rfl
  · exact main inv _ _ rfl rfl rfl
  · exact main inv _ _ rfl rfl rfl
  · exact main inv _ _ rfl rfl rfl
  · exact main inv _ _ rfl rfl rfl
  · exact main inv _ _ rfl rfl rfl
  · exact main .escape _ _ rfl rfl rfl
  · exact main .rune _ _ rfl rfl rfl
  · exact main inv _ _ rfl rfl rfl

/-- C12, at concrete values: `ToJSONString` of the map with the one entry "a": 1 is
the text `{"a":1}` of 7 bytes, from which the decoder reads the object with the one
member "a": 1 back; and with an encoder that writes a `float64` as `1.5`,
`ToJSONString` of a `float64` is `1.5`. -/
theorem toJSONString_encoded_witness :
    isTextOrStream (.strMap (some [(goStr "a", .int 1)])) = false ∧
    ToJSONString .rune (fun _ => none) (.strMap (some [(goStr "a", .int 1)]))
      = some [123, 34, 97, 34, 58, 49, 125] ∧
    decodeFirst [123, 34, 97, 34, 58, 49, 125]
      = some (.strMap (some [(goStr "a", .number (goStr "1"))])) ∧
    ToJSONString .escape (fun _ => some (goStr "1.5")) (.float64 0) = some (goStr "1.5") :=
  ⟨rfl,
   ((toJSONString_encoded .rune (fun _ => none)
      (.strMap (some [(goStr "a", .int 1)])) rfl).2.2.2.2.1 rfl).1,
   ((toJSONString_encoded .rune (fun _ => none)
      (.strMap (some [(goStr "a", .int 1)])) rfl).2.2.2.2.1 rfl).2
        [123, 34, 97, 34, 58, 49, 125]
        (((toJSONString_encoded .rune (fun _ => none)
          (.strMap (some [(goStr "a", .int 1)])) rfl).2.2.2.2.1 rfl).1) |>.2.2 (by decide),
   ((toJSONString_encoded .escape (fun _ => some (goStr "1.5")) (.float64 0) rfl).2.2.2.1
      (fun _ e h => by
        simp only [Option.some.injEq] at h
        rw [← h]
        decide)).1⟩

/-! ### `StringifyMapValue` and `AnyifyMapValue` on maps -/

theorem setEntry_of_not_mem {β : Type} (m : List (GoString × β)) (k : GoString) (v : β)
    (h : k ∉ m.map Prod.fst) : setEntry m k v = m ++ [(k, v)] := by
  induction m with
  | nil => rfl
  | cons e rest ih =>
    simp only [List.map_cons, List.mem_cons, not_or] at h
    have hne : ¬ e.1 = k := fun h2 => h.1 h2.symm
    simp [setEntry, hne, ih h.2]

theorem lookup_of_mem_nodup {β : Type} (m : List (GoString × β)) (k : GoString) (v : β)
    (hnd : (m.map Prod.fst).Nodup) (h : (k, v) ∈ m) : m.lookup k = some v := by
  induction m with
  | nil => simp at h
  | cons e rest ih =>
    obtain ⟨ek, ev⟩ := e
    simp only [List.map_cons, List.nodup_cons] at hnd
    rcases List.mem_cons.1 h with h1 | h1
    · cases h1
      simp [List.lookup]
    · have hne : k ≠ ek := by
        intro hk
        subst hk
        exact hnd.1 (List.mem_map.2 ⟨(k, v), h1, rfl⟩)
      have hb : (k == ek) = false := by simpa using hne
      simp only [List.lookup, hb]
      exact ih hnd.2 h1

theorem stringify_fold (inv : InvalidUTF8) (encodeOther : Any → Option GoString) :
    ∀ (rest : List (GoString × Any)) (acc : List (GoString × Option GoString)),
      (rest.map Prod.fst).Nodup → (∀ k ∈ rest.map Prod.fst, k ∉ acc.map Prod.fst) →
      rest.foldl
        (fun res e =>
          if notNil e.2 then setEntry res e.1 (ToJSONString inv encodeOther e.2) else res) acc
        = acc ++ (rest.filter (fun e => notNil e.2)).map
            (fun e => (e.1, ToJSONString inv encodeOther e.2)) := by
  intro rest
  induction rest with
  | nil => intro acc _ _; simp
  | cons e rest ih =>
    intro acc hnd hdis
    simp only [List.map_cons, List.nodup_cons] at hnd
    have he : e.1 ∉ acc.map Prod.fst := hdis e.1 (by simp)
    simp only [List.foldl_cons]
    by_cases hn : notNil e.2 = true
    · rw [if_pos hn, setEntry_of_not_mem acc e.1 _ he, ih _ hnd.2]
      · simp [List.filter_cons, hn]
      · intro k hk
        simp only [List.map_append, List.map_cons, List.map_nil, List.mem_append,
          List.mem_singleton, not_or]
        refine ⟨hdis k (by simp [hk]), ?_⟩
        intro hke
        subst hke
        exact hnd.1 hk
    · rw [if_neg hn, ih _ hnd.2 (fun k hk => hdis k (by simp [hk]))]
      simp [List.filter_cons, hn]

theorem stringifyMapValue_eq (inv : InvalidUTF8) (encodeOther : Any → Option GoString)
    (m : List (GoString × Any))
    (hnd : (m.map Prod.fst).Nodup) :
    StringifyMapValue inv encodeOther (some m)
      = (m.filter (fun e => notNil e.2)).map (fun e => (e.1, ToJSONString inv encodeOther e.2)) := by
  unfold StringifyMapValue
  rw [Option.getD_some, stringify_fold inv encodeOther m [] hnd (by simp)]
  simp

theorem anyify_fold :
    ∀ (rest : List (GoString × Option GoString)) (acc : List (GoString × Any)),
      (rest.map Prod.fst).Nodup → (∀ k ∈ rest.map Prod.fst, k ∉ acc.map Prod.fst) →
      rest.foldl (fun res e => mapSet res e.1 (.str (StringValue e.2))) acc
        = acc ++ rest.map (fun e => (e.1, Any.str (StringValue e.2))) := by
  intro rest
  induction rest with
  | nil => intro acc _ _; simp
  | cons e rest ih =>
    intro acc hnd hdis
    simp only [List.map_cons, List.nodup_cons] at hnd
    have he : e.1 ∉ acc.map Prod.fst := hdis e.1 (by simp)
    simp only [List.foldl_cons]
    rw [mapSet_of_not_mem acc e.1 _ he, ih _ hnd.2]
    · simp
    · intro k hk
      simp only [List.map_append, List.map_cons, List.map_nil, List.mem_append,
        List.mem_singleton, not_or]
      refine ⟨hdis k (by simp [hk]), ?_⟩
      intro hke
      subst hke
      exact hnd.1 hk

theorem anyifyMapValue_eq (a : List (GoString × Option GoString))
    (hnd : (a.map Prod.fst).Nodup) :
    AnyifyMapValue (some a) = a.map (fun e => (e.1, Any.str (StringValue e.2))) := by
  unfold AnyifyMapValue
  rw [Option.getD_some, anyify_fold a [] hnd (by simp)]
  simp

theorem notNil_iff (v : Any) : notNil v = true ↔ v ≠ .nil := by
  cases v <;> simp [notNil]

theorem nodup_keys_filter_map {β γ : Type} (m : List (GoString × β)) (p : GoString × β → Bool)
    (g : β → γ) (hnd : (m.map Prod.fst).Nodup) :
    (((m.filter p).map (fun e => (e.1, g e.2))).map Prod.fst).Nodup := by
  have h1 : ((m.filter p).map (fun e => (e.1, g e.2))).map Prod.fst
      = (m.filter p).map Prod.fst := by
    rw [List.map_map]; rfl
  rw [h1]
  exact List.Nodup.sublist (List.Sublist.map _ (List.filter_sublist m)) hnd

/-! ### The round trip `AnyifyMapValue(StringifyMapValue(m))` -/

theorem roundTrip_eq (inv : InvalidUTF8) (encodeOther : Any → Option GoString)
    (m : List (GoString × Any))
    (hnd : (m.map Prod.fst).Nodup) :
    AnyifyMapValue (some (StringifyMapValue inv encodeOther (some m)))
      = (m.filter (fun e => notNil e.2)).map
          (fun e => (e.1, Any.str (StringValue (ToJSONString inv encodeOther e.2)))) := by
  rw [stringifyMapValue_eq inv encodeOther m hnd,
    anyifyMapValue_eq _ (nodup_keys_filter_map m _ (ToJSONString inv encodeOther) hnd),
    List.map_map]
  rfl

theorem roundTrip_lookup (inv : InvalidUTF8) (encodeOther : Any → Option GoString)
    (m : List (GoString × Any))
    (hnd : (m.map Prod.fst).Nodup) (k : GoString) (v : Any) (h : (k, v) ∈ m) (hv : v ≠ .nil) :
    (AnyifyMapValue (some (StringifyMapValue inv encodeOther (some m)))).lookup k
      = some (.str (StringValue (ToJSONString inv encodeOther v))) := by
  rw [roundTrip_eq inv encodeOther m hnd]
  apply lookup_of_mem_nodup
  · exact nodup_keys_filter_map m _ (fun v => Any.str (StringValue (ToJSONString inv encodeOther v)))
      hnd
  · exact List.mem_map.2 ⟨(k, v), List.mem_filter.2 ⟨h, (notNil_iff v).2 hv⟩, rfl⟩

/-- C13, as stated, fails: the byte sequence `hi` is not null and not a string, and
the round trip maps its key to the string `hi`, which is not its JSON text form
`"aGk="`; and the pointer to the string `hi` is mapped to `hi` too, not to its
JSON text form `"hi"`. -/
theorem roundTrip_counterexample :
    AnyifyMapValue (some (StringifyMapValue .rune (fun _ => none)
        (some [(goStr "k", .bytes (some (goStr "hi")))])))
      = [(goStr "k", .str (goStr "hi"))] ∧
    encodeValue .rune (fun _ => none) (.bytes (some (goStr "hi"))) = some (goStr "\"aGk=\"") ∧
    AnyifyMapValue (some (StringifyMapValue .rune (fun _ => none)
        (some [(goStr "k", .strPtr (some (goStr "hi")))])))
      = [(goStr "k", .str (goStr "hi"))] ∧
    encodeValue .rune (fun _ => none) (.strPtr (some (goStr "hi"))) = some (goStr "\"hi\"") ∧
    goStr "hi" ≠ goStr "\"aGk=\"" ∧ goStr "hi" ≠ goStr "\"hi\"" :=
  ⟨rfl, rfl, rfl, rfl, by decide, by decide⟩

/-- C13, amended: for a map `m` (entries with distinct keys) the round trip maps
every key whose value is a string `s` to `s`, so it gives back a map all of whose
values are strings; a key whose value is not the nil interface and not a `string`,
`*string`, `[]byte` or stream is mapped to the string that is the JSON text of the
value (which is not the value itself) when the encoder has one, and to the empty
string when the encoder reports an error; a `*string` is mapped to the string
behind it (the empty string for the nil pointer), a `[]byte` to its bytes as a
string, a stream to what is read from it; a key whose value is the nil interface
is dropped. -/
theorem roundTrip_spec (inv : InvalidUTF8) (encodeOther : Any → Option GoString)
    (henc : ∀ a e, encodeOther a = some e → isTight e = true)
    (m : List (GoString × Any)) (hnd : (m.map Prod.fst).Nodup) :
    (∀ k s, (k, Any.str s) ∈ m →
      (AnyifyMapValue (some (StringifyMapValue inv encodeOther (some m)))).lookup k
        = some (.str s)) ∧
    ((∀ e ∈ m, ∃ s, e.2 = Any.str s) →
      AnyifyMapValue (some (StringifyMapValue inv encodeOther (some m))) = m) ∧
    (∀ k v e, (k, v) ∈ m → v ≠ .nil → isTextOrStream v = false →
      encodeValue inv encodeOther v = some e →
      (AnyifyMapValue (some (StringifyMapValue inv encodeOther (some m)))).lookup k
        = some (.str e) ∧ Any.str e ≠ v) ∧
    (∀ k v, (k, v) ∈ m → v ≠ .nil → isTextOrStream v = false →
      encodeValue inv encodeOther v = none →
      (AnyifyMapValue (some (StringifyMapValue inv encodeOther (some m)))).lookup k
        = some (.str [])) ∧
    (∀ k p, (k, Any.strPtr p) ∈ m →
      (AnyifyMapValue (some (StringifyMapValue inv encodeOther (some m)))).lookup k
        = some (.str (StringValue p))) ∧
    (∀ k b, (k, Any.bytes b) ∈ m →
      (AnyifyMapValue (some (StringifyMapValue inv encodeOther (some m)))).lookup k
        = some (.str (b.getD []))) ∧
    (∀ k data failing, (k, Any.reader data failing) ∈ m →
      (AnyifyMapValue (some (StringifyMapValue inv encodeOther (some m)))).lookup k
        = some (.str (if failing then [] else data))) ∧
    (∀ k, (k, Any.nil) ∈ m →
      (AnyifyMapValue (some (StringifyMapValue inv encodeOther (some m)))).lookup k = none) ∧
    AnyifyMapValue (some (StringifyMapValue inv encodeOther none)) = [] := by
  refine ⟨?_, ?_, ?_, ?_, ?_, ?_, ?_, ?_, rfl⟩
  · intro k s h
    rw [roundTrip_lookup inv encodeOther m hnd k _ h (by simp)]
    rfl
  · intro hall
    rw [roundTrip_eq inv encodeOther m hnd]
    have hf : m.filter (fun e => notNil e.2) = m := by
      rw [List.filter_eq_self]
      intro e he
      obtain ⟨s, hs⟩ := hall e he
      rw [hs]; rfl
    rw [hf]
    conv_rhs => rw [← List.map_id m]
    apply List.map_congr_left
    intro e he
    obtain ⟨s, hs⟩ := hall e he
    obtain ⟨ek, ev⟩ := e
    simp only at hs
    subst hs
    rfl
  · intro k v e h hv ht he
    rw [roundTrip_lookup inv encodeOther m hnd k v h hv,
      toJSONString_eq_encodeValue inv encodeOther henc v ht, he]
    refine ⟨rfl, ?_⟩
    intro h2
    rw [← h2] at ht
    simp [isTextOrStream] at ht
  · intro k v h hv ht he
    rw [roundTrip_lookup inv encodeOther m hnd k v h hv,
      toJSONString_eq_encodeValue inv encodeOther henc v ht, he]
    rfl
  · intro k p h
    rw [roundTrip_lookup inv encodeOther m hnd k _ h (by simp)]
    rfl
  · intro k b h
    rw [roundTrip_lookup inv encodeOther m hnd k _ h (by simp)]
    cases b <;> rfl
  · intro k data failing h
    rw [roundTrip_lookup inv encodeOther m hnd k _ h (by simp)]
    cases failing <;> rfl
  · intro k h
    rw [roundTrip_eq inv encodeOther m hnd, List.lookup_eq_none_iff]
    intro p hp
    rw [bne_iff_ne]
    intro hkp
    obtain ⟨e, he, hep⟩ := List.mem_map.1 hp
    obtain ⟨hem, hen⟩ := List.mem_filter.1 he
    have hk1 : e.1 = k := by rw [hkp, ← hep]
    have h1 := lookup_of_mem_nodup m k e.2 hnd (by rw [← hk1]; exact hem)
    have h2 := lookup_of_mem_nodup m k .nil hnd h
    rw [h1] at h2
    rw [Option.some.inj h2] at hen
    simp [notNil] at hen

/-- C13, amended, at a concrete map: the round trip of the map with the entries
"s": "q", "n": 1 and "z": nil maps "s" to "q" and "n" to the string "1", and has no
key "z". -/
theorem roundTrip_spec_witness :
    (AnyifyMapValue (some (StringifyMapValue .rune (fun _ => none)
      (some [(goStr "s", .str (goStr "q")), (goStr "n", .int 1), (goStr "z", .nil)])))).lookup
        (goStr "n") = some (.str (goStr "1")) ∧
    Any.str (goStr "1") ≠ Any.int 1 :=
  (roundTrip_spec .rune (fun _ => none) (fun _ _ h => by simp at h)
    [(goStr "s", .str (goStr "q")), (goStr "n", .int 1), (goStr "z", .nil)] (by decide)).2.2.1
      (goStr "n") (.int 1) (goStr "1") (by simp) (by simp) rfl rfl

/-! ### `StringifyMapValue` and `AnyifyMapValue` -/

/-- C14: for a map `m` (entries with distinct keys), the keys of
`StringifyMapValue(m)` are exactly the keys of `m` whose value is not the nil
interface, and the value at such a key is `ToJSONString` of the value in `m`; the
nil map gives the empty map.  `AnyifyMapValue` keeps every key of its argument and
maps it to the string behind the pointer, the empty string for the nil pointer. -/
theorem stringifyMapValue_spec (inv : InvalidUTF8) (encodeOther : Any → Option GoString) :
    (∀ m : List (GoString × Any), (m.map Prod.fst).Nodup →
      (∀ k, k ∈ (StringifyMapValue inv encodeOther (some m)).map Prod.fst
        ↔ ∃ v, (k, v) ∈ m ∧ v ≠ .nil) ∧
      (∀ k v, (k, v) ∈ m → v ≠ .nil →
        (StringifyMapValue inv encodeOther (some m)).lookup k
          = some (ToJSONString inv encodeOther v)) ∧
      (∀ k, (k, Any.nil) ∈ m → (StringifyMapValue inv encodeOther (some m)).lookup k = none) ∧
      ((StringifyMapValue inv encodeOther (some m)).map Prod.fst).Nodup) ∧
    StringifyMapValue inv encodeOther none = [] ∧
    (∀ a : List (GoString × Option GoString), (a.map Prod.fst).Nodup →
      (AnyifyMapValue (some a)).map Prod.fst = a.map Prod.fst ∧
      (∀ k s, (k, some s) ∈ a → (AnyifyMapValue (some a)).lookup k = some (.str s)) ∧
      (∀ k, (k, none) ∈ a → (AnyifyMapValue (some a)).lookup k = some (.str []))) ∧
    AnyifyMapValue none = [] := by
  refine ⟨?_, rfl, ?_, rfl⟩
  · intro m hnd
    have hnd2 := nodup_keys_filter_map m (fun e => notNil e.2) (ToJSONString inv encodeOther) hnd
    rw [stringifyMapValue_eq inv encodeOther m hnd]
    have hkeys : ∀ k, k ∈ ((m.filter (fun e => notNil e.2)).map
        (fun e => (e.1, ToJSONString inv encodeOther e.2))).map Prod.fst
        ↔ ∃ v, (k, v) ∈ m ∧ v ≠ .nil := by
      intro k
      simp only [List.map_map, List.mem_map, List.mem_filter, Function.comp, notNil_iff]
      constructor
      · rintro ⟨e, ⟨he, hn⟩, rfl⟩
        exact ⟨e.2, he, hn⟩
      · rintro ⟨v, hv, hn⟩
        exact ⟨(k, v), ⟨hv, hn⟩, rfl⟩
    refine ⟨hkeys, ?_, ?_, hnd2⟩
    · intro k v hv hn
      apply lookup_of_mem_nodup _ _ _ hnd2
      exact List.mem_map.2 ⟨(k, v), List.mem_filter.2 ⟨hv, (notNil_iff v).2 hn⟩, rfl⟩
    · intro k hk
      rw [List.lookup_eq_none_iff]
      intro p hp
      have hmem : p.1 ∈ ((m.filter (fun e => notNil e.2)).map
          (fun e => (e.1, ToJSONString inv encodeOther e.2))).map Prod.fst :=
        List.mem_map.2 ⟨p, hp, rfl⟩
      obtain ⟨v, hv, hn⟩ := (hkeys p.1).1 hmem
      rw [bne_iff_ne]
      intro hkp2
      rw [← hkp2] at hv
      have h1 := lookup_of_mem_nodup m k v hnd hv
      have h2 := lookup_of_mem_nodup m k .nil hnd hk
      rw [h1] at h2
      exact hn (Option.some.inj h2)
  · intro a hnd
    rw [anyifyMapValue_eq a hnd]
    have hk : (a.map (fun e => (e.1, Any.str (StringValue e.2)))).map Prod.fst
        = a.map Prod.fst := by
      rw [List.map_map]; rfl
    refine ⟨hk, ?_, ?_⟩
    · intro k s hs
      apply lookup_of_mem_nodup _ _ _ (by rw [hk]; exact hnd)
      exact List.mem_map.2 ⟨(k, some s), hs, rfl⟩
    · intro k hs
      apply lookup_of_mem_nodup _ _ _ (by rw [hk]; exact hnd)
      exact List.mem_map.2 ⟨(k, none), hs, rfl⟩

/-! ### Status classes -/

/-- C15: for every code, set or unset, `Is2xx`, `Is3xx`, `Is4xx` and `Is5xx` are
true exactly on the bands [200,300), [300,400), [400,500) and [500,600) of the
value of the code (0 for an unset code); all four are false outside [100,600), and
no two of them are true of the same code. -/
theorem isNxx_spec (code : Option Int) :
    (Is2xx code = true ↔ 100 * 2 ≤ IntValue code ∧ IntValue code < 100 * 2 + 100) ∧
    (Is3xx code = true ↔ 100 * 3 ≤ IntValue code ∧ IntValue code < 100 * 3 + 100) ∧
    (Is4xx code = true ↔ 100 * 4 ≤ IntValue code ∧ IntValue code < 100 * 4 + 100) ∧
    (Is5xx code = true ↔ 100 * 5 ≤ IntValue code ∧ IntValue code < 100 * 5 + 100) ∧
    (¬ (100 ≤ IntValue code ∧ IntValue code < 600) →
      Is2xx code = false ∧ Is3xx code = false ∧ Is4xx code = false ∧ Is5xx code = false) ∧
    (Is2xx none = false ∧ Is3xx none = false ∧ Is4xx none = false ∧ Is5xx none = false) ∧
    ¬ (Is2xx code = true ∧ Is3xx code = true) ∧ ¬ (Is2xx code = true ∧ Is4xx code = true) ∧
    ¬ (Is2xx code = true ∧ Is5xx code = true) ∧ ¬ (Is3xx code = true ∧ Is4xx code = true) ∧
    ¬ (Is3xx code = true ∧ Is5xx code = true) ∧ ¬ (Is4xx code = true ∧ Is5xx code = true) := by
  simp only [Is2xx, Is3xx, Is4xx, Is5xx, decide_eq_true_eq, decide_eq_false_iff_not, IntValue]
  refine ⟨?_, ?_, ?_, ?_, ?_, ?_, ?_, ?_, ?_, ?_, ?_, ?_⟩ <;> omega

/-- C16, as stated, fails: 100 lies in [100,600) and none of `Is2xx`, `Is3xx`,
`Is4xx`, `Is5xx` is true of it (nor of any other code from 100 to 199). -/
theorem isNxx_exactly_one_counterexample :
    (100 : Int) ≤ 100 ∧ (100 : Int) < 600 ∧
    Is2xx (some 100) = false ∧ Is3xx (some 100) = false ∧
    Is4xx (some 100) = false ∧ Is5xx (some 100) = false ∧
    [Is2xx (some 100), Is3xx (some 100), Is4xx (some 100), Is5xx (some 100)].count true = 0 := by
  decide

/-- C16, amended: for every integer `c` with 200 ≤ c < 600 exactly one of `Is2xx`,
`Is3xx`, `Is4xx`, `Is5xx` is true of `c`, and for every other integer, those from
100 to 199 among them, none is. -/
theorem isNxx_exactly_one (c : Int) :
    ((200 ≤ c ∧ c < 600) →
      [Is2xx (some c), Is3xx (some c), Is4xx (some c), Is5xx (some c)].count true = 1) ∧
    (¬ (200 ≤ c ∧ c < 600) →
      [Is2xx (some c), Is3xx (some c), Is4xx (some c), Is5xx (some c)].count true = 0) := by
  have e2 : Is2xx (some c) = decide (200 ≤ c ∧ c < 300) := rfl
  have e3 : Is3xx (some c) = decide (300 ≤ c ∧ c < 400) := rfl
  have e4 : Is4xx (some c) = decide (400 ≤ c ∧ c < 500) := rfl
  have e5 : Is5xx (some c) = decide (500 ≤ c ∧ c < 600) := rfl
  rw [e2, e3, e4, e5]
  constructor
  · intro h
    by_cases h2 : c < 300
    · have a2 : (200 ≤ c ∧ c < 300) := by omega
      have a3 : ¬ (300 ≤ c ∧ c < 400) := by omega
      have a4 : ¬ (400 ≤ c ∧ c < 500) := by omega
      have a5 : ¬ (500 ≤ c ∧ c < 600) := by omega
      simp [a2, a3, a4, a5]
    · by_cases h3 : c < 400
      · have a2 : ¬ (200 ≤ c ∧ c < 300) := by omega
        have a3 : (300 ≤ c ∧ c < 400) := by omega
        have a4 : ¬ (400 ≤ c ∧ c < 500) := by omega
        have a5 : ¬ (500 ≤ c ∧ c < 600) := by omega
        simp [a2, a3, a4, a5]
      · by_cases h4 : c < 500
        · have a2 : ¬ (200 ≤ c ∧ c < 300) := by omega
          have a3 : ¬ (300 ≤ c ∧ c < 400) := by omega
          have a4 : (400 ≤ c ∧ c < 500) := by omega
          have a5 : ¬ (500 ≤ c ∧ c < 600) := by omega
          simp [a2, a3, a4, a5]
        · have a2 : ¬ (200 ≤ c ∧ c < 300) := by omega
          have a3 : ¬ (300 ≤ c ∧ c < 400) := by omega
          have a4 : ¬ (400 ≤ c ∧ c < 500) := by omega
          have a5 : (500 ≤ c ∧ c < 600) := by omega
          simp [a2, a3, a4, a5]
  · intro h
    have a2 : ¬ (200 ≤ c ∧ c < 300) := by omega
    have a3 : ¬ (300 ≤ c ∧ c < 400) := by omega
    have a4 : ¬ (400 ≤ c ∧ c < 500) := by omega
    have a5 : ¬ (500 ≤ c ∧ c < 600) := by omega
    simp [a2, a3, a4, a5]

/-! ### `GetUserAgent` -/

/-- C17: with `d` the default agent string, `GetUserAgent` of an absent suffix and
of the empty suffix is `d`; of any other suffix `s` it is `d`, one space and `s`,
of length `d.length + 1 + s.length`; in every case `d` is a prefix of the result.
The default agent string built from any operating system, architecture and runtime
version is one such `d`. -/
theorem getUserAgent_spec (d : GoString) (userAgent : Option GoString) :
    GetUserAgent d none = d ∧
    GetUserAgent d (some []) = d ∧
    (∀ s : GoString, s ≠ [] →
      GetUserAgent d (some s) = d ++ [32] ++ s ∧
      (GetUserAgent d (some s)).length = d.length + 1 + s.length) ∧
    d <+: GetUserAgent d userAgent ∧
    (∀ GOOS GOARCH Version s : GoString, s ≠ [] →
      GetUserAgent (defaultUserAgent GOOS GOARCH Version) (some s)
        = defaultUserAgent GOOS GOARCH Version ++ [32] ++ s) := by
  have hsome : ∀ (d s : GoString), s ≠ [] → GetUserAgent d (some s) = d ++ [32] ++ s := by
    intro d s hs
    have : StringValue (some s) ≠ goStr "" := hs
    simp only [GetUserAgent, ne_eq, not_false_eq_true, this, and_self, if_true]
    rfl
  refine ⟨rfl, rfl, ?_, ?_, ?_⟩
  · intro s hs
    rw [hsome d s hs]
    exact ⟨rfl, by simp; omega⟩
  · cases userAgent with
    | none => exact List.prefix_refl d
    | some s =>
      by_cases hs : s = []
      · subst hs; exact List.prefix_refl d
      · rw [hsome d s hs, List.append_assoc]
        exact List.prefix_append d _
  · intro GOOS GOARCH Version s hs
    exact hsome _ s hs

/-! ### The sequence counter of `GetNonce` -/

theorem wrapInt64_add (a b : Int) : wrapInt64 (wrapInt64 a + b) = wrapInt64 (a + b) := by
  unfold wrapInt64
  omega

theorem wrapInt64_of_range (n : Int) (h1 : -(2 ^ 63) ≤ n) (h2 : n < 2 ^ 63) :
    wrapInt64 n = n := by
  unfold wrapInt64
  omega

theorem wrapInt64_ne (i j : Int) (h1 : i < j) (h2 : j < i + 2 ^ 64) :
    wrapInt64 i ≠ wrapInt64 j := by
  unfold wrapInt64
  omega

theorem wrapInt64_period (i : Int) : wrapInt64 (i + 2 ^ 64) = wrapInt64 i := by
  unfold wrapInt64
  omega

theorem seqId_fold (md5Hex : GoString → GoString) (processStartTime : Int) :
    ∀ (calls : List NonceCall) (a : Int),
      calls.foldl (fun seqId c => (GetNonce md5Hex processStartTime c seqId).2.2) (wrapInt64 a)
        = wrapInt64 (a + calls.length) := by
  intro calls
  induction calls with
  | nil => intro a; simp
  | cons c calls ih =>
    intro a
    have hstep : (GetNonce md5Hex processStartTime c (wrapInt64 a)).2.2 = wrapInt64 (a + 1) := by
      show wrapInt64 (wrapInt64 a + 1) = _
      exact wrapInt64_add a 1
    rw [List.foldl_cons, hstep, ih (a + 1)]
    congr 1
    simp only [List.length_cons, Nat.cast_add, Nat.cast_one]
    omega

theorem seqIdAfter_eq (md5Hex : GoString → GoString) (processStartTime : Int)
    (calls : List NonceCall) :
    seqIdAfter md5Hex processStartTime calls = wrapInt64 calls.length := by
  have h0 : seqIdInit = wrapInt64 0 := by decide
  unfold seqIdAfter
  rw [h0, seqId_fold md5Hex processStartTime calls 0]
  simp

/-- The message of call number `k`: its sequence number is `k`, wrapped around as an
`int64`. -/
theorem msgOfCall_eq (md5Hex : GoString → GoString) (processStartTime : Int)
    (calls : List NonceCall) (k : Nat) (c : NonceCall) (hk : 1 ≤ k)
    (hc : calls.get? (k - 1) = some c) :
    msgOfCall md5Hex processStartTime calls k
      = some (nonceMsg processStartTime c.routineId c.currentTime (wrapInt64 k) c.randNum) := by
  have hk0 : ¬ k = 0 := by omega
  have hlt : k - 1 < calls.length := by
    rcases Nat.lt_or_ge (k - 1) calls.length with h | h
    · exact h
    · rw [List.get?_eq_none.2 h] at hc; simp at hc
  unfold msgOfCall
  rw [hc]
  simp only [hk0, if_false]
  rw [seqIdAfter_eq]
  have hlen : (calls.take (k - 1)).length = k - 1 := by
    rw [List.length_take]; omega
  rw [hlen]
  show some (nonceMsg processStartTime c.routineId c.currentTime
    (wrapInt64 (wrapInt64 ((k - 1 : Nat) : Int) + 1)) c.randNum) = _
  rw [wrapInt64_add]
  have : ((k - 1 : Nat) : Int) + 1 = (k : Int) := by omega
  rw [this]

/-! ### The message of `GetNonce` determines the sequence number -/

theorem append_cons_inj_left (a : Nat) :
    ∀ (l1 l2 r1 r2 : List Nat), a ∉ l1 → a ∉ l2 → l1 ++ a :: r1 = l2 ++ a :: r2 →
      l1 = l2 ∧ r1 = r2 := by
  intro l1
  induction l1 with
  | nil =>
    intro l2 r1 r2 _ h2 h
    cases l2 with
    | nil => simp at h; exact ⟨rfl, h⟩
    | cons y ys =>
      simp only [List.nil_append, List.cons_append, List.cons.injEq] at h
      simp only [List.mem_cons, not_or] at h2
      exact absurd h.1 h2.1
  | cons x xs ih =>
    intro l2 r1 r2 h1 h2 h
    simp only [List.mem_cons, not_or] at h1
    cases l2 with
    | nil =>
      simp only [List.nil_append, List.cons_append, List.cons.injEq] at h
      exact absurd h.1.symm h1.1
    | cons y ys =>
      simp only [List.cons_append, List.cons.injEq] at h
      simp only [List.mem_cons, not_or] at h2
      obtain ⟨e1, e2⟩ := ih ys r1 r2 h1.2 h2.2 h.2
      exact ⟨by rw [h.1, e1], e2⟩

theorem append_cons_inj_right (a : Nat) (l1 l2 r1 r2 : List Nat) (h1 : a ∉ r1) (h2 : a ∉ r2)
    (h : l1 ++ a :: r1 = l2 ++ a :: r2) : l1 = l2 ∧ r1 = r2 := by
  have hr := congrArg List.reverse h
  simp only [List.reverse_append, List.reverse_cons, List.append_assoc, List.singleton_append]
    at hr
  obtain ⟨e1, e2⟩ := append_cons_inj_left a r1.reverse r2.reverse l1.reverse l2.reverse
    (by simpa using h1) (by simpa using h2) hr
  exact ⟨List.reverse_injective e2, List.reverse_injective e1⟩

theorem not_mem_of_digits (ds : List Nat) (h : ds.all isDigit = true) : 45 ∉ ds := by
  intro hin
  have := (List.all_eq_true.1 h) 45 hin
  simp [isDigit] at this

theorem natText_inj (m n : Nat)
    (h : (toString m).toList.map Char.toNat = (toString n).toList.map Char.toNat) : m = n := by
  have h1 := (natText_spec m).1
  have h2 := (natText_spec n).1
  rw [h] at h1
  rw [← h1, h2]

theorem decimalText_last_digit (n : Int) :
    ∃ init d, decimalText n = init ++ [d] ∧ isDigit d = true := by
  have key : ∀ m : Nat, ∃ init d, (toString m).toList.map Char.toNat = init ++ [d] ∧
      isDigit d = true := by
    intro m
    obtain ⟨_, h2, h3⟩ := natText_spec m
    refine ⟨_, _, (List.dropLast_append_getLast h3).symm, ?_⟩
    exact (List.all_eq_true.1 h2) _ (List.getLast_mem h3)
  cases n with
  | ofNat m => rw [decimalText_ofNat]; exact key m
  | negSucc m =>
    rw [decimalText_negSucc]
    obtain ⟨init, d, h, hd⟩ := key (m + 1)
    exact ⟨45 :: init, d, by rw [h]; rfl, hd⟩

/-- The text before the sequence number and the sequence number determine each
other: the text ends with a digit, the sequence number is digits after at most one
minus sign. -/
theorem seq_of_text (P1 P2 : List Nat) (d1 d2 : Nat) (q1 q2 : Int)
    (hd1 : isDigit d1 = true) (hd2 : isDigit d2 = true)
    (h : (P1 ++ [d1]) ++ 45 :: decimalText q1 = (P2 ++ [d2]) ++ 45 :: decimalText q2) :
    q1 = q2 := by
  have hne1 : d1 ≠ 45 := by
    intro h0; subst h0; simp [isDigit] at hd1
  have hne2 : d2 ≠ 45 := by
    intro h0; subst h0; simp [isDigit] at hd2
  cases q1 with
  | ofNat m1 =>
    cases q2 with
    | ofNat m2 =>
      rw [decimalText_ofNat, decimalText_ofNat] at h
      obtain ⟨_, e⟩ := append_cons_inj_right 45 _ _ _ _
        (not_mem_of_digits _ (natText_spec m1).2.1) (not_mem_of_digits _ (natText_spec m2).2.1) h
      rw [natText_inj m1 m2 e]
    | negSucc m2 =>
      rw [decimalText_ofNat, decimalText_negSucc] at h
      have h' : (P1 ++ [d1]) ++ 45 :: (toString m1).toList.map Char.toNat
          = ((P2 ++ [d2]) ++ [45]) ++ 45 :: (toString (m2 + 1)).toList.map Char.toNat := by
        rw [h]; simp
      obtain ⟨e, _⟩ := append_cons_inj_right 45 _ _ _ _
        (not_mem_of_digits _ (natText_spec m1).2.1)
        (not_mem_of_digits _ (natText_spec (m2 + 1)).2.1) h'
      have := congrArg List.getLast? e
      simp at this
      exact absurd this hne1
  | negSucc m1 =>
    cases q2 with
    | ofNat m2 =>
      rw [decimalText_ofNat, decimalText_negSucc] at h
      have h' : ((P1 ++ [d1]) ++ [45]) ++ 45 :: (toString (m1 + 1)).toList.map Char.toNat
          = (P2 ++ [d2]) ++ 45 :: (toString m2).toList.map Char.toNat := by
        rw [← h]; simp
      obtain ⟨e, _⟩ := append_cons_inj_right 45 _ _ _ _
        (not_mem_of_digits _ (natText_spec (m1 + 1)).2.1)
        (not_mem_of_digits _ (natText_spec m2).2.1) h'
      have := congrArg List.getLast? e
      simp at this
      exact absurd this.symm hne2
    | negSucc m2 =>
      rw [decimalText_negSucc, decimalText_negSucc] at h
      have h' : ((P1 ++ [d1]) ++ [45]) ++ 45 :: (toString (m1 + 1)).toList.map Char.toNat
          = ((P2 ++ [d2]) ++ [45]) ++ 45 :: (toString (m2 + 1)).toList.map Char.toNat := by
        simpa using h
      obtain ⟨_, e⟩ := append_cons_inj_right 45 _ _ _ _
        (not_mem_of_digits _ (natText_spec (m1 + 1)).2.1)
        (not_mem_of_digits _ (natText_spec (m2 + 1)).2.1) h'
      have := natText_inj _ _ e
      have : m1 = m2 := by omega
      rw [this]

/-- Two messages with different sequence numbers differ, whatever the other four
numbers are. -/
theorem nonceMsg_seq_inj (p1 p2 : Int) (g1 g2 : Nat) (t1 t2 q1 q2 : Int) (r1 r2 : Nat)
    (h : nonceMsg p1 g1 t1 q1 r1 = nonceMsg p2 g2 t2 q2 r2) : q1 = q2 := by
  unfold nonceMsg at h
  obtain ⟨i1, d1, ht1, hd1⟩ := decimalText_last_digit t1
  obtain ⟨i2, d2, ht2, hd2⟩ := decimalText_last_digit t2
  have hr1 : decimalText (r1 : Int) = (toString r1).toList.map Char.toNat := rfl
  have hr2 : decimalText (r2 : Int) = (toString r2).toList.map Char.toNat := rfl
  rw [hr1, hr2, ht1, ht2] at h
  have h' : ((decimalText p1 ++ 45 :: (decimalText (g1 : Int) ++ 45 :: i1)) ++ [d1]
        ++ 45 :: decimalText q1) ++ 45 :: (toString r1).toList.map Char.toNat
      = ((decimalText p2 ++ 45 :: (decimalText (g2 : Int) ++ 45 :: i2)) ++ [d2]
        ++ 45 :: decimalText q2) ++ 45 :: (toString r2).toList.map Char.toNat := by
    simpa using h
  obtain ⟨e, _⟩ := append_cons_inj_right 45 _ _ _ _
    (not_mem_of_digits _ (natText_spec r1).2.1) (not_mem_of_digits _ (natText_spec r2).2.1) h'
  exact seq_of_text _ _ d1 d2 q1 q2 hd1 hd2 e

/-- C18: the counter starts at 0; a call of `GetNonce` adds exactly one to it and
uses the new value in its message, for every value of the counter below the largest
`int64`, so for each of the first 2^63 - 1 calls of a process; so among any calls,
taken in the order of their atomic additions, the call number `k` uses the sequence
number `k` (for `k < 2^63`); and two calls hash different messages, whatever the
times, goroutine identifiers and random numbers of the two calls are (equal or
not), because two messages with different sequence numbers differ; this holds for
any two calls less than 2^64 calls apart, so for all calls made before the counter
reaches the end of the `int64` range. -/
theorem getNonce_seq_spec (md5Hex : GoString → GoString) (processStartTime : Int)
    (calls : List NonceCall) :
    seqIdInit = 0 ∧
    (∀ (c : NonceCall) (seqId : Int), -(2 ^ 63) ≤ seqId → seqId < 2 ^ 63 - 1 →
      GetNonce md5Hex processStartTime c seqId
        = (nonceMsg processStartTime c.routineId c.currentTime (seqId + 1) c.randNum,
           md5Hex (nonceMsg processStartTime c.routineId c.currentTime (seqId + 1) c.randNum),
           seqId + 1)) ∧
    (∀ (k : Nat) (c : NonceCall), 1 ≤ k → k < 2 ^ 63 → calls.get? (k - 1) = some c →
      seqIdAfter md5Hex processStartTime (calls.take k) = k ∧
      msgOfCall md5Hex processStartTime calls k
        = some (nonceMsg processStartTime c.routineId c.currentTime k c.randNum)) ∧
    (∀ (i j : Nat) (mi mj : GoString), 1 ≤ i → i < j → j < i + 2 ^ 64 →
      msgOfCall md5Hex processStartTime calls i = some mi →
      msgOfCall md5Hex processStartTime calls j = some mj → mi ≠ mj) ∧
    (∀ (p1 p2 : Int) (g1 g2 : Nat) (t1 t2 q1 q2 : Int) (r1 r2 : Nat), q1 ≠ q2 →
      nonceMsg p1 g1 t1 q1 r1 ≠ nonceMsg p2 g2 t2 q2 r2) := by
  have hget : ∀ (k : Nat) (mk : GoString),
      msgOfCall md5Hex processStartTime calls k = some mk →
      1 ≤ k ∧ ∃ c, calls.get? (k - 1) = some c := by
    intro k mk h
    unfold msgOfCall at h
    cases hc : calls.get? (k - 1) with
    | none => rw [hc] at h; simp at h
    | some c =>
      rw [hc] at h
      by_cases hk : k = 0
      · simp [hk] at h
      · exact ⟨by omega, c, rfl⟩
  refine ⟨rfl, ?_, ?_, ?_, ?_⟩
  · intro c seqId h1 h2
    have hw : wrapInt64 (seqId + 1) = seqId + 1 := wrapInt64_of_range _ (by omega) (by omega)
    show (nonceMsg processStartTime c.routineId c.currentTime (wrapInt64 (seqId + 1)) c.randNum,
      md5Hex (nonceMsg processStartTime c.routineId c.currentTime (wrapInt64 (seqId + 1))
        c.randNum), wrapInt64 (seqId + 1)) = _
    rw [hw]
  · intro k c hk1 hk2 hc
    have hlt : k - 1 < calls.length := by
      rcases Nat.lt_or_ge (k - 1) calls.length with h | h
      · exact h
      · rw [List.get?_eq_none.2 h] at hc; simp at hc
    have hw : wrapInt64 (k : Int) = k := by
      apply wrapInt64_of_range
      · have : (0 : Int) ≤ k := Int.ofNat_nonneg k
        omega
      · exact_mod_cast hk2
    refine ⟨?_, ?_⟩
    · rw [seqIdAfter_eq, List.length_take]
      have : min k calls.length = k := by omega
      rw [this, hw]
    · rw [msgOfCall_eq md5Hex processStartTime calls k c hk1 hc, hw]
  · intro i j mi mj hi hij hj h1 h2 heq
    obtain ⟨_, ci, hci⟩ := hget i mi h1
    obtain ⟨hj1, cj, hcj⟩ := hget j mj h2
    rw [msgOfCall_eq md5Hex processStartTime calls i ci hi hci] at h1
    rw [msgOfCall_eq md5Hex processStartTime calls j cj hj1 hcj] at h2
    have e1 := Option.some.inj h1
    have e2 := Option.some.inj h2
    rw [← e1, ← e2] at heq
    have := nonceMsg_seq_inj _ _ _ _ _ _ _ _ _ _ heq
    refine wrapInt64_ne (i : Int) (j : Int) (by exact_mod_cast hij) ?_ this
    have : ((j : Nat) : Int) < ((i + 2 ^ 64 : Nat) : Int) := by exact_mod_cast hj
    simpa using this
  · intro p1 p2 g1 g2 t1 t2 q1 q2 r1 r2 hq h
    exact hq (nonceMsg_seq_inj _ _ _ _ _ _ _ _ _ _ h)

/-! ### `RuntimeOptions` setters -/

/-- C19: each of the 18 setters of `RuntimeOptions`, called with a value `v` on the
receiver at address `s`, returns the pointer `s` to the receiver; after the call
the field named by the setter is a non-nil pointer to `v` (whatever `v` is, the
zero value included), each of the other 17 fields of the receiver is as before, and
no other record has changed. -/
theorem setters_spec (h : Store) (s : Nat) (b : Bool) (str : GoString) (n : Int) :
    setsField h s "Autoretry" (.boolPtr (some b)) (SetAutoretry h s b) ∧
    setsField h s "IgnoreSSL" (.boolPtr (some b)) (SetIgnoreSSL h s b) ∧
    setsField h s "Key" (.strPtr (some str)) (SetKey h s str) ∧
    setsField h s "Cert" (.strPtr (some str)) (SetCert h s str) ∧
    setsField h s "Ca" (.strPtr (some str)) (SetCa h s str) ∧
    setsField h s "MaxAttempts" (.intPtr (some n)) (SetMaxAttempts h s n) ∧
    setsField h s "BackoffPolicy" (.strPtr (some str)) (SetBackoffPolicy h s str) ∧
    setsField h s "BackoffPeriod" (.intPtr (some n)) (SetBackoffPeriod h s n) ∧
    setsField h s "ReadTimeout" (.intPtr (some n)) (SetReadTimeout h s n) ∧
    setsField h s "ConnectTimeout" (.intPtr (some n)) (SetConnectTimeout h s n) ∧
    setsField h s "HttpProxy" (.strPtr (some str)) (SetHttpProxy h s str) ∧
    setsField h s "HttpsProxy" (.strPtr (some str)) (SetHttpsProxy h s str) ∧
    setsField h s "NoProxy" (.strPtr (some str)) (SetNoProxy h s str) ∧
    setsField h s "MaxIdleConns" (.intPtr (some n)) (SetMaxIdleConns h s n) ∧
    setsField h s "LocalAddr" (.strPtr (some str)) (SetLocalAddr h s str) ∧
    setsField h s "Socks5Proxy" (.strPtr (some str)) (SetSocks5Proxy h s str) ∧
    setsField h s "Socks5NetWork" (.strPtr (some str)) (SetSocks5NetWork h s str) ∧
    setsField h s "KeepAlive" (.boolPtr (some b)) (SetKeepAlive h s b) := by
  refine ⟨?_, ?_, ?_, ?_, ?_, ?_, ?_, ?_, ?_, ?_, ?_, ?_, ?_, ?_, ?_, ?_, ?_, ?_⟩
  · exact ⟨rfl, by simp [SetAutoretry, RuntimeOptions.fields], by
      simp [SetAutoretry, RuntimeOptions.fields, List.lookup],
      fun t ht => by simp [SetAutoretry, Function.update_noteq ht]⟩
  · exact ⟨rfl, by simp [SetIgnoreSSL, RuntimeOptions.fields], by
      simp [SetIgnoreSSL, RuntimeOptions.fields, List.lookup],
      fun t ht => by simp [SetIgnoreSSL, Function.update_noteq ht]⟩
  · exact ⟨rfl, by simp [SetKey, RuntimeOptions.fields], by
      simp [SetKey, RuntimeOptions.fields, List.lookup],
      fun t ht => by simp [SetKey, Function.update_noteq ht]⟩
  · exact ⟨rfl, by simp [SetCert, RuntimeOptions.fields], by
      simp [SetCert, RuntimeOptions.fields, List.lookup],
      fun t ht => by simp [SetCert, Function.update_noteq ht]⟩
  · exact ⟨rfl, by simp [SetCa, RuntimeOptions.fields], by
      simp [SetCa, RuntimeOptions.fields, List.lookup],
      fun t ht => by simp [SetCa, Function.update_noteq ht]⟩
  · exact ⟨rfl, by simp [SetMaxAttempts, RuntimeOptions.fields], by
      simp [SetMaxAttempts, RuntimeOptions.fields, List.lookup],
      fun t ht => by simp [SetMaxAttempts, Function.update_noteq ht]⟩
  · exact ⟨rfl, by simp [SetBackoffPolicy, RuntimeOptions.fields], by
      simp [SetBackoffPolicy, RuntimeOptions.fields, List.lookup],
      fun t ht => by simp [SetBackoffPolicy, Function.update_noteq ht]⟩
  · exact ⟨rfl, by simp [SetBackoffPeriod, RuntimeOptions.fields], by
      simp [SetBackoffPeriod, RuntimeOptions.fields, List.lookup],
      fun t ht => by simp [SetBackoffPeriod, Function.update_noteq ht]⟩
  · exact ⟨rfl, by simp [SetReadTimeout, RuntimeOptions.fields], by
      simp [SetReadTimeout, RuntimeOptions.fields, List.lookup],
      fun t ht => by simp [SetReadTimeout, Function.update_noteq ht]⟩
  · exact ⟨rfl, by simp [SetConnectTimeout, RuntimeOptions.fields], by
      simp [SetConnectTimeout, RuntimeOptions.fields, List.lookup],
      fun t ht => by simp [SetConnectTimeout, Function.update_noteq ht]⟩
  · exact ⟨rfl, by simp [SetHttpProxy, RuntimeOptions.fields], by
      simp [SetHttpProxy, RuntimeOptions.fields, List.lookup],
      fun t ht => by simp [SetHttpProxy, Function.update_noteq ht]⟩
  · exact ⟨rfl, by simp [SetHttpsProxy, RuntimeOptions.fields], by
      simp [SetHttpsProxy, RuntimeOptions.fields, List.lookup],
      fun t ht => by simp [SetHttpsProxy, Function.update_noteq ht]⟩
  · exact ⟨rfl, by simp [SetNoProxy, RuntimeOptions.fields], by
      simp [SetNoProxy, RuntimeOptions.fields, List.lookup],
      fun t ht => by simp [SetNoProxy, Function.update_noteq ht]⟩
  · exact ⟨rfl, by simp [SetMaxIdleConns, RuntimeOptions.fields], by
      simp [SetMaxIdleConns, RuntimeOptions.fields, List.lookup],
      fun t ht => by simp [SetMaxIdleConns, Function.update_noteq ht]⟩
  · exact ⟨rfl, by simp [SetLocalAddr, RuntimeOptions.fields], by
      simp [SetLocalAddr, RuntimeOptions.fields, List.lookup],
      fun t ht => by simp [SetLocalAddr, Function.update_noteq ht]⟩
  · exact ⟨rfl, by simp [SetSocks5Proxy, RuntimeOptions.fields], by
      simp [SetSocks5Proxy, RuntimeOptions.fields, List.lookup],
      fun t ht => by simp [SetSocks5Proxy, Function.update_noteq ht]⟩
  · exact ⟨rfl, by simp [SetSocks5NetWork, RuntimeOptions.fields], by
      simp [SetSocks5NetWork, RuntimeOptions.fields, List.lookup],
      fun t ht => by simp [SetSocks5NetWork, Function.update_noteq ht]⟩
  · exact ⟨rfl, by simp [SetKeepAlive, RuntimeOptions.fields], by
      simp [SetKeepAlive, RuntimeOptions.fields, List.lookup],
      fun t ht => by simp [SetKeepAlive, Function.update_noteq ht]⟩

/-! ### The byte-wise order of strings -/

theorem strLess_irrefl (a : GoString) : strLess a a = false := by
  induction a with
  | nil => rfl
  | cons x xs ih => simp [strLess, ih]

theorem strLess_asymm : ∀ (a b : GoString), strLess a b = true → strLess b a = false := by
  intro a
  induction a with
  | nil => intro b _; cases b <;> rfl
  | cons x xs ih =>
    intro b h
    cases b with
    | nil => simp [strLess] at h
    | cons y ys =>
      simp only [strLess, Bool.or_eq_true, decide_eq_true_eq, Bool.and_eq_true] at h
      simp only [strLess, Bool.or_eq_false_iff, decide_eq_false_iff_not, Bool.and_eq_false_imp,
        decide_eq_true_eq]
      rcases h with h | ⟨h1, h2⟩
      · exact ⟨by omega, fun h3 => by omega⟩
      · exact ⟨by omega, fun _ => ih ys h2⟩

theorem strLess_antisymm : ∀ (a b : GoString), strLess a b = false → strLess b a = false →
    a = b := by
  intro a
  induction a with
  | nil => intro b h1 _; cases b with
    | nil => rfl
    | cons y ys => simp [strLess] at h1
  | cons x xs ih =>
    intro b h1 h2
    cases b with
    | nil => simp [strLess] at h2
    | cons y ys =>
      simp only [strLess, Bool.or_eq_false_iff, decide_eq_false_iff_not, Bool.and_eq_false_imp,
        decide_eq_true_eq] at h1 h2
      have hxy : x = y := by omega
      subst hxy
      rw [ih ys (h1.2 rfl) (h2.2 rfl)]

theorem strLess_trans : ∀ (a b c : GoString), strLess a b = true → strLess b c = true →
    strLess a c = true := by
  intro a
  induction a with
  | nil =>
    intro b c h1 h2
    cases b with
    | nil => simp [strLess] at h1
    | cons y ys =>
      cases c with
      | nil => simp [strLess] at h2
      | cons z zs => rfl
  | cons x xs ih =>
    intro b c h1 h2
    cases b with
    | nil => simp [strLess] at h1
    | cons y ys =>
      cases c with
      | nil => simp [strLess] at h2
      | cons z zs =>
        simp only [strLess, Bool.or_eq_true, decide_eq_true_eq, Bool.and_eq_true] at h1 h2 ⊢
        rcases h1 with h1 | ⟨h1, h1r⟩
        · rcases h2 with h2 | ⟨h2, _⟩
          · left; omega
          · left; omega
        · rcases h2 with h2 | ⟨h2, h2r⟩
          · left; omega
          · right; exact ⟨by omega, ih ys zs h1r h2r⟩

theorem strLE_total (a b : GoString) : strLess b a = false ∨ strLess a b = false := by
  cases h : strLess b a with
  | false => left; rfl
  | true => right; exact strLess_asymm b a h

theorem strLE_trans (a b c : GoString) (h1 : strLess b a = false) (h2 : strLess c b = false) :
    strLess c a = false := by
  cases h : strLess c a with
  | false => rfl
  | true =>
    -- c < a, and a ≤ b: then c < b or ..., against b ≤ c
    cases hab : strLess a b with
    | true => rw [strLess_trans c a b h hab] at h2; exact h2
    | false =>
      have : a = b := strLess_antisymm a b hab h1
      subst this
      rw [h] at h2; exact h2

theorem sortStrings_sorted (keys : List GoString) :
    (sortStrings keys).Sorted (fun a b => strLess b a = false) := by
  haveI : IsTotal GoString (fun a b => strLess b a = false) := ⟨strLE_total⟩
  haveI : IsTrans GoString (fun a b => strLess b a = false) := ⟨strLE_trans⟩
  exact List.sorted_insertionSort _ keys

theorem sortStrings_perm (keys : List GoString) : (sortStrings keys).Perm keys :=
  List.perm_insertionSort _ keys

theorem sortStrings_eq_of_sorted (keys l : List GoString) (hp : l.Perm keys)
    (hs : l.Pairwise (fun a b => strLess a b = true)) : sortStrings keys = l := by
  haveI : IsAntisymm GoString (fun a b => strLess b a = false) :=
    ⟨fun a b h1 h2 => strLess_antisymm a b h2 h1⟩
  apply List.eq_of_perm_of_sorted ((sortStrings_perm keys).trans hp.symm)
    (sortStrings_sorted keys)
  exact List.Pairwise.imp (fun h => strLess_asymm _ _ h) hs

theorem sortStrings_strict (keys : List GoString) (hnd : keys.Nodup) :
    (sortStrings keys).Pairwise (fun a b => strLess a b = true) := by
  have h1 := sortStrings_sorted keys
  have h2 : (sortStrings keys).Nodup := (sortStrings_perm keys).nodup_iff.2 hnd
  have h3 := List.Pairwise.and h1 h2
  refine List.Pairwise.imp ?_ h3
  intro a b ⟨hab, hne⟩
  cases h : strLess a b with
  | true => rfl
  | false => exact absurd (strLess_antisymm a b h hab) hne

/-! ### `ToFormString` -/

theorem valuesAdd_of_not_mem (v : List (GoString × List GoString)) (key value : GoString)
    (h : key ∉ v.map Prod.fst) : Values.Add v key value = v ++ [(key, [value])] := by
  induction v with
  | nil => rfl
  | cons e rest ih =>
    simp only [List.map_cons, List.mem_cons, not_or] at h
    have hne : ¬ e.1 = key := fun h2 => h.1 h2.symm
    simp [Values.Add, hne, ih h.2]

theorem valuesAdd_fold (fmtV : Any → GoString) :
    ∀ (rest : List (GoString × Any)) (acc : List (GoString × List GoString)),
      (rest.map Prod.fst).Nodup → (∀ k ∈ rest.map Prod.fst, k ∉ acc.map Prod.fst) →
      rest.foldl (fun urlEncoder e => Values.Add urlEncoder e.1 (fmtV e.2)) acc
        = acc ++ rest.map (fun e => (e.1, [fmtV e.2])) := by
  intro rest
  induction rest with
  | nil => intro acc _ _; simp
  | cons e rest ih =>
    intro acc hnd hdis
    simp only [List.map_cons, List.nodup_cons] at hnd
    have he : e.1 ∉ acc.map Prod.fst := hdis e.1 (by simp)
    simp only [List.foldl_cons]
    rw [valuesAdd_of_not_mem acc e.1 _ he, ih _ hnd.2]
    · simp
    · intro k hk
      simp only [List.map_append, List.map_cons, List.map_nil, List.mem_append,
        List.mem_singleton, not_or]
      refine ⟨hdis k (by simp [hk]), ?_⟩
      intro hke
      subst hke
      exact hnd.1 hk

theorem intercalate_cons_flatten (sep x : List Nat) (xs : List (List Nat)) :
    sep.intercalate (x :: xs) = x ++ (xs.map (fun y => sep ++ y)).flatten := by
  induction xs generalizing x with
  | nil => simp [List.intercalate, List.intersperse]
  | cons y ys ih =>
    have := ih y
    simp only [List.intercalate, List.intersperse, List.flatten_cons, List.map_cons,
      List.append_assoc] at this ⊢
    rw [this]

theorem encode_fold_nonempty (pair : GoString → GoString) :
    ∀ (ks : List GoString) (buf : GoString), buf ≠ [] →
      ks.foldl (fun buf k => (if buf.length > 0 then buf ++ [38] else buf) ++ pair k) buf
        = buf ++ (ks.map (fun k => [38] ++ pair k)).flatten := by
  intro ks
  induction ks with
  | nil => intro buf _; simp
  | cons k ks ih =>
    intro buf hb
    have hlen : buf.length > 0 := List.length_pos.2 hb
    simp only [List.foldl_cons, hlen, if_true]
    rw [ih _ (by simp)]
    simp

theorem encode_fold (pair : GoString → GoString) (hpair : ∀ k, pair k ≠ [])
    (ks : List GoString) :
    ks.foldl (fun buf k => (if buf.length > 0 then buf ++ [38] else buf) ++ pair k) []
      = [38].intercalate (ks.map pair) := by
  cases ks with
  | nil => rfl
  | cons k ks =>
    simp only [List.foldl_cons, List.length_nil, gt_iff_lt, lt_self_iff_false, if_false,
      List.nil_append, List.map_cons]
    rw [encode_fold_nonempty pair ks (pair k) (hpair k), intercalate_cons_flatten, List.map_map]
    rfl

/-- The form text of a map is the pairs `key=value` of its entries, both escaped,
in ascending order of the keys and joined by `&`. -/
theorem toFormString_eq (fmtV : Any → GoString) (m : List (GoString × Any))
    (hnd : (m.map Prod.fst).Nodup) :
    ToFormString fmtV (some m)
      = [38].intercalate ((sortStrings (m.map Prod.fst)).map
          (fun k => QueryEscape k ++ 61 :: QueryEscape (fmtV ((m.lookup k).getD .nil)))) := by
  unfold ToFormString
  simp only
  rw [valuesAdd_fold fmtV m [] hnd (by simp), List.nil_append]
  unfold Values.Encode
  have hkeys : (m.map (fun e => (e.1, [fmtV e.2]))).map Prod.fst = m.map Prod.fst := by
    rw [List.map_map]; rfl
  rw [hkeys]
  rw [← encode_fold _ (fun k => by simp)]
  apply List.foldl_ext
  intro buf k hk
  have hk2 : k ∈ m.map Prod.fst := (sortStrings_perm _).mem_iff.1 hk
  obtain ⟨e, he, hek⟩ := List.mem_map.1 hk2
  have h1 : (m.map (fun e => (e.1, [fmtV e.2]))).lookup k = some [fmtV e.2] := by
    apply lookup_of_mem_nodup _ _ _ (by rw [hkeys]; exact hnd)
    exact List.mem_map.2 ⟨e, he, by rw [hek]⟩
  have h2 : m.lookup k = some e.2 :=
    lookup_of_mem_nodup m k e.2 hnd (by rw [← hek]; exact he)
  rw [h1, h2]
  rfl

/-! ### `url.QueryEscape` -/

theorem queryEscape_cons (c : Nat) (s : GoString) :
    QueryEscape (c :: s)
      = (if isUnreserved c then [c]
         else if c = 32 then [43]
         else [37, upperhex (c / 16), upperhex (c % 16)]) ++ QueryEscape s := by
  simp [QueryEscape, List.flatMap_cons]

theorem hexVal_upperhex (k : Nat) (h : k < 16) : hexVal (upperhex k) = some k := by
  interval_cases k <;> rfl

theorem isUnreserved_upperhex (k : Nat) (h : k < 16) : isUnreserved (upperhex k) = true := by
  interval_cases k <;> rfl

theorem queryUnescape_plain (c : Nat) (X : GoString) (h1 : c ≠ 37) (h2 : c ≠ 43) :
    QueryUnescape (c :: X) = (QueryUnescape X).map (fun r => c :: r) := by
  rcases X with _ | ⟨a, _ | ⟨b, Y⟩⟩ <;> simp only [QueryUnescape, h1, h2, if_false]

theorem queryUnescape_plus (X : GoString) :
    QueryUnescape (43 :: X) = (QueryUnescape X).map (fun r => 32 :: r) := by
  rcases X with _ | ⟨a, _ | ⟨b, Y⟩⟩ <;> simp [QueryUnescape]

theorem queryUnescape_hex (a b : Nat) (X : GoString) (ha : a < 16) (hb : b < 16) :
    QueryUnescape (37 :: upperhex a :: upperhex b :: X)
      = (QueryUnescape X).map (fun r => (16 * a + b) :: r) := by
  simp [QueryUnescape, hexVal_upperhex a ha, hexVal_upperhex b hb]

/-- `url.QueryUnescape` reads a text back from what `url.QueryEscape` made of it. -/
theorem queryUnescape_escape (s : GoString) (h : ∀ c ∈ s, c < 256) :
    QueryUnescape (QueryEscape s) = some s := by
  induction s with
  | nil => rfl
  | cons c s ih =>
    have hc : c < 256 := h c (by simp)
    have ih2 := ih (fun x hx => h x (by simp [hx]))
    rw [queryEscape_cons]
    by_cases h1 : isUnreserved c = true
    · rw [if_pos h1]
      have h37 : c ≠ 37 := by
        intro h0; subst h0; simp [isUnreserved] at h1
      have h43 : c ≠ 43 := by
        intro h0; subst h0; simp [isUnreserved] at h1
      show QueryUnescape (c :: QueryEscape s) = _
      rw [queryUnescape_plain c _ h37 h43, ih2]
      rfl
    · rw [if_neg h1]
      by_cases h2 : c = 32
      · rw [if_pos h2]
        show QueryUnescape (43 :: QueryEscape s) = _
        rw [queryUnescape_plus, ih2, h2]
        rfl
      · rw [if_neg h2]
        show QueryUnescape (37 :: upperhex (c / 16) :: upperhex (c % 16) :: QueryEscape s) = _
        rw [queryUnescape_hex _ _ _ (by omega) (Nat.mod_lt _ (by decide)), ih2]
        have : 16 * (c / 16) + c % 16 = c := Nat.div_add_mod c 16
        simp [this]

/-- What `url.QueryEscape` writes is made of letters, digits, `-`, `_`, `.`, `~`, `+`
and `%` only. -/
theorem queryEscape_alphabet (s : GoString) (h : ∀ c ∈ s, c < 256) :
    ∀ c ∈ QueryEscape s, isUnreserved c = true ∨ c = 43 ∨ c = 37 := by
  induction s with
  | nil => intro c hc; simp [QueryEscape] at hc
  | cons d s ih =>
    have hd : d < 256 := h d (by simp)
    have ih2 := ih (fun x hx => h x (by simp [hx]))
    intro c hc
    rw [queryEscape_cons, List.mem_append] at hc
    rcases hc with hc | hc
    · by_cases h1 : isUnreserved d = true
      · rw [if_pos h1] at hc
        simp only [List.mem_singleton] at hc
        subst hc
        exact Or.inl h1
      · rw [if_neg h1] at hc
        by_cases h2 : d = 32
        · rw [if_pos h2] at hc
          simp only [List.mem_singleton] at hc
          exact Or.inr (Or.inl hc)
        · rw [if_neg h2] at hc
          simp only [List.mem_cons, List.mem_singleton, List.not_mem_nil, or_false] at hc
          rcases hc with hc | hc | hc
          · exact Or.inr (Or.inr hc)
          · subst hc
            exact Or.inl (isUnreserved_upperhex _ (by omega))
          · subst hc
            exact Or.inl (isUnreserved_upperhex _ (Nat.mod_lt _ (by decide)))
    · exact ih2 c hc

theorem queryEscape_no_separator (s : GoString) (h : ∀ c ∈ s, c < 256) :
    38 ∉ QueryEscape s ∧ 61 ∉ QueryEscape s := by
  refine ⟨fun hin => ?_, fun hin => ?_⟩
  · rcases queryEscape_alphabet s h 38 hin with h1 | h1 | h1
    · simp [isUnreserved] at h1
    · omega
    · omega
  · rcases queryEscape_alphabet s h 61 hin with h1 | h1 | h1
    · simp [isUnreserved] at h1
    · omega
    · omega

/-- C20: the result of `ToFormString` depends on the entries of the map only, not on
the order in which `range` visits them.  For a map `m` (entries with distinct
keys) and the entries `l` of `m` arranged in ascending order of their keys, the
result is the texts `key=value` of the entries of `l`, key and `%v` rendering of the
value escaped by `url.QueryEscape`, joined by `&`; such an arrangement exists, and
any other order of visiting the same entries gives the same result.  The nil map
and the empty map give the empty string.

The escaping is the percent-encoding of a query component: `url.QueryUnescape`
reads every text back from its escaped form, the escaped form is made of letters,
digits, `-`, `_`, `.`, `~`, `+` and `%` only, so it has no `&` and no `=`; a byte that
is a letter, a digit or one of `-`, `_`, `.`, `~` is copied, a space becomes `+` and
every other byte `%` and its two hexadecimal digits in upper case.  So the map with
the entries "b c": x and "a&": y gives `a%26=`, the escaped rendering of y, `&b+c=`
and the escaped rendering of x; with the renderings `1 2` of x and `x=y` of y that is
`a%26=x%3Dy&b+c=1+2`. -/
theorem toFormString_spec (fmtV : Any → GoString) :
    (∀ m l : List (GoString × Any), (m.map Prod.fst).Nodup → l.Perm m →
      (l.map Prod.fst).Pairwise (fun a b => strLess a b = true) →
      ToFormString fmtV (some m)
        = [38].intercalate
            (l.map (fun e => QueryEscape e.1 ++ 61 :: QueryEscape (fmtV e.2)))) ∧
    (∀ m : List (GoString × Any), (m.map Prod.fst).Nodup →
      ∃ l : List (GoString × Any), l.Perm m ∧
        (l.map Prod.fst).Pairwise (fun a b => strLess a b = true)) ∧
    (∀ m m2 : List (GoString × Any), (m.map Prod.fst).Nodup → m2.Perm m →
      ToFormString fmtV (some m2) = ToFormString fmtV (some m)) ∧
    ToFormString fmtV none = [] ∧
    ToFormString fmtV (some []) = [] ∧
    (∀ s : GoString, (∀ c ∈ s, c < 256) →
      QueryUnescape (QueryEscape s) = some s ∧
      (∀ c ∈ QueryEscape s, isUnreserved c = true ∨ c = 43 ∨ c = 37) ∧
      38 ∉ QueryEscape s ∧ 61 ∉ QueryEscape s) ∧
    (∀ (c : Nat) (s : GoString),
      QueryEscape (c :: s)
        = (if isUnreserved c then [c]
           else if c = 32 then [43]
           else [37, upperhex (c / 16), upperhex (c % 16)]) ++ QueryEscape s) ∧
    QueryEscape (goStr "a b&c=d/é~+%") = goStr "a+b%26c%3Dd%2F%C3%A9~%2B%25" ∧
    (∀ x y : Any,
      ToFormString fmtV (some [(goStr "b c", x), (goStr "a&", y)])
        = goStr "a%26=" ++ (QueryEscape (fmtV y) ++ (goStr "&b+c=" ++ QueryEscape (fmtV x)))) ∧
    (∀ x y : Any, fmtV x = goStr "1 2" → fmtV y = goStr "x=y" →
      ToFormString fmtV (some [(goStr "b c", x), (goStr "a&", y)])
        = goStr "a%26=x%3Dy&b+c=1+2") := by
  have hinst : ∀ x y : Any,
      ToFormString fmtV (some [(goStr "b c", x), (goStr "a&", y)])
        = goStr "a%26=" ++ (QueryEscape (fmtV y) ++ (goStr "&b+c=" ++ QueryEscape (fmtV x))) := by
    intro x y
    have hnd : ([(goStr "b c", x), (goStr "a&", y)].map Prod.fst).Nodup := by
      show [goStr "b c", goStr "a&"].Nodup
      decide
    rw [toFormString_eq fmtV _ hnd]
    have hs : sortStrings ([(goStr "b c", x), (goStr "a&", y)].map Prod.fst)
        = [goStr "a&", goStr "b c"] := by
      show sortStrings [goStr "b c", goStr "a&"] = _
      decide
    rw [hs]
    have e1 : QueryEscape (goStr "a&") = [97, 37, 50, 54] := by decide
    have e2 : QueryEscape (goStr "b c") = [98, 43, 99] := by decide
    have g1 : goStr "a%26=" = [97, 37, 50, 54, 61] := by decide
    have g2 : goStr "&b+c=" = [38, 98, 43, 99, 61] := by decide
    have l1 : ([(goStr "b c", x), (goStr "a&", y)].lookup (goStr "a&")).getD .nil = y := rfl
    have l2 : ([(goStr "b c", x), (goStr "a&", y)].lookup (goStr "b c")).getD .nil = x := rfl
    simp only [List.map_cons, List.map_nil, e1, e2, g1, g2, l1, l2]
    simp [List.intercalate, List.intersperse]
  have hlook : ∀ m : List (GoString × Any), (m.map Prod.fst).Nodup →
      (m.map Prod.fst).map (fun k => (k, (m.lookup k).getD Any.nil)) = m := by
    intro m hnd
    rw [List.map_map]
    conv_rhs => rw [← List.map_id m]
    apply List.map_congr_left
    intro e he
    have := lookup_of_mem_nodup m e.1 e.2 hnd he
    simp [this]
  have hsorted : ∀ m l : List (GoString × Any), (m.map Prod.fst).Nodup → l.Perm m →
      (l.map Prod.fst).Pairwise (fun a b => strLess a b = true) →
      ToFormString fmtV (some m)
        = [38].intercalate
            (l.map (fun e => QueryEscape e.1 ++ 61 :: QueryEscape (fmtV e.2))) := by
    intro m l hnd hp hs
    rw [toFormString_eq fmtV m hnd,
      sortStrings_eq_of_sorted (m.map Prod.fst) (l.map Prod.fst) (hp.map _) hs, List.map_map]
    congr 1
    apply List.map_congr_left
    intro e he
    have := lookup_of_mem_nodup m e.1 e.2 hnd (hp.mem_iff.1 he)
    simp [this]
  have hex : ∀ m : List (GoString × Any), (m.map Prod.fst).Nodup →
      ∃ l : List (GoString × Any), l.Perm m ∧
        (l.map Prod.fst).Pairwise (fun a b => strLess a b = true) := by
    intro m hnd
    refine ⟨(sortStrings (m.map Prod.fst)).map (fun k => (k, (m.lookup k).getD Any.nil)), ?_, ?_⟩
    · have h1 := (sortStrings_perm (m.map Prod.fst)).map
        (fun k => (k, (m.lookup k).getD Any.nil))
      rw [hlook m hnd] at h1
      exact h1
    · have h2 : ((sortStrings (m.map Prod.fst)).map
          (fun k => (k, (m.lookup k).getD Any.nil))).map Prod.fst
          = sortStrings (m.map Prod.fst) := by
        rw [List.map_map]
        conv_rhs => rw [← List.map_id (sortStrings (m.map Prod.fst))]
        rfl
      rw [h2]
      exact sortStrings_strict _ hnd
  refine ⟨hsorted, hex, ?_, rfl, rfl, ?_, queryEscape_cons, by decide, hinst, ?_⟩
  · intro m m2 hnd hp
    obtain ⟨l, hl, hs⟩ := hex m hnd
    have hnd2 : (m2.map Prod.fst).Nodup := (hp.map Prod.fst).nodup_iff.2 hnd
    rw [hsorted m l hnd hl hs, hsorted m2 l hnd2 (hl.trans hp.symm) hs]
  · intro s hs
    exact ⟨queryUnescape_escape s hs, queryEscape_alphabet s hs,
      (queryEscape_no_separator s hs).1, (queryEscape_no_separator s hs).2⟩
  · intro x y hx hy
    rw [hinst x y, hx, hy]
    decide

/-- C20, at a concrete rendering: when a string is rendered as itself, the map with
the entries "b c": `1 2` and "a&": `x=y` gives `a%26=x%3Dy&b+c=1+2`. -/
theorem toFormString_spec_witness :
    ToFormString (fun v => match v with | .str s => s | _ => [])
        (some [(goStr "b c", .str (goStr "1 2")), (goStr "a&", .str (goStr "x=y"))])
      = goStr "a%26=x%3Dy&b+c=1+2" :=
  (toFormString_spec (fun v => match v with | .str s => s | _ => [])).2.2.2.2.2.2.2.2.2
    (.str (goStr "1 2")) (.str (goStr "x=y")) rfl rfl

end TeaUtil
